import Mathlib

/-! # Upfluence SSE API: a shallow embedding and its verified properties

The development follows the Go sources:

* `internal/model/post.go`              : `Post`, `Metrics`, `GetDimension`, `derefInt`
* `internal/aggregation/aggregation.go` : `Result`, `Aggregate`, `percentile`
* `internal/ingestion/store.go`         : `Store`, `bucket`, `Add`, `Query`, `Prune`
* `internal/sse/parser.go`              : `Parser`, `NextEvent`
* `internal/sse/client.go`              : `Consume`
* `internal/ingestion/collector.go`     : `Collect`
* `internal/worker/worker.go`           : one round of `Worker.Start`
* `internal/app/service.go`             : `Analyze`, `analyzeRealtime`, `analyzeHistorical`
* `internal/model/parser.go`            : `Parse`, `parseContent`
* `internal/model/request.go`           : `Request`, `Result`, `ToJSON`
* `internal/api/handler.go`, `errors.go`: `parseRequest`, `handleError`, `AnalysisHandler`

Conventions of the embedding.

* A Go `*int` / `*model.Post` pointer is an `Option`: `none` is `nil`.
* Go `int` / `int64` values are `Int`; lengths and slice indices are `Nat`.
  No arithmetic of the modelled functions comes near the 64-bit bounds
  (ranks are at most `99 * len`), so no wrap-around is modelled.
* A slice is a `List`.
-/

namespace Upfluence

/-! ## internal/model/post.go -/

/-- Metrics holds engagement metrics; `none` (a nil pointer) is missing data. -/
structure Metrics where
  Likes : Option Int := none
  Comments : Option Int := none
  Retweets : Option Int := none
  Favorites : Option Int := none
  Shares : Option Int := none
  Plays : Option Int := none
  Views : Option Int := none
  Saves : Option Int := none
  Repins : Option Int := none
  Dislikes : Option Int := none
  AvgViewers : Option Int := none
  PeakViewers : Option Int := none
deriving DecidableEq, Repr

/-- Post is a single social media entry. -/
structure Post where
  Timestamp : Int
  Metrics : Metrics := {}
deriving DecidableEq, Repr

/-- The Go function `derefInt`: `(0, false)` on nil, `(*v, true)` otherwise. -/
def derefInt (v : Option Int) : Int × Bool :=
  match v with
  | none => (0, false)
  | some x => (x, true)

/-- The Go method `Metrics.GetDimension`: a `switch` on the dimension name with
ten cases and a default. -/
def GetDimension (m : Metrics) (dimension : String) : Int × Bool :=
  if dimension = "likes" then derefInt m.Likes
  else if dimension = "comments" then derefInt m.Comments
  else if dimension = "retweets" then derefInt m.Retweets
  else if dimension = "favorites" then derefInt m.Favorites
  else if dimension = "shares" then derefInt m.Shares
  else if dimension = "plays" then derefInt m.Plays
  else if dimension = "views" then derefInt m.Views
  else if dimension = "saves" then derefInt m.Saves
  else if dimension = "repins" then derefInt m.Repins
  else if dimension = "dislikes" then derefInt m.Dislikes
  else (0, false)

/-! ## internal/aggregation/aggregation.go -/

/-- Result holds computed percentiles. -/
structure Result where
  TotalPosts : Nat := 0
  MinTimestamp : Int := 0
  MaxTimestamp : Int := 0
  P50 : Int := 0
  P90 : Int := 0
  P99 : Int := 0
deriving DecidableEq, Repr

/-- The standard-library `sort.Ints`: sorts a slice of ints in increasing
order.  Any sorting function yields the same list, the unique ascending
permutation; insertion sort is used because it evaluates structurally. -/
def sortInts (values : List Int) : List Int :=
  values.insertionSort (· ≤ ·)

/-- The Go function `percentile` on a sorted slice.  Both index expressions of
the source, `sorted[0]` and `sorted[rank]`, carry their bounds proof, so the
function is total: no index of the source can be out of range.  The local
`rank` of the source is `p * (n - 1) / 100`, replaced by `n - 1` when it is
`>= n`. -/
def percentile (sorted : List Int) (p : Nat) : Int :=
  if h0 : sorted.length = 0 then 0
  else if sorted.length = 1 then sorted.get ⟨0, by omega⟩
  else
    if h : (p * (sorted.length - 1)) / 100 ≥ sorted.length then
      sorted.get ⟨sorted.length - 1, by omega⟩
    else sorted.get ⟨(p * (sorted.length - 1)) / 100, by omega⟩

/-- The local variables of the loop of `Aggregate`. -/
structure AggState where
  values : List Int := []
  minTS : Int := 0
  maxTS : Int := 0
  first : Bool := true
deriving DecidableEq, Repr

/-- One iteration of the `for _, p := range posts` loop of `Aggregate`. -/
def aggStep (dimension : String) (st : AggState) (p : Option Post) : AggState :=
  match p with
  | none => st
  | some post =>
    let st1 : AggState :=
      if st.first then
        { st with minTS := post.Timestamp, maxTS := post.Timestamp, first := false }
      else
        { st with
          minTS := if post.Timestamp < st.minTS then post.Timestamp else st.minTS
          maxTS := if post.Timestamp > st.maxTS then post.Timestamp else st.maxTS }
    let r := GetDimension post.Metrics dimension
    if r.2 then { st1 with values := st1.values ++ [r.1] } else st1

/-- The Go function `Aggregate`: computes p50/p90/p99 for a dimension. -/
def Aggregate (posts : List (Option Post)) (dimension : String) : Result :=
  if posts.length = 0 then {}
  else
    let st := posts.foldl (aggStep dimension) {}
    if st.values.length = 0 then
      { TotalPosts := posts.length, MinTimestamp := st.minTS, MaxTimestamp := st.maxTS }
    else
      let sorted := sortInts st.values
      { TotalPosts := posts.length
        MinTimestamp := st.minTS
        MaxTimestamp := st.maxTS
        P50 := percentile sorted 50
        P90 := percentile sorted 90
        P99 := percentile sorted 99 }

/-- The value an entry contributes to the working list of `Aggregate`: the
value `GetDimension` reports on a non-null post, nothing otherwise. -/
def carried (dimension : String) (p : Option Post) : Option Int :=
  match p with
  | none => none
  | some post =>
    if (GetDimension post.Metrics dimension).2 then
      some (GetDimension post.Metrics dimension).1
    else none

/-- The posts built by `TestAggregate_Percentiles`: 100 posts whose likes are
1..100 and whose timestamps are 1000..1099. -/
def postsOneToHundred : List (Option Post) :=
  (List.range 100).map fun i =>
    some { Timestamp := 1000 + (i : Int), Metrics := { Likes := some ((i : Int) + 1) } }

/-! ## internal/ingestion/store.go

The store is modelled sequentially: the locks of the source delimit atomic
sections, and each operation below is one such section (or, for `Add`, two
consecutive ones).  `time.Now().Unix()` is the explicit argument `now`.
A `time.Duration` is an `Int` number of nanoseconds.

The Go map `map[int64]*bucket` is an association list of `(key, bucket)`
entries; the list order stands for the (unspecified) iteration order of the
map, so a statement that holds for every list holds for every iteration
order.  The operations keep the keys of the list distinct. -/

/-- The Go constant `time.Second`, in nanoseconds. -/
def Second : Int := 1000000000

/-- The Go constant `time.Hour`, in nanoseconds. -/
def Hour : Int := 3600 * Second

/-- The constant `bucketGranularity` of the source. -/
def bucketGranularity : Int := 5 * Second

/-- The constant `maxRetention` of the source. -/
def maxRetention : Int := 24 * Hour

/-- The expression `int64(d.Seconds())` of the source: the duration in seconds,
truncated toward zero.  (`Seconds` goes through a float64; the conversion is
exact on whole-second durations and on every duration shorter than 2^24
seconds, which covers the 24 hours the handler lets through.) -/
def durationSeconds (d : Int) : Int := d.tdiv Second

/-- The Go type `bucket`: the posts of one time slot (its lock is not modelled). -/
structure bucket where
  posts : List (Option Post) := []
deriving DecidableEq, Repr

/-- Store keeps posts in time buckets. -/
structure Store where
  buckets : List (Int × bucket) := []
deriving DecidableEq, Repr

/-- NewStore initializes an empty store. -/
def NewStore : Store := { buckets := [] }

/-- The Go method `bucket.add`: `b.posts = append(b.posts, p)`. -/
def bucket.add (b : bucket) (p : Option Post) : bucket :=
  { posts := b.posts ++ [p] }

/-- The Go method `bucket.getPosts`: a copy of the posts. -/
def bucket.getPosts (b : bucket) : List (Option Post) :=
  b.posts

/-- The map read `s.buckets[key]`: the bucket stored under `key`, if any. -/
def mapGet (m : List (Int × bucket)) (key : Int) : Option bucket :=
  match m with
  | [] => none
  | e :: rest => if e.1 = key then some e.2 else mapGet rest key

/-- The effect of a method called through the pointer stored under `key`: the
bucket under `key` is replaced by its image. -/
def mapModify (m : List (Int × bucket)) (key : Int) (f : bucket → bucket) :
    List (Int × bucket) :=
  match m with
  | [] => []
  | e :: rest =>
    if e.1 = key then (e.1, f e.2) :: rest else e :: mapModify rest key f

/-- The Go builtin `delete(m, key)`. -/
def mapDelete (m : List (Int × bucket)) (key : Int) : List (Int × bucket) :=
  m.filter fun e => decide (e.1 ≠ key)

/-- The Go method `Store.Add`: inserts a post into the current bucket.
Integer division of Go truncates toward zero. -/
def Store.Add (s : Store) (now : Int) (p : Option Post) : Store :=
  match p with
  | none => s
  | some _ =>
    let key := (now.tdiv 5) * 5
    let m : List (Int × bucket) :=
      match mapGet s.buckets key with
      | some _ => s.buckets
      | none => s.buckets ++ [(key, { posts := [] })]
    { buckets := mapModify m key fun b => b.add p }

/-- The Go method `Store.Query`: fetches posts within the given duration. -/
def Store.Query (s : Store) (duration : Int) (now : Int) : List (Option Post) :=
  let cutoff := now - durationSeconds duration
  s.buckets.foldl
    (fun posts e => if e.1 ≥ cutoff then posts ++ e.2.getPosts else posts) []

/-- The Go method `Store.Prune`: deletes expired buckets and returns how many.
The loop visits every entry of the map once; an entry is deleted only while it
is the one being visited. -/
def Store.Prune (s : Store) (now : Int) : Nat × Store :=
  let cutoff := now - durationSeconds maxRetention
  s.buckets.foldl
    (fun (acc : Nat × Store) e =>
      if e.1 < cutoff then (acc.1 + 1, { buckets := mapDelete acc.2.buckets e.1 })
      else acc)
    (0, s)

/-- BucketCount returns active bucket count. -/
def Store.BucketCount (s : Store) : Nat := s.buckets.length

/-- TotalPosts returns total stored posts. -/
def Store.TotalPosts (s : Store) : Nat :=
  s.buckets.foldl (fun total e => total + e.2.posts.length) 0

/-- MinDuration is the smallest queryable window. -/
def Store.MinDuration (_s : Store) : Int := bucketGranularity

/-- MaxDuration is the largest queryable window. -/
def Store.MaxDuration (_s : Store) : Int := maxRetention

/-- A call on the store, as issued by the worker, the pruner or a request. -/
inductive Op where
  | add (p : Option Post)
  | query (duration : Int)
  | prune
deriving DecidableEq, Repr

/-- The store after one call made at time `now`.  `Query` only reads. -/
def Store.step (s : Store) (now : Int) (op : Op) : Store :=
  match op with
  | Op.add p => s.Add now p
  | Op.query _ => s
  | Op.prune => (s.Prune now).2

/-- The store after a sequence of timed calls. -/
def Store.run (s : Store) (calls : List (Int × Op)) : Store :=
  calls.foldl (fun st c => st.step c.1 c.2) s

/-- The bucket key of an arrival time: `(now / 5) * 5` with Go division. -/
def bucketKey (now : Int) : Int := (now.tdiv 5) * 5

/-- The concatenation of the post sequences of the buckets of `m` whose key is
at or after `cutoff`, in the order of `m`. -/
def windowPosts (cutoff : Int) (m : List (Int × bucket)) : List (Option Post) :=
  (m.filter fun e => decide (e.1 ≥ cutoff)).flatMap fun e => e.2.posts

/-- The keys of the bucket map are distinct, as in every Go map. -/
def Store.keysDistinct (s : Store) : Prop :=
  (s.buckets.map Prod.fst).Nodup

/-- The map `m` holds post `p` in the bucket of key `key`. -/
def holdsPost (m : List (Int × bucket)) (key : Int) (p : Option Post) : Prop :=
  ∃ b, (key, b) ∈ m ∧ p ∈ b.posts

/-! ## Errors

The Go `error` values the modelled code creates or passes on. -/

/-- The error values of the program; a nil error is `none : Option Error`. -/
inductive Error where
  /-- The value `io.EOF`. -/
  | EOF
  /-- A read error of the response body, as reported by `bufio.Scanner.Err`. -/
  | read (msg : String)
  /-- A failure of `http.Client.Do` (or of building the request). -/
  | transport (msg : String)
  /-- The error `ErrHTTPStatus` wrapped with the status code. -/
  | ErrHTTPStatus (code : Nat)
  /-- The value `context.Canceled`. -/
  | Canceled
  /-- The value `context.DeadlineExceeded`. -/
  | DeadlineExceeded
  /-- The value `ErrNoDataCollected` of the service. -/
  | ErrNoDataCollected
  /-- The value `ErrNoDataAvailable` of the service. -/
  | ErrNoDataAvailable
  /-- The value `ErrNoPostData` of package model. -/
  | ErrNoPostData
  /-- The value `ErrInvalidFormat` of package model, wrapped with a detail. -/
  | ErrInvalidFormat
  /-- The value `ErrMissingTimestamp` of package model. -/
  | ErrMissingTimestamp
deriving DecidableEq, Repr

/-! ## internal/sse/parser.go

A byte string is a `List Char`.  The `bufio.Scanner` of the source is library
code: it is modelled by what it delivers, the lines still to come and the
error, if any, it reports once they are exhausted. -/

/-- The state of a `bufio.Scanner` with the default line splitter. -/
structure Scanner where
  lines : List (List Char) := []
  err : Option Error := none
deriving DecidableEq, Repr

/-- The segments of a text between its newline characters. -/
def splitNewlines : List Char → List (List Char)
  | [] => [[]]
  | c :: cs =>
    if c = '\n' then [] :: splitNewlines cs
    else
      match splitNewlines cs with
      | seg :: rest => (c :: seg) :: rest
      | [] => [[c]]

/-- The function `dropCR` of package bufio: drops one trailing carriage return. -/
def dropCR (line : List Char) : List Char :=
  if line.getLast? = some '\r' then line.dropLast else line

/-- Modelled from the Go standard library, `bufio.ScanLines`: each line of the
text without its end-of-line marker (one optional carriage return and a
newline); the last line is delivered without a newline if it is not empty.
The limit of the scanner on the length of a line is not part of this
function. -/
def ScanLines (data : List Char) : List (List Char) :=
  let segs := splitNewlines data
  (if segs.getLast? = some [] then segs.dropLast else segs).map dropCR

/-- The constant `dataPrefix` of the source. -/
def dataPrefix : List Char := "data: ".toList

/-- The standard-library `strings.HasPrefix`. -/
def HasPrefix (s pre : List Char) : Bool := pre.isPrefixOf s

/-- The standard-library `strings.TrimPrefix`. -/
def TrimPrefix (s pre : List Char) : List Char :=
  if HasPrefix s pre then s.drop pre.length else s

/-- Parser extracts SSE data frames. -/
structure Parser where
  scanner : Scanner
  buffer : List Char := []
deriving DecidableEq, Repr

/-- NewParser wraps a reader; the reader is given by the scanner over it. -/
def NewParser (r : Scanner) : Parser := { scanner := r }

/-- The loop `for p.scanner.Scan()` of `NextEvent`, on the lines still to come
and the buffer.  It ends with `some result` when the loop returns an event at
a blank line, with `none` when `Scan` returns false; in both cases with the
lines left and the buffer. -/
def scanLoop (lines : List (List Char)) (buffer : List Char) :
    Option (List Char) × List (List Char) × List Char :=
  match lines with
  | [] => (none, [], buffer)
  | line :: rest =>
    if line = [] then
      if buffer.length > 0 then (some buffer, rest, buffer)
      else scanLoop rest buffer
    else if HasPrefix line ":".toList then scanLoop rest buffer
    else if HasPrefix line dataPrefix then
      let data := TrimPrefix line dataPrefix
      let buffer1 := if buffer.length > 0 then buffer ++ ['\n'] else buffer
      scanLoop rest (buffer1 ++ data)
    else scanLoop rest buffer

/-- The Go method `Parser.NextEvent`: the next data payload and the error,
with the parser after the call.  A nil payload is `none`. -/
def NextEvent (p : Parser) : (Option (List Char) × Option Error) × Parser :=
  match scanLoop p.scanner.lines [] with
  | (some result, rest, buffer) =>
    ((some result, none), { scanner := { p.scanner with lines := rest }, buffer := buffer })
  | (none, rest, buffer) =>
    let p1 : Parser := { scanner := { p.scanner with lines := rest }, buffer := buffer }
    match p.scanner.err with
    | some err => ((none, some err), p1)
    | none =>
      if buffer.length > 0 then ((some buffer, some Error.EOF), p1)
      else ((none, some Error.EOF), p1)

/-- The events the Frame Parser yields: every payload returned by successive
`NextEvent` calls, up to and including the call that returns an error.  The
fuel bounds the number of calls; `lines.length + 1` calls always suffice. -/
def parserEvents (fuel : Nat) (p : Parser) : List (List Char) :=
  match fuel with
  | 0 => []
  | fuel + 1 =>
    match NextEvent p with
    | ((some data, none), p1) => data :: parserEvents fuel p1
    | ((none, none), p1) => parserEvents fuel p1
    | ((some data, some _), _) => [data]
    | ((none, some _), _) => []

/-- The events the Frame Parser yields for a body given by its scanner. -/
def frameEvents (body : Scanner) : List (List Char) :=
  parserEvents (body.lines.length + 1) (NewParser body)

/-- The line `data: d` carrying the payload `d`. -/
def dataLine (d : List Char) : List Char := dataPrefix ++ d

/-- The two buffer writes of `NextEvent` for one data line: a newline when the
buffer is not empty, then the payload. -/
def appendData (buffer d : List Char) : List Char :=
  (if buffer.length > 0 then buffer ++ ['\n'] else buffer) ++ d

/-! ## internal/sse/client.go

`Consume` is modelled for a context that is not cancelled and a consumer that
always receives: both `select` statements then take the branch that is not
`ctx.Done()`. -/

/-- What the GET request of `Consume` meets: a failure of `client.Do`, or a
response with its status code and the scanner over its body. -/
inductive Upstream where
  | failure (err : Error)
  | response (status : Nat) (body : Scanner)
deriving DecidableEq, Repr

/-- The `for` loop of `Consume`: the payloads published so far, then the
payloads published and the error returned.  A nil payload is published as an
empty byte string.  The result is `none` when the fuel runs out. -/
def consumeLoop (fuel : Nat) (parser : Parser) (published : List (List Char)) :
    Option (List (List Char) × Option Error) :=
  match fuel with
  | 0 => none
  | fuel + 1 =>
    match NextEvent parser with
    | ((_, some err), _) =>
      if err = Error.EOF then some (published, none) else some (published, some err)
    | ((data, none), parser1) =>
      consumeLoop fuel parser1 (published ++ [data.getD []])

/-- The Go method `Client.Consume`: the payloads sent on `messages`, in order,
and the error returned. -/
def Consume (up : Upstream) : Option (List (List Char) × Option Error) :=
  match up with
  | Upstream.failure err => some ([], some err)
  | Upstream.response status body =>
    if status ≠ 200 then some ([], some (Error.ErrHTTPStatus status))
    else consumeLoop (body.lines.length + 1) (NewParser body) []

/-! ## internal/ingestion/collector.go

`Collect` is modelled for a context that is not done during the call: the
goroutine runs `Consume` to its end and closes the channel, and the `select`
of the receiving loop only ever has the channel ready, so the loop handles
every published message in order and then sees the channel closed.
`model.Parse` is an argument of the model. -/

/-- The Go method `Collector.Collect` under a context that is not done: the
posts passed to the handler, in order, and the error returned.  The error of
`Consume` is only logged by the goroutine. -/
def Collect (parse : List Char → Except Error Post) (up : Upstream) :
    Option (List Post × Option Error) :=
  match Consume up with
  | none => none
  | some (messages, _consumeErr) =>
    some (messages.filterMap (fun msg =>
      match parse msg with
      | Except.ok post => some post
      | Except.error _ => none), none)

/-! ## internal/worker/worker.go -/

/-- What one round of the loop of `Worker.Start` does after `collect` has
returned. -/
inductive WorkerAction where
  /-- The statement `return ctx.Err()`. -/
  | stop (err : Error)
  /-- The call `time.Sleep(5 * time.Second)` followed by the next round. -/
  | sleepThenRetry (seconds : Nat)
  /-- The next round at once: `collect` returned nil. -/
  | retryNow
deriving DecidableEq, Repr

/-- The `default` branch of the `select` of `Worker.Start`, from the error
returned by `collect` and the value of `ctx.Err()` after it. -/
def workerRound (collectErr : Option Error) (ctxErr : Option Error) : WorkerAction :=
  match collectErr with
  | some _ =>
    match ctxErr with
    | some err => WorkerAction.stop err
    | none => WorkerAction.sleepThenRetry 5
  | none => WorkerAction.retryNow

/-! ## internal/model/request.go, internal/api/handler.go -/

/-- Request captures analysis params; the duration is in nanoseconds. -/
structure Request where
  Duration : Int
  Dimension : String
deriving DecidableEq, Repr

/-- The Go type `model.Result`: the analysis output. -/
structure model.Result where
  TotalPosts : Nat := 0
  MinTimestamp : Int := 0
  MaxTimestamp : Int := 0
  P50 : Int := 0
  P90 : Int := 0
  P99 : Int := 0
deriving DecidableEq, Repr

/-- AnalysisResponse pairs a result with its execution mode. -/
structure AnalysisResponse where
  Result : model.Result
  Mode : String
deriving DecidableEq, Repr

/-! ## internal/app/service.go

A Go result `(*AnalysisResponse, error)` is an `Except Error AnalysisResponse`. -/

/-- The constant `realtimeThreshold` of the source. -/
def realtimeThreshold : Int := 60 * Second

/-- The Go method `Service.analyzeRealtime`, from what `collector.Collect`
handed to the callback and the error it returned. -/
def analyzeRealtime (collected : List Post × Option Error) (req : Request) :
    Except Error AnalysisResponse :=
  let posts : List (Option Post) := collected.1.map some
  let failure : Option Error :=
    match collected.2 with
    | some err => if err ≠ Error.DeadlineExceeded then some err else none
    | none => none
  match failure with
  | some err => Except.error err
  | none =>
    if posts.length = 0 then Except.error Error.ErrNoDataCollected
    else
      let agg := Aggregate posts req.Dimension
      Except.ok
        { Result :=
            { TotalPosts := agg.TotalPosts
              MinTimestamp := agg.MinTimestamp
              MaxTimestamp := agg.MaxTimestamp
              P50 := agg.P50
              P90 := agg.P90
              P99 := agg.P99 }
          Mode := "REALTIME" }

/-- The Go method `Service.analyzeHistorical`, on the store of the service at
time `now`. -/
def analyzeHistorical (store : Store) (now : Int) (req : Request) :
    Except Error AnalysisResponse :=
  let posts := store.Query req.Duration now
  if posts.length = 0 then Except.error Error.ErrNoDataAvailable
  else
    let agg := Aggregate posts req.Dimension
    if agg.P50 = 0 ∧ agg.P90 = 0 ∧ agg.P99 = 0 ∧ agg.TotalPosts > 0 then
      Except.error Error.ErrNoDataAvailable
    else
      Except.ok
        { Result :=
            { TotalPosts := agg.TotalPosts
              MinTimestamp := agg.MinTimestamp
              MaxTimestamp := agg.MaxTimestamp
              P50 := agg.P50
              P90 := agg.P90
              P99 := agg.P99 }
          Mode := "HISTORICAL" }

/-- The timestamps of the non-null entries of a list of posts, in order. -/
def timestamps (posts : List (Option Post)) : List Int :=
  posts.filterMap fun p => p.map fun post => post.Timestamp

/-- The value `m` is the least element of `l`. -/
def isMinOf (m : Int) (l : List Int) : Prop := m ∈ l ∧ ∀ t ∈ l, m ≤ t

/-- The value `m` is the greatest element of `l`. -/
def isMaxOf (m : Int) (l : List Int) : Prop := m ∈ l ∧ ∀ t ∈ l, t ≤ m

/-- The Go method `Service.Analyze`: realtime mode for durations of at most
60 seconds, historical mode otherwise.  The argument `collected` is the outcome
of the call of `collector.Collect` that `analyzeRealtime` makes on its own
stream; the store and the clock are those `analyzeHistorical` reads. -/
def Analyze (store : Store) (now : Int) (collected : List Post × Option Error)
    (req : Request) : Except Error AnalysisResponse :=
  if req.Duration ≤ realtimeThreshold then analyzeRealtime collected req
  else analyzeHistorical store now req

/-- The buffer `NextEvent` has accumulated when it has read the given lines,
none of them blank: the payloads of the data lines, written one after the
other by `appendData`. -/
def pendingData (lines : List (List Char)) : List Char :=
  ((lines.filter fun line => HasPrefix line dataPrefix).map
    fun line => TrimPrefix line dataPrefix).foldl appendData []

/-- The events of the lines still to come, given the buffer accumulated so
far, line by line; `flush` tells whether the input ends without a read error,
in which case a pending buffer is a last event. -/
def eventsFrom (flush : Bool) : List (List Char) → List Char → List (List Char)
  | [], buffer => if flush = true ∧ buffer.length > 0 then [buffer] else []
  | line :: rest, buffer =>
    if line = [] then
      if buffer.length > 0 then buffer :: eventsFrom flush rest []
      else eventsFrom flush rest buffer
    else if HasPrefix line ":".toList then eventsFrom flush rest buffer
    else if HasPrefix line dataPrefix then
      eventsFrom flush rest (appendData buffer (TrimPrefix line dataPrefix))
    else eventsFrom flush rest buffer

/-! ## encoding/json (Go standard library)

`model.Parse` hands its bytes to `json.Unmarshal`, which is library code.  It
is modelled on the JSON value the bytes spell: the syntax of JSON texts is not
modelled, and bytes that are not a JSON text are `none`.  The decoder is the
one of a 64-bit platform, where `int` has 64 bits. -/

/-- A JSON value.  A number literal is kept as the decoder distinguishes it:
`int` when it has neither fraction nor exponent, `real` otherwise.  An object
is the list of its members in the order of the text; a name may be repeated. -/
inductive JSON where
  | null
  | bool (b : Bool)
  | int (value : Int)
  | real (literal : String)
  | str (s : String)
  | arr (items : List JSON)
  | obj (members : List (String × JSON))

/-- Modelled from the Go standard library, `json.Unmarshal` into a
`map[string]json.RawMessage`, the assignment `m[key] = value` it makes for
each member: a repeated name keeps its place and takes the later value. -/
def rawSet (m : List (String × JSON)) (key : String) (value : JSON) :
    List (String × JSON) :=
  match m with
  | [] => [(key, value)]
  | e :: rest => if e.1 = key then (key, value) :: rest else e :: rawSet rest key value

/-- Modelled from the Go standard library, `json.Unmarshal` into a nil
`map[string]json.RawMessage`: an object fills the map member by member, `null`
leaves the map nil (of length 0), bytes that are not a JSON text and any other
value are an error.  The map is the list of its entries. -/
def unmarshalRaw (data : Option JSON) : Except Unit (List (String × JSON)) :=
  match data with
  | none => Except.error ()
  | some JSON.null => Except.ok []
  | some (JSON.obj members) =>
    Except.ok (members.foldl (fun m kv => rawSet m kv.1 kv.2) [])
  | some _ => Except.error ()

/-- The fields of the anonymous struct that `parseContent` decodes into. -/
inductive Field where
  | Timestamp | Likes | Comments | Retweets | Favorites | Shares | Plays | Views
  | Saves | Repins | Dislikes | AvgViewers | PeakViewers
deriving DecidableEq, Repr

/-- The `json:"..."` tag of each field of the struct of `parseContent`. -/
def Field.tag : Field → String
  | Field.Timestamp => "timestamp"
  | Field.Likes => "likes"
  | Field.Comments => "comments"
  | Field.Retweets => "retweets"
  | Field.Favorites => "favorites"
  | Field.Shares => "shares"
  | Field.Plays => "plays"
  | Field.Views => "views"
  | Field.Saves => "saves"
  | Field.Repins => "repins"
  | Field.Dislikes => "dislikes"
  | Field.AvgViewers => "avg_viewers"
  | Field.PeakViewers => "peak_viewers"

/-- The fields of the struct of `parseContent`, in declaration order. -/
def allFields : List Field :=
  [Field.Timestamp, Field.Likes, Field.Comments, Field.Retweets, Field.Favorites,
    Field.Shares, Field.Plays, Field.Views, Field.Saves, Field.Repins, Field.Dislikes,
    Field.AvgViewers, Field.PeakViewers]

/-- Modelled from the Go standard library, the case folding of object names in
encoding/json: an ASCII letter folds to its upper case, and so do the two
letters outside ASCII that are case variants of ASCII letters, the long s
(U+017F) and the Kelvin sign (U+212A).  Every other character outside ASCII
folds to a character outside ASCII and is left as it is, which does not change
which names match the tags, all ASCII. -/
def foldRune (c : Char) : Char :=
  if c = Char.ofNat 0x17F then 'S'
  else if c = Char.ofNat 0x212A then 'K'
  else c.toUpper

/-- Modelled from the Go standard library, `foldName` of encoding/json. -/
def foldName (s : String) : List Char := s.toList.map foldRune

/-- Modelled from the Go standard library, the field an object name decodes
into: the field whose tag is the name, exactly or up to case folding; `none`
for a name that matches no tag (its value is skipped). -/
def findField (key : String) : Option Field :=
  allFields.find? fun f => decide (foldName f.tag = foldName key)

/-- The anonymous struct `data` of `parseContent`, with its zero value. -/
structure contentData where
  Timestamp : Int := 0
  Likes : Option Int := none
  Comments : Option Int := none
  Retweets : Option Int := none
  Favorites : Option Int := none
  Shares : Option Int := none
  Plays : Option Int := none
  Views : Option Int := none
  Saves : Option Int := none
  Repins : Option Int := none
  Dislikes : Option Int := none
  AvgViewers : Option Int := none
  PeakViewers : Option Int := none
deriving DecidableEq, Repr

/-- Modelled from the Go standard library: storing an integer into a field;
a nil pointer field is allocated first. -/
def contentData.setInt (d : contentData) (f : Field) (n : Int) : contentData :=
  match f with
  | Field.Timestamp => { d with Timestamp := n }
  | Field.Likes => { d with Likes := some n }
  | Field.Comments => { d with Comments := some n }
  | Field.Retweets => { d with Retweets := some n }
  | Field.Favorites => { d with Favorites := some n }
  | Field.Shares => { d with Shares := some n }
  | Field.Plays => { d with Plays := some n }
  | Field.Views => { d with Views := some n }
  | Field.Saves => { d with Saves := some n }
  | Field.Repins => { d with Repins := some n }
  | Field.Dislikes => { d with Dislikes := some n }
  | Field.AvgViewers => { d with AvgViewers := some n }
  | Field.PeakViewers => { d with PeakViewers := some n }

/-- Modelled from the Go standard library: decoding the literal `null` into a
field sets a pointer field to nil and has no effect on the `int64` field. -/
def contentData.setNull (d : contentData) (f : Field) : contentData :=
  match f with
  | Field.Timestamp => d
  | Field.Likes => { d with Likes := none }
  | Field.Comments => { d with Comments := none }
  | Field.Retweets => { d with Retweets := none }
  | Field.Favorites => { d with Favorites := none }
  | Field.Shares => { d with Shares := none }
  | Field.Plays => { d with Plays := none }
  | Field.Views => { d with Views := none }
  | Field.Saves => { d with Saves := none }
  | Field.Repins => { d with Repins := none }
  | Field.Dislikes => { d with Dislikes := none }
  | Field.AvgViewers => { d with AvgViewers := none }
  | Field.PeakViewers => { d with PeakViewers := none }

/-- The integers an `int64`, and an `int` of a 64-bit platform, can hold. -/
def fitsInt64 (n : Int) : Bool :=
  decide (-9223372036854775808 ≤ n ∧ n ≤ 9223372036854775807)

/-- Modelled from the Go standard library: decoding one value into an integer
field.  `null` and an integer literal that fits are stored; every other value
is an `UnmarshalTypeError`. -/
def storeField (d : contentData) (f : Field) (v : JSON) : Except Unit contentData :=
  match v with
  | JSON.null => Except.ok (d.setNull f)
  | JSON.int n => if fitsInt64 n then Except.ok (d.setInt f n) else Except.error ()
  | _ => Except.error ()

/-- Modelled from the Go standard library: decoding the members of an object
into the struct, in the order of the text.  (The library goes on after a type
error and reports it at the end; only whether there is one is kept.) -/
def decodeMembers (members : List (String × JSON)) (d : contentData) :
    Except Unit contentData :=
  match members with
  | [] => Except.ok d
  | kv :: rest =>
    match findField kv.1 with
    | none => decodeMembers rest d
    | some f =>
      match storeField d f kv.2 with
      | Except.ok d1 => decodeMembers rest d1
      | Except.error e => Except.error e

/-- Modelled from the Go standard library, `json.Unmarshal(content, &data)` on
the zero struct: `null` has no effect, an object is decoded member by member,
every other value is an error. -/
def unmarshalContent (content : JSON) : Except Unit contentData :=
  match content with
  | JSON.null => Except.ok {}
  | JSON.obj members => decodeMembers members {}
  | _ => Except.error ()

/-! ## internal/model/parser.go -/

/-- The Go function `parseContent`.  The wrapped detail of `ErrInvalidFormat`
is not kept. -/
def parseContent (content : JSON) : Except Error Post :=
  match unmarshalContent content with
  | Except.error _ => Except.error Error.ErrInvalidFormat
  | Except.ok data =>
    if data.Timestamp = 0 then Except.error Error.ErrMissingTimestamp
    else
      Except.ok
        { Timestamp := data.Timestamp
          Metrics :=
            { Likes := data.Likes
              Comments := data.Comments
              Retweets := data.Retweets
              Favorites := data.Favorites
              Shares := data.Shares
              Plays := data.Plays
              Views := data.Views
              Saves := data.Saves
              Repins := data.Repins
              Dislikes := data.Dislikes
              AvgViewers := data.AvgViewers
              PeakViewers := data.PeakViewers } }

/-- The Go function `Parse`: decodes SSE JSON into a Post.  The loop over the
map returns at its first entry, the only one when the length is 1. -/
def Parse (data : Option JSON) : Except Error Post :=
  match unmarshalRaw data with
  | Except.error _ => Except.error Error.ErrInvalidFormat
  | Except.ok raw =>
    if raw.length ≠ 1 then Except.error Error.ErrNoPostData
    else
      match raw with
      | entry :: _ => parseContent entry.2
      | [] => Except.error Error.ErrNoPostData

/-- The value an object gives to a field: the value of its last member whose
name decodes into the field (exactly the tag, or the tag up to letter case). -/
def lookupField (members : List (String × JSON)) (f : Field) : Option JSON :=
  match members with
  | [] => none
  | kv :: rest =>
    match lookupField rest f with
    | some v => some v
    | none => if findField kv.1 = some f then some kv.2 else none

/-- The integer an object gives to a field, if it gives one. -/
def metricOf (members : List (String × JSON)) (f : Field) : Option Int :=
  match lookupField members f with
  | some (JSON.int n) => some n
  | _ => none

/-- Every member of the object that decodes into a field carries a value the
decoder stores: a 64-bit integer literal, or `null` for a metric. -/
def wellTyped (members : List (String × JSON)) : Bool :=
  members.all fun kv =>
    match findField kv.1, kv.2 with
    | none, _ => true
    | some _, JSON.int n => fitsInt64 n
    | some Field.Timestamp, _ => false
    | some _, JSON.null => true
    | some _, _ => false

/-- The content of a field of the struct of `parseContent`, read through its
name; the timestamp is always there. -/
def contentData.read (d : contentData) (f : Field) : Option Int :=
  match f with
  | Field.Timestamp => some d.Timestamp
  | Field.Likes => d.Likes
  | Field.Comments => d.Comments
  | Field.Retweets => d.Retweets
  | Field.Favorites => d.Favorites
  | Field.Shares => d.Shares
  | Field.Plays => d.Plays
  | Field.Views => d.Views
  | Field.Saves => d.Saves
  | Field.Repins => d.Repins
  | Field.Dislikes => d.Dislikes
  | Field.AvgViewers => d.AvgViewers
  | Field.PeakViewers => d.PeakViewers

/-! ## internal/model/post.go, internal/model/request.go: validation and output -/

/-- ValidDimensions enumerates allowed metrics. -/
def ValidDimensions : List String := ["likes", "comments", "favorites", "retweets"]

/-- IsValidDimension checks if dim is allowed. -/
def IsValidDimension (dimension : String) : Bool := ValidDimensions.contains dimension

/-- The Go method `Result.ToJSON`: the map of the HTTP response, as the list of
its entries. -/
def model.Result.ToJSON (r : model.Result) (dimension : String) : List (String × Int) :=
  [("total_posts", (r.TotalPosts : Int)),
    ("minimum_timestamp", r.MinTimestamp),
    ("maximum_timestamp", r.MaxTimestamp),
    (dimension ++ "_p50", r.P50),
    (dimension ++ "_p90", r.P90),
    (dimension ++ "_p99", r.P99)]

/-! ## internal/api/errors.go, internal/api/handler.go -/

/-- The validation errors of package api. -/
inductive RequestError where
  | ErrMissingDuration
  | ErrInvalidDuration
  | ErrDurationTooShort
  | ErrDurationTooLong
  | ErrMissingDimension
  | ErrInvalidDimension
deriving DecidableEq, Repr

/-- The method `Error()` of the validation errors: the messages `errors.New`
receives. -/
def RequestError.message : RequestError → String
  | RequestError.ErrMissingDuration => "missing required parameter: duration"
  | RequestError.ErrInvalidDuration => "invalid duration format (use 5s, 30s, 5m, 1h, etc.)"
  | RequestError.ErrDurationTooShort => "duration too short (minimum: 5s)"
  | RequestError.ErrDurationTooLong => "duration too long (maximum: 24h)"
  | RequestError.ErrMissingDimension => "missing required parameter: dimension"
  | RequestError.ErrInvalidDimension =>
    "invalid dimension (allowed: likes, comments, favorites, retweets)"

/-- The method `Error()` of the error values of the program: the message given
to `errors.New` or built by `fmt.Errorf`, and the messages of the standard
library for its own values. -/
def Error.message : Error → String
  | Error.EOF => "EOF"
  | Error.read msg => msg
  | Error.transport msg => msg
  | Error.ErrHTTPStatus code => "invalid HTTP status: " ++ toString code
  | Error.Canceled => "context canceled"
  | Error.DeadlineExceeded => "context deadline exceeded"
  | Error.ErrNoDataCollected => "no data collected during the specified duration"
  | Error.ErrNoDataAvailable => "no data available for requested dimension and duration"
  | Error.ErrNoPostData => "no post data found"
  | Error.ErrInvalidFormat => "invalid format"
  | Error.ErrMissingTimestamp => "missing timestamp"

/-- The Go interface `Analyzer`, without the context argument. -/
structure Analyzer where
  Analyze : Request → Except Error AnalysisResponse
  GetMinDuration : Int
  GetMaxDuration : Int

/-- The Go methods `Service.GetMinDuration` and `Service.GetMaxDuration`, and
`Service.Analyze`, as the Analyzer the handler is wired to in `main`; `collect`
gives, for a request, the outcome of the `Collect` call of the realtime mode. -/
def Service.asAnalyzer (store : Store) (now : Int)
    (collect : Request → List Post × Option Error) : Analyzer :=
  { Analyze := fun req => Analyze store now (collect req) req
    GetMinDuration := store.MinDuration
    GetMaxDuration := store.MaxDuration }

/-- The Go method `Handler.parseRequest`, on the values `query.Get` returns for
"duration" and "dimension".  The standard-library `time.ParseDuration` is an
argument: `none` is its error, `some d` a duration in nanoseconds. -/
def parseRequest (analyzer : Analyzer) (ParseDuration : String → Option Int)
    (durationStr dimension : String) : Except RequestError Request :=
  if durationStr = "" then Except.error RequestError.ErrMissingDuration
  else
    match ParseDuration durationStr with
    | none => Except.error RequestError.ErrInvalidDuration
    | some duration =>
      if duration ≤ 0 then Except.error RequestError.ErrInvalidDuration
      else if duration < analyzer.GetMinDuration then
        Except.error RequestError.ErrDurationTooShort
      else if duration > analyzer.GetMaxDuration then
        Except.error RequestError.ErrDurationTooLong
      else if dimension = "" then Except.error RequestError.ErrMissingDimension
      else if IsValidDimension dimension = false then
        Except.error RequestError.ErrInvalidDimension
      else Except.ok { Duration := duration, Dimension := dimension }

/-- What the handler writes: an error status with its message (`http.Error`),
or the JSON body of a result with status 200. -/
inductive Response where
  | failure (status : Nat) (message : String)
  | success (body : List (String × Int))
deriving DecidableEq, Repr

/-- The Go method `Handler.handleError`. -/
def handleError (err : Error) : Response :=
  let msg := err.message
  if msg = "no data collected during the specified duration" ∨
      msg = "no data available for requested dimension and duration" then
    Response.failure 404 msg
  else Response.failure 500 "Internal server error"

/-- The Go method `Handler.AnalysisHandler`, on the method of the request and
its two query values. -/
def AnalysisHandler (analyzer : Analyzer) (ParseDuration : String → Option Int)
    (method durationStr dimension : String) : Response :=
  if method ≠ "GET" then Response.failure 405 "Method not allowed"
  else
    match parseRequest analyzer ParseDuration durationStr dimension with
    | Except.error err => Response.failure 400 err.message
    | Except.ok req =>
      match analyzer.Analyze req with
      | Except.error err => handleError err
      | Except.ok response => Response.success (response.Result.ToJSON req.Dimension)

/-! ## The locking of internal/ingestion/store.go

Each operation of the store is described by the sequence of lock calls and of
accesses to shared data it makes, in program order: the structural lock `s.mu`
guards the map `s.buckets`, the lock `b.mu` of a bucket guards its `posts`. -/

/-- A lock call or an access to shared data made by an operation of the store.
A bucket is named by its key. -/
inductive Access where
  /-- The call `s.mu.RLock()`. -/
  | mapRLock
  /-- The call `s.mu.RUnlock()`. -/
  | mapRUnlock
  /-- The call `s.mu.Lock()`. -/
  | mapLock
  /-- The call `s.mu.Unlock()`. -/
  | mapUnlock
  /-- The call `b.mu.RLock()`. -/
  | bucketRLock (key : Int)
  /-- The call `b.mu.RUnlock()`. -/
  | bucketRUnlock (key : Int)
  /-- The call `b.mu.Lock()`. -/
  | bucketLock (key : Int)
  /-- The call `b.mu.Unlock()`. -/
  | bucketUnlock (key : Int)
  /-- A read of the map `s.buckets`: a lookup, `len`, or a step of `range`. -/
  | mapRead
  /-- A write of the map `s.buckets`: an assignment or a `delete`. -/
  | mapWrite
  /-- A read of `b.posts`. -/
  | postsRead (key : Int)
  /-- A write of `b.posts`. -/
  | postsWrite (key : Int)
deriving DecidableEq, Repr

/-- The accesses of `Store.Add` called at time `now`. -/
def Store.AddAccesses (s : Store) (now : Int) (p : Option Post) : List Access :=
  match p with
  | none => []
  | some _ =>
    let key := (now.tdiv 5) * 5
    [Access.mapLock, Access.mapRead]
      ++ (match mapGet s.buckets key with
          | some _ => []
          | none => [Access.mapWrite])
      ++ [Access.mapUnlock, Access.bucketLock key, Access.postsRead key,
          Access.postsWrite key, Access.bucketUnlock key]

/-- The accesses of `Store.Query` called at time `now`; `b.getPosts()` locks
the bucket for reading around its copy. -/
def Store.QueryAccesses (s : Store) (duration : Int) (now : Int) : List Access :=
  let cutoff := now - durationSeconds duration
  [Access.mapRLock]
    ++ (s.buckets.flatMap fun e =>
        Access.mapRead ::
          (if e.1 ≥ cutoff then
            [Access.bucketRLock e.1, Access.postsRead e.1, Access.bucketRUnlock e.1]
          else []))
    ++ [Access.mapRUnlock]

/-- The accesses of `Store.Prune` called at time `now`. -/
def Store.PruneAccesses (s : Store) (now : Int) : List Access :=
  let cutoff := now - durationSeconds maxRetention
  [Access.mapLock]
    ++ (s.buckets.flatMap fun e =>
        Access.mapRead :: (if e.1 < cutoff then [Access.mapWrite] else []))
    ++ [Access.mapUnlock]

/-- The accesses of `Store.BucketCount`. -/
def Store.BucketCountAccesses (_s : Store) : List Access :=
  [Access.mapRLock, Access.mapRead, Access.mapRUnlock]

/-- The accesses of `Store.TotalPosts`: the loop reads `len(b.posts)` of every
bucket directly. -/
def Store.TotalPostsAccesses (s : Store) : List Access :=
  [Access.mapRLock]
    ++ (s.buckets.flatMap fun e => [Access.mapRead, Access.postsRead e.1])
    ++ [Access.mapRUnlock]

/-- The locks an operation holds: the mode of the structural lock (0 not held,
1 held for reading, 2 held for writing) and the bucket locks with their mode
(`true` for writing). -/
structure Held where
  map : Nat := 0
  buckets : List (Int × Bool) := []
deriving DecidableEq, Repr

/-- One lock call or access under the discipline: a lock is taken when it is
not held and released in the mode it is held; the map is read under the
structural lock and written under it in write mode; the posts of a bucket are
read under the lock of the bucket and written under it in write mode.  The
result is `none` when the discipline is broken. -/
def Held.step (h : Held) (a : Access) : Option Held :=
  match a with
  | Access.mapRLock => if h.map = 0 then some { h with map := 1 } else none
  | Access.mapRUnlock => if h.map = 1 then some { h with map := 0 } else none
  | Access.mapLock => if h.map = 0 then some { h with map := 2 } else none
  | Access.mapUnlock => if h.map = 2 then some { h with map := 0 } else none
  | Access.bucketRLock k =>
    if h.buckets.all (fun e => decide (e.1 ≠ k)) then
      some { h with buckets := (k, false) :: h.buckets }
    else none
  | Access.bucketRUnlock k =>
    if (k, false) ∈ h.buckets then
      some { h with buckets := h.buckets.filter fun e => decide (e.1 ≠ k) }
    else none
  | Access.bucketLock k =>
    if h.buckets.all (fun e => decide (e.1 ≠ k)) then
      some { h with buckets := (k, true) :: h.buckets }
    else none
  | Access.bucketUnlock k =>
    if (k, true) ∈ h.buckets then
      some { h with buckets := h.buckets.filter fun e => decide (e.1 ≠ k) }
    else none
  | Access.mapRead => if h.map ≠ 0 then some h else none
  | Access.mapWrite => if h.map = 2 then some h else none
  | Access.postsRead k =>
    if h.buckets.any (fun e => decide (e.1 = k)) then some h else none
  | Access.postsWrite k => if (k, true) ∈ h.buckets then some h else none

/-- The locks held after a sequence of accesses, `none` when one of them
breaks the discipline. -/
def Held.run (h : Held) (script : List Access) : Option Held :=
  match script with
  | [] => some h
  | a :: rest =>
    match h.step a with
    | some h1 => h1.run rest
    | none => none

/-- A sequence of accesses keeps the discipline: every access is made under its
lock and every lock is released at the end. -/
def disciplined (script : List Access) : Bool :=
  decide (Held.run {} script = some {})

/-! # Theorems -/

/-- The working list after the loop is the initial one followed by the carried
values, in order. -/
theorem foldl_aggStep_values (dimension : String) (posts : List (Option Post))
    (st : AggState) :
    (posts.foldl (aggStep dimension) st).values
      = st.values ++ posts.filterMap (carried dimension) := by
  induction posts generalizing st with
  | nil => simp
  | cons p ps ih =>
    rw [List.foldl_cons, ih]
    cases p with
    | none => simp [aggStep, carried]
    | some post =>
      by_cases h : (GetDimension post.Metrics dimension).2 = true
      · by_cases hf : st.first = true <;> simp [aggStep, carried, h, hf]
      · by_cases hf : st.first = true <;> simp [aggStep, carried, h, hf]

/-- On a non-empty list `percentile` selects the element of rank
`min (p * (n - 1) / 100) (n - 1)`. -/
theorem percentile_eq_getElem_opt (sorted : List Int) (p : Nat) (hne : sorted ≠ []) :
    sorted[min (p * (sorted.length - 1) / 100) (sorted.length - 1)]?
      = some (percentile sorted p) := by
  have hlen : 0 < sorted.length := List.length_pos.mpr hne
  unfold percentile
  split_ifs with h0 h1 h2
  · omega
  · simp [h1, List.getElem?_eq_getElem hlen]
  · have hm : min (p * (sorted.length - 1) / 100) (sorted.length - 1)
        = sorted.length - 1 := by
      apply Nat.min_eq_right
      simp only [ge_iff_le] at h2
      omega
    rw [hm, List.getElem?_eq_getElem (by omega)]
    simp
  · have h2w : p * (sorted.length - 1) / 100 < sorted.length := by
      simpa using h2
    have hlt : min (p * (sorted.length - 1) / 100) (sorted.length - 1)
        < sorted.length := by
      have := Nat.min_le_right (p * (sorted.length - 1) / 100) (sorted.length - 1)
      omega
    rw [List.getElem?_eq_getElem hlt]
    simp only [List.get_eq_getElem, Option.some.injEq]
    congr 1
    apply Nat.min_eq_left
    omega

/-- Whatever list is sorted ascending and a permutation of the working list is
the list `sort.Ints` produces. -/
theorem sortInts_unique (values sorted : List Int) (hperm : sorted.Perm values)
    (hsorted : sorted.Sorted (· ≤ ·)) : sortInts values = sorted := by
  unfold sortInts
  exact List.eq_of_perm_of_sorted
    ((List.perm_insertionSort _ values).trans hperm.symm)
    (List.sorted_insertionSort _ values) hsorted

/-- `Aggregate` reports the length of its input as `TotalPosts`. -/
theorem Aggregate_TotalPosts_eq_length (posts : List (Option Post)) (dimension : String) :
    (Aggregate posts dimension).TotalPosts = posts.length := by
  unfold Aggregate
  by_cases h0 : posts.length = 0
  · simp [h0]
  · simp only [h0, if_false]
    split_ifs <;> rfl

/-- When the working list is not empty the percentiles of `Aggregate` are those
of `percentile` on the sorted working list. -/
theorem Aggregate_percentiles_of_sorted (posts : List (Option Post)) (dimension : String)
    (sorted : List Int)
    (hperm : sorted.Perm (posts.filterMap (carried dimension)))
    (hsorted : sorted.Sorted (· ≤ ·)) (hne : sorted ≠ []) :
    (Aggregate posts dimension).P50 = percentile sorted 50 ∧
    (Aggregate posts dimension).P90 = percentile sorted 90 ∧
    (Aggregate posts dimension).P99 = percentile sorted 99 := by
  have hvals : (posts.foldl (aggStep dimension) {}).values
      = posts.filterMap (carried dimension) := by
    rw [foldl_aggStep_values]; rfl
  have hlen : sorted.length ≠ 0 := fun h => hne (List.length_eq_zero.mp h)
  have hvlen : (posts.filterMap (carried dimension)).length ≠ 0 := by
    rw [← hperm.length_eq]; exact hlen
  have hposts : posts.length ≠ 0 := by
    intro h
    rw [List.length_eq_zero] at h
    subst h
    simp at hvlen
  have hs : sortInts (posts.filterMap (carried dimension)) = sorted :=
    sortInts_unique _ _ hperm hsorted
  unfold Aggregate
  simp only [hposts, hvals, hvlen, if_false, hs]
  simp

/-- C1: whenever some non-null event carries the dimension, for the ascending
sort `sorted` of the collected values (any ascending permutation of them) and
`n` its length, `Aggregate` returns as P50, P90 and P99 the existing elements
`sorted[min (p * (n - 1) / 100) (n - 1)]` for `p = 50, 90, 99`; and on the 100
events carrying 1..100 it returns P50 = 50, P90 = 90, P99 = 99 with
TotalPosts = 100. -/
theorem Aggregate_percentiles_nearest_rank (posts : List (Option Post))
    (dimension : String) (sorted : List Int)
    (hcarry : ∃ post, some post ∈ posts ∧ (GetDimension post.Metrics dimension).2 = true)
    (hperm : sorted.Perm (posts.filterMap (carried dimension)))
    (hsorted : sorted.Sorted (· ≤ ·)) :
    (sorted[min (50 * (sorted.length - 1) / 100) (sorted.length - 1)]?
        = some (Aggregate posts dimension).P50 ∧
      sorted[min (90 * (sorted.length - 1) / 100) (sorted.length - 1)]?
        = some (Aggregate posts dimension).P90 ∧
      sorted[min (99 * (sorted.length - 1) / 100) (sorted.length - 1)]?
        = some (Aggregate posts dimension).P99) ∧
    ((Aggregate postsOneToHundred "likes").P50 = 50 ∧
      (Aggregate postsOneToHundred "likes").P90 = 90 ∧
      (Aggregate postsOneToHundred "likes").P99 = 99 ∧
      (Aggregate postsOneToHundred "likes").TotalPosts = 100) := by
  have hne : sorted ≠ [] := by
    obtain ⟨post, hmem, hdim⟩ := hcarry
    have hin : (GetDimension post.Metrics dimension).1
        ∈ posts.filterMap (carried dimension) := by
      rw [List.mem_filterMap]
      exact ⟨some post, hmem, by simp [carried, hdim]⟩
    intro hnil
    rw [hnil] at hperm
    rw [hperm.symm.eq_nil] at hin
    simp at hin
  obtain ⟨h50, h90, h99⟩ :=
    Aggregate_percentiles_of_sorted posts dimension sorted hperm hsorted hne
  refine ⟨⟨?_, ?_, ?_⟩, ?_⟩
  · rw [h50]; exact percentile_eq_getElem_opt sorted 50 hne
  · rw [h90]; exact percentile_eq_getElem_opt sorted 90 hne
  · rw [h99]; exact percentile_eq_getElem_opt sorted 99 hne
  · set_option maxRecDepth 100000 in decide

/-- Witness for C1: three events with likes 30, 10, 20 and one null entry;
the sorted working list is 10, 20, 30 and all three ranks are 0 or 1. -/
theorem Aggregate_percentiles_nearest_rank_witness :
    (Aggregate [some { Timestamp := 5, Metrics := { Likes := some 30 } }, none,
        some { Timestamp := 6, Metrics := { Likes := some 10 } },
        some { Timestamp := 7, Metrics := { Likes := some 20 } }] "likes").P50 = 20 ∧
    (Aggregate [some { Timestamp := 5, Metrics := { Likes := some 30 } }, none,
        some { Timestamp := 6, Metrics := { Likes := some 10 } },
        some { Timestamp := 7, Metrics := { Likes := some 20 } }] "likes").P99 = 20 := by
  have h := (Aggregate_percentiles_nearest_rank
    [some { Timestamp := 5, Metrics := { Likes := some 30 } }, none,
      some { Timestamp := 6, Metrics := { Likes := some 10 } },
      some { Timestamp := 7, Metrics := { Likes := some 20 } }] "likes" [10, 20, 30]
    ⟨{ Timestamp := 5, Metrics := { Likes := some 30 } }, by decide, by decide⟩
    (by decide) (by decide)).1
  refine ⟨?_, ?_⟩
  · have h1 := h.1
    simpa using h1.symm
  · have h3 := h.2.2
    simpa using h3.symm

/-- C2 (counterexample): on the input of the test "nil posts filtered", two
null entries around one post, TotalPosts is 3 while one entry is non-null; on
an input made of one null entry TotalPosts is 1, not 0. -/
theorem Aggregate_TotalPosts_counts_nil :
    (Aggregate [none, some { Timestamp := 1000, Metrics := { Likes := some 50 } }, none]
        "likes").TotalPosts = 3 ∧
    ([none, some { Timestamp := 1000, Metrics := { Likes := some 50 } }, none].filter
        (fun (p : Option Post) => p.isSome)).length = 1 ∧
    (Aggregate [none] "likes").TotalPosts = 1 := by
  decide

/-- C2 (amended): for every list of events and every dimension, TotalPosts is
the length of the list, null entries included, that is the number of non-null
entries plus the number of null entries; it is 0 on the empty input. -/
theorem Aggregate_TotalPosts_is_len (posts : List (Option Post)) (dimension : String) :
    (Aggregate posts dimension).TotalPosts = posts.length ∧
    (Aggregate posts dimension).TotalPosts
      = (posts.filter (fun (p : Option Post) => p.isSome)).length
        + (posts.filter (fun (p : Option Post) => p.isNone)).length ∧
    (Aggregate [] dimension).TotalPosts = 0 := by
  refine ⟨Aggregate_TotalPosts_eq_length posts dimension, ?_,
    Aggregate_TotalPosts_eq_length [] dimension⟩
  rw [Aggregate_TotalPosts_eq_length]
  induction posts with
  | nil => rfl
  | cons p ps ih =>
    cases p with
    | none => simp only [List.length_cons, List.filter_cons]; simp; omega
    | some _ => simp only [List.length_cons, List.filter_cons]; simp; omega

/-! ## The store -/

/-- Whole-second durations convert exactly. -/
theorem durationSeconds_mul_Second (secs : Int) :
    durationSeconds (secs * Second) = secs := by
  unfold durationSeconds
  exact Int.mul_tdiv_cancel secs (by decide)

/-- The retention horizon is 86400 seconds. -/
theorem durationSeconds_maxRetention : durationSeconds maxRetention = 86400 := by
  decide

/-- The loop of `Query`, from any accumulator. -/
theorem Query_foldl (cutoff : Int) (m : List (Int × bucket)) (acc : List (Option Post)) :
    m.foldl (fun posts e => if e.1 ≥ cutoff then posts ++ e.2.getPosts else posts) acc
      = acc ++ (m.filter fun e => decide (e.1 ≥ cutoff)).flatMap fun e => e.2.posts := by
  induction m generalizing acc with
  | nil => simp
  | cons e rest ih =>
    rw [List.foldl_cons, ih]
    by_cases h : e.1 ≥ cutoff
    · simp [h, List.filter_cons, bucket.getPosts, List.append_assoc]
    · simp [h, List.filter_cons]

/-- `Query` is the concatenation, in iteration order, of the buckets at or
after the cutoff. -/
theorem Query_eq_flatMap (s : Store) (duration now : Int) :
    s.Query duration now
      = (s.buckets.filter fun e => decide (e.1 ≥ now - durationSeconds duration)).flatMap
          fun e => e.2.posts := by
  unfold Store.Query
  simp only [Query_foldl, List.nil_append]

/-- The loop of `Prune`, from any accumulator. -/
theorem Prune_foldl (cutoff : Int) (l m : List (Int × bucket)) (n : Nat) :
    l.foldl
        (fun (acc : Nat × Store) e =>
          if e.1 < cutoff then (acc.1 + 1, { buckets := mapDelete acc.2.buckets e.1 })
          else acc)
        (n, { buckets := m })
      = (n + (l.filter fun e => decide (e.1 < cutoff)).length,
          { buckets := m.filter fun e =>
              decide (e.1 ∉ (l.filter fun x => decide (x.1 < cutoff)).map Prod.fst) }) := by
  induction l generalizing m n with
  | nil => simp
  | cons e rest ih =>
    rw [List.foldl_cons]
    by_cases h : e.1 < cutoff
    · simp only [h, if_true]
      rw [ih]
      simp only [mapDelete, List.filter_filter, List.filter_cons, h, decide_True, if_true,
        List.length_cons, List.map_cons, List.mem_cons, not_or]
      refine Prod.ext (by simp; omega) ?_
      simp only
      congr 1
      apply List.filter_congr
      intro x _
      by_cases hx : x.1 = e.1 <;> simp [hx]
    · simp only [h, if_false]
      rw [ih]
      have hf : (List.filter (fun x => decide (x.1 < cutoff)) (e :: rest))
          = List.filter (fun x => decide (x.1 < cutoff)) rest := by
        simp [List.filter_cons, h]
      rw [hf]

/-- `Prune` keeps exactly the entries at or after the cutoff and counts the
others. -/
theorem Prune_eq_filter (s : Store) (now : Int) :
    s.Prune now
      = ((s.buckets.filter fun e => decide (e.1 < now - 86400)).length,
          { buckets := s.buckets.filter fun e => decide (e.1 ≥ now - 86400) }) := by
  unfold Store.Prune
  rw [durationSeconds_maxRetention]
  have h := Prune_foldl (now - 86400) s.buckets s.buckets 0
  simp only [Nat.zero_add] at h
  cases s with
  | mk m =>
    simp only at h ⊢
    rw [h]
    refine Prod.ext rfl ?_
    simp only
    congr 1
    apply List.filter_congr
    intro x hx
    by_cases hlt : x.1 < now - 86400
    · have : x.1 ∈ (m.filter fun e => decide (e.1 < now - 86400)).map Prod.fst :=
        List.mem_map.mpr ⟨x, List.mem_filter.mpr ⟨hx, by simpa using hlt⟩, rfl⟩
      simp [this]
      omega
    · have : x.1 ∉ (m.filter fun e => decide (e.1 < now - 86400)).map Prod.fst := by
        intro hmem
        obtain ⟨y, hy, hxy⟩ := List.mem_map.mp hmem
        have hy2 := (List.mem_filter.mp hy).2
        rw [hxy] at hy2
        exact hlt (by simpa using hy2)
      simp only [this, not_false_eq_true, decide_True]
      simp; omega

/-- C8: for every store and time, Prune deletes exactly the buckets with
key < now - 86400, keeps every bucket with key >= now - 86400 with its posts
unchanged, returns the number of deleted buckets (old count minus new count),
and a second Prune at the same time deletes nothing and returns 0. -/
theorem Prune_removes_exactly_expired (s : Store) (now : Int) :
    (s.Prune now).2.buckets = (s.buckets.filter fun e => decide (e.1 ≥ now - 86400)) ∧
    (∀ e, e ∈ (s.Prune now).2.buckets ↔ (e ∈ s.buckets ∧ e.1 ≥ now - 86400)) ∧
    (s.Prune now).1 = (s.buckets.filter fun e => decide (e.1 < now - 86400)).length ∧
    (s.Prune now).1 = s.BucketCount - (s.Prune now).2.BucketCount ∧
    ((s.Prune now).2.Prune now).1 = 0 ∧
    ((s.Prune now).2.Prune now).2 = (s.Prune now).2 := by
  have hcount : ∀ m : List (Int × bucket),
      (m.filter fun e => decide (e.1 < now - 86400)).length
        + (m.filter fun e => decide (e.1 ≥ now - 86400)).length = m.length := by
    intro m
    induction m with
    | nil => rfl
    | cons e rest ih =>
      by_cases h : e.1 < now - 86400
      · have h2 : ¬ e.1 ≥ now - 86400 := by omega
        simp only [List.filter_cons, h, h2, decide_True, decide_False, if_true,
          List.length_cons]
        simp at ih ⊢
        omega
      · have h2 : e.1 ≥ now - 86400 := by omega
        simp only [List.filter_cons, h, h2, decide_True, decide_False, if_true,
          List.length_cons]
        simp at ih ⊢
        omega
  have hidem : ((s.buckets.filter fun e => decide (e.1 ≥ now - 86400)).filter
      fun e => decide (e.1 < now - 86400)) = [] := by
    rw [List.filter_filter, List.filter_eq_nil_iff]
    intro e _
    simp
    omega
  have hidem2 : ((s.buckets.filter fun e => decide (e.1 ≥ now - 86400)).filter
      fun e => decide (e.1 ≥ now - 86400))
        = (s.buckets.filter fun e => decide (e.1 ≥ now - 86400)) := by
    rw [List.filter_filter]
    apply List.filter_congr
    intro e _
    simp
  refine ⟨?_, ?_, ?_, ?_, ?_, ?_⟩
  · rw [Prune_eq_filter]
  · intro e
    rw [Prune_eq_filter]
    simp [List.mem_filter]
  · rw [Prune_eq_filter]
  · rw [Prune_eq_filter]
    simp only [Store.BucketCount]
    have := hcount s.buckets
    omega
  · rw [Prune_eq_filter, Prune_eq_filter]
    simp only [hidem, List.length_nil]
  · rw [Prune_eq_filter, Prune_eq_filter]
    simp only [hidem2]

/-- C9: for every store, whole-second duration and time, and for every
iteration order of the bucket map, Query returns, up to order, exactly the
concatenation of the post sequences of the buckets with key >= now - duration
(in iteration order when the order is fixed), every returned post comes from
such a bucket, and the call leaves the store unchanged. -/
theorem Query_returns_window (s : Store) (order : List (Int × bucket)) (secs now : Int)
    (horder : order.Perm s.buckets) :
    (Store.Query { buckets := order } (secs * Second) now).Perm
      ((s.buckets.filter fun e => decide (e.1 ≥ now - secs)).flatMap fun e => e.2.posts) ∧
    s.Query (secs * Second) now
      = ((s.buckets.filter fun e => decide (e.1 ≥ now - secs)).flatMap fun e => e.2.posts) ∧
    (∀ p ∈ Store.Query { buckets := order } (secs * Second) now,
      ∃ e ∈ s.buckets, e.1 ≥ now - secs ∧ p ∈ e.2.posts) ∧
    (∀ e ∈ s.buckets, e.1 < now - secs →
      ((s.buckets.filter fun x => decide (x.1 ≥ now - secs)).count e = 0)) ∧
    s.step now (Op.query (secs * Second)) = s := by
  have hq : ∀ m : List (Int × bucket),
      Store.Query { buckets := m } (secs * Second) now
        = ((m.filter fun e => decide (e.1 ≥ now - secs)).flatMap fun e => e.2.posts) := by
    intro m
    rw [Query_eq_flatMap, durationSeconds_mul_Second]
  refine ⟨?_, hq s.buckets, ?_, ?_, rfl⟩
  · rw [hq]
    exact List.Perm.flatMap_right _ (horder.filter _)
  · intro p hp
    rw [hq, List.mem_flatMap] at hp
    obtain ⟨e, he, hpe⟩ := hp
    rw [List.mem_filter] at he
    exact ⟨e, horder.subset he.1, by simpa using he.2, hpe⟩
  · intro e _ hlt
    rw [List.count_eq_zero]
    intro hmem
    have := (List.mem_filter.mp hmem).2
    simp at this
    omega

/-- Witness for C9: a store with buckets 0 and 10 read in the order 10, 0 with
a window of 5 seconds at time 12. -/
theorem Query_returns_window_witness :
    (Store.Query { buckets := [(10, { posts := [some { Timestamp := 2 }] }),
        (0, { posts := [some { Timestamp := 1 }] })] } (5 * Second) 12).Perm
      [some { Timestamp := 2 }] :=
  (Query_returns_window
    { buckets := [(0, { posts := [some { Timestamp := 1 }] }),
        (10, { posts := [some { Timestamp := 2 }] })] }
    [(10, { posts := [some { Timestamp := 2 }] }),
      (0, { posts := [some { Timestamp := 1 }] })] 5 12
    (List.Perm.swap _ _ [])).1

/-- `Add` of a non-nil post into an empty map creates the bucket. -/
theorem Add_buckets_nil (t : Int) (p : Post) :
    (Store.Add { buckets := [] } t (some p)).buckets
      = [(bucketKey t, { posts := [some p] })] := by
  simp [Store.Add, mapGet, mapModify, bucket.add, bucketKey]

/-- `Add` of a non-nil post, by the first entry of the map. -/
theorem Add_buckets_cons (e : Int × bucket) (rest : List (Int × bucket)) (t : Int)
    (p : Post) :
    (Store.Add { buckets := e :: rest } t (some p)).buckets
      = if e.1 = bucketKey t then (e.1, e.2.add (some p)) :: rest
        else e :: (Store.Add { buckets := rest } t (some p)).buckets := by
  simp only [bucketKey]
  by_cases h2 : e.1 = t.tdiv 5 * 5
  · simp only [Store.Add, mapGet, h2, if_true, mapModify]
  · simp only [Store.Add, mapGet, h2, if_false]
    cases hg : mapGet rest (t.tdiv 5 * 5) with
    | none => simp [mapModify, h2]
    | some b => simp [mapModify, h2]

/-- The window of a map, by its first entry. -/
theorem windowPosts_cons (cutoff : Int) (e : Int × bucket) (m : List (Int × bucket)) :
    windowPosts cutoff (e :: m)
      = (if e.1 ≥ cutoff then e.2.posts else []) ++ windowPosts cutoff m := by
  unfold windowPosts
  by_cases h : e.1 ≥ cutoff <;> simp [List.filter_cons, h]

/-- `Add` of a non-nil post puts one more post in the window when the key of
its bucket is in the window, and none otherwise. -/
theorem windowPosts_Add (cutoff : Int) (m : List (Int × bucket)) (t : Int) (p : Post) :
    (windowPosts cutoff (Store.Add { buckets := m } t (some p)).buckets).Perm
      ((if bucketKey t ≥ cutoff then [some p] else []) ++ windowPosts cutoff m) := by
  induction m with
  | nil =>
    rw [Add_buckets_nil, windowPosts_cons]
  | cons e rest ih =>
    rw [Add_buckets_cons]
    by_cases hk : e.1 = bucketKey t
    · rw [if_pos hk, windowPosts_cons, windowPosts_cons]
      by_cases hc : bucketKey t ≥ cutoff
      · have hc2 : e.1 ≥ cutoff := by rw [hk]; exact hc
        simp only [hc, hc2, if_true, bucket.add]
        rw [← List.append_assoc]
        exact List.Perm.append_right _ List.perm_append_comm
      · have hc2 : ¬ e.1 ≥ cutoff := by rw [hk]; exact hc
        simp only [hc, hc2, if_false, List.nil_append]
        exact List.Perm.refl _
    · simp only [hk, if_false]
      rw [windowPosts_cons, windowPosts_cons]
      refine (List.Perm.append_left _ ih).trans ?_
      rw [← List.append_assoc, ← List.append_assoc]
      exact List.Perm.append_right _ List.perm_append_comm

/-- After a run of non-nil `Add` calls the window holds, up to order, what it
held before and the posts added into buckets of the window. -/
theorem windowPosts_run_adds (cutoff : Int) (adds : List (Int × Post)) (s : Store) :
    (windowPosts cutoff
        (s.run (adds.map fun a => (a.1, Op.add (some a.2)))).buckets).Perm
      (windowPosts cutoff s.buckets
        ++ (adds.filter fun a => decide (bucketKey a.1 ≥ cutoff)).map fun a => some a.2) := by
  induction adds generalizing s with
  | nil => simp [Store.run]
  | cons a rest ih =>
    have hrun : s.run ((a :: rest).map fun a => (a.1, Op.add (some a.2)))
        = (s.Add a.1 (some a.2)).run (rest.map fun a => (a.1, Op.add (some a.2))) := by
      simp [Store.run, Store.step]
    rw [hrun]
    refine (ih (s.Add a.1 (some a.2))).trans ?_
    have hadd := windowPosts_Add cutoff s.buckets a.1 a.2
    by_cases hc : bucketKey a.1 ≥ cutoff
    · simp only [hc, if_true] at hadd
      simp only [List.filter_cons, hc, decide_True, if_true, List.map_cons]
      refine (List.Perm.append_right _ hadd).trans ?_
      simp only [List.singleton_append, List.cons_append]
      exact List.perm_middle.symm
    · simp only [hc, if_false, List.nil_append] at hadd
      simp only [List.filter_cons, hc, decide_False]
      exact List.Perm.append_right _ hadd

/-- `Add` of a non-nil post leaves the post in the bucket of its arrival time. -/
theorem holdsPost_Add_self (m : List (Int × bucket)) (t : Int) (p : Post) :
    holdsPost (Store.Add { buckets := m } t (some p)).buckets (bucketKey t) (some p) := by
  induction m with
  | nil =>
    rw [Add_buckets_nil]
    exact ⟨{ posts := [some p] }, by simp, by simp⟩
  | cons e rest ih =>
    rw [Add_buckets_cons]
    by_cases hk : e.1 = bucketKey t
    · simp only [hk, if_true]
      exact ⟨e.2.add (some p), by simp, by simp [bucket.add]⟩
    · simp only [hk, if_false]
      obtain ⟨b, hb, hp⟩ := ih
      exact ⟨b, List.mem_cons_of_mem _ hb, hp⟩

/-- `Add` never removes a post. -/
theorem holdsPost_Add (m : List (Int × bucket)) (key : Int) (p : Option Post) (t : Int)
    (q : Option Post) (h : holdsPost m key p) :
    holdsPost (Store.Add { buckets := m } t q).buckets key p := by
  cases q with
  | none => exact h
  | some post =>
    induction m with
    | nil =>
      obtain ⟨b, hb, _⟩ := h
      simp at hb
    | cons e rest ih =>
      rw [Add_buckets_cons]
      obtain ⟨b, hb, hp⟩ := h
      by_cases hk : e.1 = bucketKey t
      · rw [if_pos hk]
        rcases List.mem_cons.mp hb with heq | hmem
        · subst heq
          exact ⟨b.add (some post), by simp, by simp [bucket.add, hp]⟩
        · exact ⟨b, List.mem_cons_of_mem _ hmem, hp⟩
      · simp only [hk, if_false]
        rcases List.mem_cons.mp hb with heq | hmem
        · exact ⟨b, by rw [heq]; simp, hp⟩
        · obtain ⟨b2, hb2, hp2⟩ := ih ⟨b, hmem, hp⟩
          exact ⟨b2, List.mem_cons_of_mem _ hb2, hp2⟩

/-- A run of calls keeps a post as long as no `Prune` of the run expires the
key of its bucket. -/
theorem holdsPost_run (calls : List (Int × Op)) (s : Store) (key : Int) (p : Option Post)
    (h : holdsPost s.buckets key p)
    (hprune : ∀ c ∈ calls, c.2 = Op.prune → c.1 - 86400 ≤ key) :
    holdsPost (s.run calls).buckets key p := by
  induction calls generalizing s with
  | nil => exact h
  | cons c rest ih =>
    have hrun : s.run (c :: rest) = (s.step c.1 c.2).run rest := by
      simp [Store.run]
    rw [hrun]
    apply ih
    · cases hop : c.2 with
      | add q =>
        simp only [Store.step]
        exact holdsPost_Add s.buckets key p c.1 q h
      | query d => exact h
      | prune =>
        simp only [Store.step]
        rw [Prune_eq_filter]
        obtain ⟨b, hb, hp⟩ := h
        have hk := hprune c (List.mem_cons_self _ _) hop
        exact ⟨b, List.mem_filter.mpr ⟨hb, by simpa using hk⟩, hp⟩
    · intro c2 hc2 hop
      exact hprune c2 (List.mem_cons_of_mem _ hc2) hop

/-- The keys after `Add` of a non-nil post: the key of the arrival time is
added when it is new. -/
theorem Add_keys (m : List (Int × bucket)) (t : Int) (p : Post) :
    (Store.Add { buckets := m } t (some p)).buckets.map Prod.fst
      = if bucketKey t ∈ m.map Prod.fst then m.map Prod.fst
        else m.map Prod.fst ++ [bucketKey t] := by
  induction m with
  | nil => rw [Add_buckets_nil]; simp
  | cons e rest ih =>
    rw [Add_buckets_cons]
    by_cases hk : e.1 = bucketKey t
    · rw [if_pos hk]
      simp [hk]
    · rw [if_neg hk, List.map_cons, ih]
      have hk2 : ¬ bucketKey t = e.1 := fun h => hk h.symm
      by_cases hin : bucketKey t ∈ rest.map Prod.fst
      · simp only [hin, if_true, List.map_cons, List.mem_cons, or_true]
      · simp only [hin, if_false, List.map_cons, List.mem_cons, hk2, or_false,
          List.cons_append]

/-- The store starts with distinct keys and every call keeps them distinct. -/
theorem keysDistinct_step (s : Store) (now : Int) (op : Op) (h : s.keysDistinct) :
    NewStore.keysDistinct ∧ (s.step now op).keysDistinct := by
  refine ⟨by simp [Store.keysDistinct, NewStore], ?_⟩
  cases op with
  | add p =>
    cases p with
    | none => exact h
    | some post =>
      unfold Store.keysDistinct at h ⊢
      simp only [Store.step]
      rw [Add_keys]
      by_cases hin : bucketKey now ∈ s.buckets.map Prod.fst
      · rw [if_pos hin]; exact h
      · rw [if_neg hin]
        refine List.Nodup.append h (List.nodup_singleton _) ?_
        intro a ha hb
        rw [List.mem_singleton] at hb
        exact hin (hb ▸ ha)
  | query d => exact h
  | prune =>
    unfold Store.keysDistinct at h ⊢
    simp only [Store.step]
    rw [Prune_eq_filter]
    exact h.sublist ((List.filter_sublist _).map _)

/-- C3 (counterexample): a post added at arrival time 1000000009 sits in the
bucket of key 1000000005; a Query of 92 seconds at time 1000000100 has cutoff
1000000008, at or before the arrival time, and still returns nothing. -/
theorem Query_misses_post_in_window :
    (1000000009 : Int) ≤ 1000000100 ∧ (1000000100 : Int) - 92 ≤ 1000000009 ∧
    some ({ Timestamp := 1 } : Post)
      ∉ (NewStore.Add 1000000009 (some { Timestamp := 1 })).Query (92 * Second) 1000000100 ∧
    ((NewStore.Add 1000000009 (some { Timestamp := 1 })).Query (92 * Second)
      1000000100).length = 0 := by
  decide

/-- C3 (amended): a post added by Add at arrival time t is contained in the
result of every later Query(duration) evaluated at a time now >= t whose cutoff
now - duration is at or before the key floor(t / 5) * 5 of the post's bucket,
whatever calls were made in between, provided no Prune among them expired that
key; and when the bucket keys of all inserts made into a new store are at or
after the cutoff, the number of posts returned equals the number of inserts. -/
theorem Query_contains_added (s : Store) (t : Int) (p : Post) (calls : List (Int × Op))
    (adds : List (Int × Post)) (now secs : Int)
    (_hle : t ≤ now) (hwin : now - secs ≤ bucketKey t)
    (hprune : ∀ c ∈ calls, c.2 = Op.prune → c.1 - 86400 ≤ bucketKey t)
    (hadds : ∀ a ∈ adds, now - secs ≤ bucketKey a.1) :
    some p ∈ ((s.Add t (some p)).run calls).Query (secs * Second) now ∧
    ((NewStore.run (adds.map fun a => (a.1, Op.add (some a.2)))).Query (secs * Second)
        now).Perm (adds.map fun a => some a.2) ∧
    ((NewStore.run (adds.map fun a => (a.1, Op.add (some a.2)))).Query (secs * Second)
        now).length = adds.length := by
  have hq : ∀ st : Store, st.Query (secs * Second) now
      = windowPosts (now - secs) st.buckets := by
    intro st
    rw [Query_eq_flatMap, durationSeconds_mul_Second]
    rfl
  have hperm : ((NewStore.run (adds.map fun a => (a.1, Op.add (some a.2)))).Query
      (secs * Second) now).Perm (adds.map fun a => some a.2) := by
    rw [hq]
    have h := windowPosts_run_adds (now - secs) adds NewStore
    have hfil : (adds.filter fun a => decide (bucketKey a.1 ≥ now - secs)) = adds := by
      rw [List.filter_eq_self]
      intro a ha
      simpa using hadds a ha
    rw [hfil] at h
    simpa [NewStore, windowPosts] using h
  refine ⟨?_, hperm, ?_⟩
  · rw [hq]
    have hself : holdsPost (s.Add t (some p)).buckets (bucketKey t) (some p) :=
      holdsPost_Add_self s.buckets t p
    obtain ⟨b, hb, hp⟩ := holdsPost_run calls (s.Add t (some p)) (bucketKey t) (some p)
      hself hprune
    unfold windowPosts
    rw [List.mem_flatMap]
    exact ⟨(bucketKey t, b), List.mem_filter.mpr ⟨hb, by simpa using hwin⟩, hp⟩
  · rw [hperm.length_eq, List.length_map]

/-- Witness for C3: two inserts into a new store, a Prune between insert and
query, and a window of 95 seconds whose cutoff is the key of the first bucket. -/
theorem Query_contains_added_witness :
    some ({ Timestamp := 1 } : Post)
      ∈ ((NewStore.Add 1000000009 (some { Timestamp := 1 })).run
          [(1000000050, Op.prune)]).Query (95 * Second) 1000000100 ∧
    ((NewStore.run [(1000000009, Op.add (some { Timestamp := 1 })),
        (1000000011, Op.add (some { Timestamp := 2 }))]).Query (95 * Second)
      1000000100).length = 2 := by
  have h := Query_contains_added NewStore 1000000009 { Timestamp := 1 }
    [(1000000050, Op.prune)]
    [(1000000009, { Timestamp := 1 }), (1000000011, { Timestamp := 2 })]
    1000000100 95 (by decide) (by decide) (by decide) (by decide)
  exact ⟨h.1, h.2.2⟩

/-! ## The frame parser and the stream client -/

/-- A data line is not blank, is not a comment, and carries its payload. -/
theorem dataLine_facts (d : List Char) :
    dataLine d ≠ [] ∧ HasPrefix (dataLine d) ":".toList = false ∧
    HasPrefix (dataLine d) dataPrefix = true ∧ TrimPrefix (dataLine d) dataPrefix = d := by
  have hpre : HasPrefix (dataLine d) dataPrefix = true := by
    simp [HasPrefix, dataLine]
  refine ⟨by simp [dataLine, dataPrefix], rfl, hpre, ?_⟩
  unfold TrimPrefix
  rw [if_pos hpre]
  simp [dataLine]

/-- The loop of `NextEvent` over one data line. -/
theorem scanLoop_dataLine (d : List Char) (rest : List (List Char)) (buffer : List Char) :
    scanLoop (dataLine d :: rest) buffer = scanLoop rest (appendData buffer d) := by
  obtain ⟨h1, h2, h3, h4⟩ := dataLine_facts d
  rw [scanLoop]
  simp only [h1, h2, h3, h4, if_false, if_true, appendData]
  simp

/-- The loop of `NextEvent` over a run of data lines. -/
theorem scanLoop_dataLines (ds : List (List Char)) (rest : List (List Char))
    (buffer : List Char) :
    scanLoop (ds.map dataLine ++ rest) buffer = scanLoop rest (ds.foldl appendData buffer) := by
  induction ds generalizing buffer with
  | nil => rfl
  | cons d ds ih =>
    rw [List.map_cons, List.cons_append, scanLoop_dataLine, ih, List.foldl_cons]

/-- Once the buffer is not empty every further payload is written after a
newline. -/
theorem foldl_appendData_of_ne_nil (ds : List (List Char)) (buffer : List Char)
    (h : buffer ≠ []) :
    ds.foldl appendData buffer = buffer ++ ds.flatMap fun d => '\n' :: d := by
  induction ds generalizing buffer with
  | nil => simp
  | cons d ds ih =>
    have hlen : buffer.length > 0 := List.length_pos.mpr h
    have hstep : appendData buffer d = buffer ++ '\n' :: d := by
      simp [appendData, hlen]
    rw [List.foldl_cons, hstep, ih _ (by simp), List.flatMap_cons]
    simp

/-- Joining with newlines, by the first payload. -/
theorem intercalate_newline_cons (d : List Char) (ds : List (List Char)) :
    List.intercalate ['\n'] (d :: ds) = d ++ ds.flatMap fun x => '\n' :: x := by
  induction ds generalizing d with
  | nil => simp [List.intercalate]
  | cons e es ih =>
    have h := ih e
    simp only [List.intercalate, List.intersperse, List.flatten_cons, List.flatMap_cons] at h ⊢
    rw [h]
    simp

/-- When the first payload is not empty, data lines followed by a blank line
make `NextEvent` return the payloads joined with newlines, with a nil error. -/
theorem NextEvent_joins_data_lines (d : List Char) (ds : List (List Char))
    (rest : List (List Char)) (err : Option Error) (hd : d ≠ []) :
    (NextEvent (NewParser { lines := (d :: ds).map dataLine ++ [] :: rest, err := err })).1
      = (some (List.intercalate ['\n'] (d :: ds)), none) := by
  have hbuf : (d :: ds).foldl appendData [] = List.intercalate ['\n'] (d :: ds) := by
    have h0 : appendData [] d = d := by simp [appendData]
    rw [List.foldl_cons, h0, foldl_appendData_of_ne_nil ds d hd, intercalate_newline_cons]
  have hne : ((d :: ds).foldl appendData []).length > 0 := by
    rw [hbuf, intercalate_newline_cons]
    have := List.length_pos.mpr hd
    simp
    omega
  unfold NextEvent NewParser
  simp only [scanLoop_dataLines]
  rw [scanLoop]
  simp only [if_true, hne]
  rw [hbuf]

/-- C4 (the code at the failing input): for the body of the two data lines with
payloads "" and "b" and a blank line, `NextEvent` returns the event "b", while
the payloads joined with a newline are "\nb", a non-empty payload; the next
call reports the end of the sequence.  The example of the claim, the body with
payloads "a" and "b", yields the single event "a\nb". -/
theorem NextEvent_drops_newline_after_empty_data :
    ScanLines "data: \ndata: b\n\n".toList = [dataLine [], dataLine ['b'], []] ∧
    (NextEvent (NewParser { lines := ScanLines "data: \ndata: b\n\n".toList })).1
      = (some ['b'], none) ∧
    List.intercalate ['\n'] [[], ['b']] = ['\n', 'b'] ∧
    frameEvents { lines := ScanLines "data: \ndata: b\n\n".toList } = [['b']] ∧
    frameEvents { lines := ScanLines "data: a\ndata: b\n\n".toList } = [['a', '\n', 'b']] := by
  decide

/-- The loop of `NextEvent` never leaves more lines than it was given, and
leaves fewer when it returns an event. -/
theorem scanLoop_length (lines : List (List Char)) (buffer : List Char) :
    (scanLoop lines buffer).2.1.length ≤ lines.length ∧
    ((scanLoop lines buffer).1 ≠ none → (scanLoop lines buffer).2.1.length < lines.length) := by
  induction lines generalizing buffer with
  | nil => simp [scanLoop]
  | cons line rest ih =>
    have key : ∀ b, (scanLoop rest b).2.1.length ≤ (line :: rest).length ∧
        ((scanLoop rest b).1 ≠ none →
          (scanLoop rest b).2.1.length < (line :: rest).length) := by
      intro b
      have := (ih b).1
      simp only [List.length_cons]
      exact ⟨by omega, fun _ => by omega⟩
    rw [scanLoop]
    by_cases h1 : line = []
    · simp only [h1, if_true]
      by_cases h2 : buffer.length > 0
      · simp [h2]
      · simp only [h2, if_false]
        rw [h1] at key
        exact key buffer
    · simp only [h1, if_false]
      by_cases h3 : HasPrefix line ":".toList = true
      · simp only [h3, if_true]
        exact key buffer
      · simp only [h3]
        by_cases h4 : HasPrefix line dataPrefix = true
        · simp only [h4, if_true]
          exact key _
        · simp only [h4]
          exact key buffer

/-- A call of `NextEvent` that returns a nil error has consumed a line. -/
theorem NextEvent_progress (p : Parser) (h : (NextEvent p).1.2 = none) :
    (NextEvent p).2.scanner.lines.length < p.scanner.lines.length := by
  have hlen := scanLoop_length p.scanner.lines []
  unfold NextEvent at h ⊢
  rcases hs : scanLoop p.scanner.lines [] with ⟨r, rest, buf⟩
  rw [hs] at h hlen
  cases r with
  | some result =>
    simp only
    exact hlen.2 (by simp)
  | none =>
    simp only at h
    cases herr : p.scanner.err with
    | some e => rw [herr] at h; simp at h
    | none =>
      rw [herr] at h
      simp only at h
      split_ifs at h

/-- The loop of `Consume` returns within one call per line and one more. -/
theorem consumeLoop_isSome (fuel : Nat) (p : Parser) (published : List (List Char))
    (h : p.scanner.lines.length < fuel) :
    (consumeLoop fuel p published).isSome = true := by
  induction fuel generalizing p published with
  | zero => omega
  | succ n ih =>
    rw [consumeLoop]
    rcases hn : NextEvent p with ⟨⟨data, err⟩, p1⟩
    cases err with
    | some e =>
      simp only
      split_ifs <;> rfl
    | none =>
      simp only
      apply ih
      have hp := NextEvent_progress p (by rw [hn])
      rw [hn] at hp
      simp only at hp
      omega

/-- The Go method `Consume` always returns (under a context that is not
cancelled and a consumer that always receives). -/
theorem Consume_isSome (up : Upstream) : (Consume up).isSome = true := by
  cases up with
  | failure err => rfl
  | response status body =>
    unfold Consume
    simp only
    split_ifs
    · rfl
    · exact consumeLoop_isSome _ _ _ (by simp [NewParser])

/-- A call of `NextEvent` never returns a nil payload with a nil error. -/
theorem NextEvent_not_nil_nil (p : Parser) : (NextEvent p).1 ≠ (none, none) := by
  unfold NextEvent
  rcases scanLoop p.scanner.lines [] with ⟨r, rest, buf⟩
  cases r with
  | some result => simp
  | none =>
    simp only
    cases p.scanner.err with
    | some e => simp
    | none =>
      simp only
      split_ifs <;> simp

/-- What `Consume` publishes is what the Frame Parser yields, but for at most
one last event: the one `NextEvent` returns together with an error. -/
theorem consumeLoop_publishes (fuel : Nat) (p : Parser) (published out : List (List Char))
    (err : Option Error) (h : consumeLoop fuel p published = some (out, err)) :
    ∃ last, published ++ parserEvents fuel p = out ++ last ∧ last.length ≤ 1 := by
  induction fuel generalizing p published with
  | zero => simp [consumeLoop] at h
  | succ n ih =>
    rw [consumeLoop] at h
    rw [parserEvents]
    have hnn := NextEvent_not_nil_nil p
    rcases hn : NextEvent p with ⟨⟨data, e⟩, p1⟩
    rw [hn] at h hnn
    cases e with
    | some e1 =>
      simp only at h
      have hout : out = published := by
        split_ifs at h <;> simp at h <;> exact h.1.symm
      cases data with
      | some d => exact ⟨[d], by simp [hout], by simp⟩
      | none => exact ⟨[], by simp [hout], by simp⟩
    | none =>
      cases data with
      | none => exact absurd rfl hnn
      | some d =>
        simp only [Option.getD_some] at h
        obtain ⟨last, hl, hlen⟩ := ih p1 (published ++ [d]) h
        exact ⟨last, by simpa using hl, hlen⟩

/-- C5 (the code at the failing input): for the body "data: a", then a blank
line, then "data: b" without a terminating blank line, received with status
200, the Frame Parser yields the events "a" and "b" (the second one flushed
at the end of the input, together with io.EOF), and Consume publishes only "a"
before it returns nil. -/
theorem Consume_drops_flushed_event :
    frameEvents { lines := ScanLines "data: a\n\ndata: b".toList } = [['a'], ['b']] ∧
    (NextEvent (NextEvent (NewParser
        { lines := ScanLines "data: a\n\ndata: b".toList })).2).1
      = (some ['b'], some Error.EOF) ∧
    Consume (Upstream.response 200 { lines := ScanLines "data: a\n\ndata: b".toList })
      = some ([['a']], none) := by
  decide

/-! ## Collector, worker and service -/

/-- C6 (the code at the failing input): under a context that is not done,
Collect returns a nil error whatever Consume returned.  For a response with
status 500 Consume fails with ErrHTTPStatus and publishes nothing, Collect
returns nil with no post collected, the round of the worker that sees a nil
error reconnects at once (only a non-nil error leads to the 5 second wait), and
analyzeRealtime returns ErrNoDataCollected, not the stream failure.  The same
holds for a connection failure and for a read error in the middle of the
stream. -/
theorem Collect_returns_nil_on_stream_failure (parse : List Char → Except Error Post)
    (up : Upstream) (body : Scanner) (req : Request) :
    (Collect parse up).map (fun r => r.2) = some none ∧
    Consume (Upstream.response 500 body) = some ([], some (Error.ErrHTTPStatus 500)) ∧
    Collect parse (Upstream.response 500 body) = some ([], none) ∧
    Consume (Upstream.failure (Error.transport "connection refused"))
      = some ([], some (Error.transport "connection refused")) ∧
    Collect parse (Upstream.failure (Error.transport "connection refused"))
      = some ([], none) ∧
    Consume (Upstream.response 200
        { lines := [dataLine ['x']], err := some (Error.read "unexpected EOF") })
      = some ([], some (Error.read "unexpected EOF")) ∧
    Collect parse (Upstream.response 200
        { lines := [dataLine ['x']], err := some (Error.read "unexpected EOF") })
      = some ([], none) ∧
    workerRound none none = WorkerAction.retryNow ∧
    workerRound (some (Error.ErrHTTPStatus 500)) none = WorkerAction.sleepThenRetry 5 ∧
    analyzeRealtime ([], none) req = Except.error Error.ErrNoDataCollected := by
  have hgen : (Collect parse up).map (fun r => r.2) = some none := by
    unfold Collect
    have hsome := Consume_isSome up
    cases hc : Consume up with
    | none => rw [hc] at hsome; simp at hsome
    | some r => rfl
  have h500 : Consume (Upstream.response 500 body)
      = some ([], some (Error.ErrHTTPStatus 500)) := by
    simp [Consume]
  have hcol : Collect parse (Upstream.response 500 body) = some ([], none) := by
    unfold Collect
    rw [h500]
    rfl
  exact ⟨hgen, h500, hcol, rfl, rfl, by decide, rfl, rfl, rfl, rfl⟩

/-- The ten dimensions `GetDimension` knows are read from their fields, and
every name outside the twelve metric names is reported missing. -/
theorem GetDimension_known (m : Metrics) (dimension : String) :
    GetDimension m "likes" = derefInt m.Likes ∧
    GetDimension m "comments" = derefInt m.Comments ∧
    GetDimension m "retweets" = derefInt m.Retweets ∧
    GetDimension m "favorites" = derefInt m.Favorites ∧
    GetDimension m "shares" = derefInt m.Shares ∧
    GetDimension m "plays" = derefInt m.Plays ∧
    GetDimension m "views" = derefInt m.Views ∧
    GetDimension m "saves" = derefInt m.Saves ∧
    GetDimension m "repins" = derefInt m.Repins ∧
    GetDimension m "dislikes" = derefInt m.Dislikes ∧
    (dimension ∉ ["likes", "comments", "retweets", "favorites", "shares", "plays", "views",
        "saves", "repins", "dislikes", "avg_viewers", "peak_viewers"] →
      GetDimension m dimension = (0, false)) := by
  refine ⟨rfl, rfl, rfl, rfl, rfl, rfl, rfl, rfl, rfl, rfl, ?_⟩
  intro h
  simp only [List.mem_cons, List.mem_singleton, not_or, List.mem_nil_iff, or_false] at h
  obtain ⟨h1, h2, h3, h4, h5, h6, h7, h8, h9, h10, _, _⟩ := h
  simp [GetDimension, h1, h2, h3, h4, h5, h6, h7, h8, h9, h10]

/-- The Go function `derefInt` reports a value exactly when the field is
present with that value. -/
theorem derefInt_iff (v : Option Int) (x : Int) :
    (derefInt v = (x, true) ↔ v = some x) ∧ (v = none → derefInt v = (0, false)) := by
  cases v with
  | none => simp [derefInt]
  | some y => simp [derefInt]

/-- C7 (the code at the failing input): on the metrics of the "twitch stream"
test payload, avg_viewers = 324 and peak_viewers = 325, GetDimension returns
(0, false) for "avg_viewers" and for "peak_viewers", and it does so on every
Metrics value; so Aggregate collects no value from an event that carries
avg_viewers. -/
theorem GetDimension_misses_viewers (m : Metrics) :
    GetDimension { AvgViewers := some 324, PeakViewers := some 325 } "avg_viewers"
      = (0, false) ∧
    GetDimension { AvgViewers := some 324, PeakViewers := some 325 } "peak_viewers"
      = (0, false) ∧
    GetDimension m "avg_viewers" = (0, false) ∧
    GetDimension m "peak_viewers" = (0, false) ∧
    Aggregate
        [some { Timestamp := 1768512121, Metrics := { AvgViewers := some 324, PeakViewers := some 325 } }]
        "avg_viewers"
      = { TotalPosts := 1, MinTimestamp := 1768512121, MaxTimestamp := 1768512121,
          P50 := 0, P90 := 0, P99 := 0 } := by
  refine ⟨rfl, rfl, rfl, rfl, ?_⟩
  decide

/-- C10: in INDEXED mode, if Query returns no event the call fails with
ErrNoDataAvailable; if the percentiles of Aggregate over the returned events
are all 0 while TotalPosts > 0 it fails with ErrNoDataAvailable as well; in
every other case it succeeds with the six fields of Aggregate and the mode
HISTORICAL. -/
theorem analyzeHistorical_outcomes (store : Store) (now : Int) (req : Request) :
    (store.Query req.Duration now = [] →
      analyzeHistorical store now req = Except.error Error.ErrNoDataAvailable) ∧
    ((Aggregate (store.Query req.Duration now) req.Dimension).P50 = 0 ∧
        (Aggregate (store.Query req.Duration now) req.Dimension).P90 = 0 ∧
        (Aggregate (store.Query req.Duration now) req.Dimension).P99 = 0 ∧
        (Aggregate (store.Query req.Duration now) req.Dimension).TotalPosts > 0 →
      analyzeHistorical store now req = Except.error Error.ErrNoDataAvailable) ∧
    (store.Query req.Duration now ≠ [] ∧
        ¬ ((Aggregate (store.Query req.Duration now) req.Dimension).P50 = 0 ∧
          (Aggregate (store.Query req.Duration now) req.Dimension).P90 = 0 ∧
          (Aggregate (store.Query req.Duration now) req.Dimension).P99 = 0 ∧
          (Aggregate (store.Query req.Duration now) req.Dimension).TotalPosts > 0) →
      analyzeHistorical store now req = Except.ok
        { Result :=
            { TotalPosts := (Aggregate (store.Query req.Duration now) req.Dimension).TotalPosts,
              MinTimestamp :=
                (Aggregate (store.Query req.Duration now) req.Dimension).MinTimestamp,
              MaxTimestamp :=
                (Aggregate (store.Query req.Duration now) req.Dimension).MaxTimestamp,
              P50 := (Aggregate (store.Query req.Duration now) req.Dimension).P50,
              P90 := (Aggregate (store.Query req.Duration now) req.Dimension).P90,
              P99 := (Aggregate (store.Query req.Duration now) req.Dimension).P99 },
          Mode := "HISTORICAL" }) := by
  refine ⟨?_, ?_, ?_⟩
  · intro h
    simp [analyzeHistorical, h]
  · intro h
    unfold analyzeHistorical
    simp only
    split_ifs
    · rfl
    · rfl
  · rintro ⟨hne, hnz⟩
    have hlen : ¬ (store.Query req.Duration now).length = 0 := by
      rw [List.length_eq_zero]; exact hne
    unfold analyzeHistorical
    simp only [hlen, if_false]
    rw [if_neg hnz]

/-- Witness for C10: a store holding a post with likes 0 in bucket 1000000005
and a post with likes 7 in bucket 1000000010, read at time 1000000100.  A
window of 70 seconds holds no event; a window of 120 seconds holds both and
all percentiles are 0 although likes were carried; a window of 92 seconds
holds the second one and the call succeeds. -/
theorem analyzeHistorical_outcomes_witness :
    analyzeHistorical
        ((NewStore.Add 1000000009
            (some { Timestamp := 1, Metrics := { Likes := some 0 } })).Add 1000000011
          (some { Timestamp := 2, Metrics := { Likes := some 7 } }))
        1000000100 { Duration := 70 * Second, Dimension := "likes" }
      = Except.error Error.ErrNoDataAvailable ∧
    analyzeHistorical
        ((NewStore.Add 1000000009
            (some { Timestamp := 1, Metrics := { Likes := some 0 } })).Add 1000000011
          (some { Timestamp := 2, Metrics := { Likes := some 7 } }))
        1000000100 { Duration := 120 * Second, Dimension := "likes" }
      = Except.error Error.ErrNoDataAvailable ∧
    analyzeHistorical
        ((NewStore.Add 1000000009
            (some { Timestamp := 1, Metrics := { Likes := some 0 } })).Add 1000000011
          (some { Timestamp := 2, Metrics := { Likes := some 7 } }))
        1000000100 { Duration := 92 * Second, Dimension := "likes" }
      = Except.ok
          { Result := { TotalPosts := 1, MinTimestamp := 2, MaxTimestamp := 2,
                        P50 := 7, P90 := 7, P99 := 7 },
            Mode := "HISTORICAL" } := by
  refine ⟨?_, ?_, ?_⟩
  · exact (analyzeHistorical_outcomes _ 1000000100
      { Duration := 70 * Second, Dimension := "likes" }).1 (by decide)
  · exact (analyzeHistorical_outcomes _ 1000000100
      { Duration := 120 * Second, Dimension := "likes" }).2.1 (by decide)
  · exact (analyzeHistorical_outcomes _ 1000000100
      { Duration := 92 * Second, Dimension := "likes" }).2.2 (by decide)

/-! ## Timestamps of `Aggregate` -/

/-- Once the loop of `Aggregate` has seen a post, it keeps the least and the
greatest timestamp seen. -/
theorem foldl_aggStep_minmax_started (dimension : String) (posts : List (Option Post))
    (st : AggState) (h : st.first = false) :
    (posts.foldl (aggStep dimension) st).first = false ∧
    isMinOf (posts.foldl (aggStep dimension) st).minTS (st.minTS :: timestamps posts) ∧
    isMaxOf (posts.foldl (aggStep dimension) st).maxTS (st.maxTS :: timestamps posts) := by
  induction posts generalizing st with
  | nil => simp [timestamps, isMinOf, isMaxOf, h]
  | cons p ps ih =>
    rw [List.foldl_cons]
    cases p with
    | none =>
      have := ih st h
      simpa [aggStep, timestamps] using this
    | some post =>
      have hfirst : (aggStep dimension st (some post)).first = false := by
        by_cases hd : (GetDimension post.Metrics dimension).2 = true <;>
          simp [aggStep, h, hd]
      have hmin : (aggStep dimension st (some post)).minTS
          = if post.Timestamp < st.minTS then post.Timestamp else st.minTS := by
        by_cases hd : (GetDimension post.Metrics dimension).2 = true <;>
          simp [aggStep, h, hd]
      have hmax : (aggStep dimension st (some post)).maxTS
          = if post.Timestamp > st.maxTS then post.Timestamp else st.maxTS := by
        by_cases hd : (GetDimension post.Metrics dimension).2 = true <;>
          simp [aggStep, h, hd]
      obtain ⟨h1, ⟨hmem, hle⟩, ⟨hmem2, hge⟩⟩ := ih _ hfirst
      have hts : timestamps (some post :: ps) = post.Timestamp :: timestamps ps := by
        simp [timestamps]
      rw [hts]
      rw [hmin] at hmem hle
      rw [hmax] at hmem2 hge
      refine ⟨h1, ⟨?_, ?_⟩, ⟨?_, ?_⟩⟩
      · rcases List.mem_cons.mp hmem with heq | hin
        · rw [heq]
          split_ifs <;> simp
        · exact List.mem_cons_of_mem _ (List.mem_cons_of_mem _ hin)
      · intro t ht
        have h0 := hle _ (List.mem_cons_self _ _)
        rcases List.mem_cons.mp ht with heq | hin
        · rw [heq]; split_ifs at h0 <;> omega
        · rcases List.mem_cons.mp hin with heq | hin2
          · rw [heq]; split_ifs at h0 <;> omega
          · exact hle _ (List.mem_cons_of_mem _ hin2)
      · rcases List.mem_cons.mp hmem2 with heq | hin
        · rw [heq]
          split_ifs <;> simp
        · exact List.mem_cons_of_mem _ (List.mem_cons_of_mem _ hin)
      · intro t ht
        have h0 := hge _ (List.mem_cons_self _ _)
        rcases List.mem_cons.mp ht with heq | hin
        · rw [heq]; split_ifs at h0 <;> omega
        · rcases List.mem_cons.mp hin with heq | hin2
          · rw [heq]; split_ifs at h0 <;> omega
          · exact hge _ (List.mem_cons_of_mem _ hin2)

/-- From its initial state the loop of `Aggregate` leaves the timestamps
untouched when every entry is null, and otherwise ends with the least and the
greatest timestamp of the non-null entries. -/
theorem foldl_aggStep_minmax_initial (dimension : String) (posts : List (Option Post))
    (st : AggState) (h : st.first = true) :
    (timestamps posts = [] →
      (posts.foldl (aggStep dimension) st).minTS = st.minTS ∧
      (posts.foldl (aggStep dimension) st).maxTS = st.maxTS) ∧
    (timestamps posts ≠ [] →
      isMinOf (posts.foldl (aggStep dimension) st).minTS (timestamps posts) ∧
      isMaxOf (posts.foldl (aggStep dimension) st).maxTS (timestamps posts)) := by
  induction posts generalizing st with
  | nil => simp [timestamps]
  | cons p ps ih =>
    rw [List.foldl_cons]
    cases p with
    | none =>
      have := ih st h
      simpa [aggStep, timestamps] using this
    | some post =>
      have hts : timestamps (some post :: ps) = post.Timestamp :: timestamps ps := by
        simp [timestamps]
      rw [hts]
      refine ⟨fun hnil => by simp at hnil, fun _ => ?_⟩
      have hfirst : (aggStep dimension st (some post)).first = false := by
        by_cases hd : (GetDimension post.Metrics dimension).2 = true <;>
          simp [aggStep, h, hd]
      have hmin : (aggStep dimension st (some post)).minTS = post.Timestamp := by
        by_cases hd : (GetDimension post.Metrics dimension).2 = true <;>
          simp [aggStep, h, hd]
      have hmax : (aggStep dimension st (some post)).maxTS = post.Timestamp := by
        by_cases hd : (GetDimension post.Metrics dimension).2 = true <;>
          simp [aggStep, h, hd]
      have := foldl_aggStep_minmax_started dimension ps _ hfirst
      rw [hmin, hmax] at this
      exact ⟨this.2.1, this.2.2⟩

/-- The timestamps `Aggregate` returns: 0 and 0 when the list has no non-null
entry, the least and the greatest timestamp of the non-null entries otherwise. -/
theorem Aggregate_timestamps (posts : List (Option Post)) (dimension : String) :
    (timestamps posts = [] →
      (Aggregate posts dimension).MinTimestamp = 0 ∧
      (Aggregate posts dimension).MaxTimestamp = 0) ∧
    (timestamps posts ≠ [] →
      isMinOf (Aggregate posts dimension).MinTimestamp (timestamps posts) ∧
      isMaxOf (Aggregate posts dimension).MaxTimestamp (timestamps posts)) := by
  have hfold := foldl_aggStep_minmax_initial dimension posts {} rfl
  have hres : posts.length ≠ 0 →
      (Aggregate posts dimension).MinTimestamp
          = (posts.foldl (aggStep dimension) {}).minTS ∧
      (Aggregate posts dimension).MaxTimestamp
          = (posts.foldl (aggStep dimension) {}).maxTS := by
    intro h0
    unfold Aggregate
    simp only [h0, if_false]
    split_ifs <;> exact ⟨rfl, rfl⟩
  by_cases h0 : posts.length = 0
  · have hnil : posts = [] := List.length_eq_zero.mp h0
    subst hnil
    refine ⟨fun _ => ⟨rfl, rfl⟩, fun h => absurd rfl h⟩
  · obtain ⟨hmin, hmax⟩ := hres h0
    rw [hmin, hmax]
    exact hfold

/-- C16: for every list of events and every dimension, MinTimestamp and
MaxTimestamp of Aggregate are the minimum and the maximum of Timestamp over all
non-null events of the list, whether or not they carry the dimension; both are
0 when the list has no non-null event. -/
theorem Aggregate_MinMax_over_non_null (posts : List (Option Post)) (dimension : String) :
    (timestamps posts = [] →
      (Aggregate posts dimension).MinTimestamp = 0 ∧
      (Aggregate posts dimension).MaxTimestamp = 0) ∧
    (timestamps posts ≠ [] →
      (Aggregate posts dimension).MinTimestamp ∈ timestamps posts ∧
      (∀ t ∈ timestamps posts, (Aggregate posts dimension).MinTimestamp ≤ t) ∧
      (Aggregate posts dimension).MaxTimestamp ∈ timestamps posts ∧
      (∀ t ∈ timestamps posts, t ≤ (Aggregate posts dimension).MaxTimestamp)) := by
  obtain ⟨h0, h1⟩ := Aggregate_timestamps posts dimension
  refine ⟨h0, fun hne => ?_⟩
  obtain ⟨⟨hmem, hle⟩, ⟨hmem2, hge⟩⟩ := h1 hne
  exact ⟨hmem, hle, hmem2, hge⟩

/-- Witness for C16: a null entry and three events with timestamps 7, 3, 9, of
which only the first carries likes; the bounds 3 and 9 come from events that
do not carry the dimension. -/
theorem Aggregate_MinMax_over_non_null_witness :
    (∀ t ∈ ([7, 3, 9] : List Int),
      (Aggregate [none, some { Timestamp := 7, Metrics := { Likes := some 1 } },
        some { Timestamp := 3 }, some { Timestamp := 9 }] "likes").MinTimestamp ≤ t) ∧
    (∀ t ∈ ([7, 3, 9] : List Int),
      t ≤ (Aggregate [none, some { Timestamp := 7, Metrics := { Likes := some 1 } },
        some { Timestamp := 3 }, some { Timestamp := 9 }] "likes").MaxTimestamp) ∧
    (Aggregate [none, none] "likes").MinTimestamp = 0 := by
  have h := (Aggregate_MinMax_over_non_null
    [none, some { Timestamp := 7, Metrics := { Likes := some 1 } },
      some { Timestamp := 3 }, some { Timestamp := 9 }] "likes").2 (by decide)
  have h0 := (Aggregate_MinMax_over_non_null [none, none] "likes").1 (by decide)
  exact ⟨h.2.1, h.2.2.2, h0.1⟩

/-- C18: for every list of events and every dimension, if no non-null event of
the list carries the dimension, Aggregate returns P50 = P90 = P99 = 0 and still
returns the least and the greatest timestamp of the non-null events (0 and 0
when there is none). -/
theorem Aggregate_zero_percentiles_without_values (posts : List (Option Post))
    (dimension : String)
    (hnone : ∀ post, some post ∈ posts → (GetDimension post.Metrics dimension).2 = false) :
    (Aggregate posts dimension).P50 = 0 ∧
    (Aggregate posts dimension).P90 = 0 ∧
    (Aggregate posts dimension).P99 = 0 ∧
    (timestamps posts = [] →
      (Aggregate posts dimension).MinTimestamp = 0 ∧
      (Aggregate posts dimension).MaxTimestamp = 0) ∧
    (timestamps posts ≠ [] →
      (Aggregate posts dimension).MinTimestamp ∈ timestamps posts ∧
      (∀ t ∈ timestamps posts, (Aggregate posts dimension).MinTimestamp ≤ t) ∧
      (Aggregate posts dimension).MaxTimestamp ∈ timestamps posts ∧
      (∀ t ∈ timestamps posts, t ≤ (Aggregate posts dimension).MaxTimestamp)) := by
  have hvals : (posts.foldl (aggStep dimension) {}).values = [] := by
    rw [foldl_aggStep_values]
    simp only [List.nil_append, List.filterMap_eq_nil_iff]
    intro p hp
    cases p with
    | none => rfl
    | some post => simp [carried, hnone post hp]
  have hperc : (Aggregate posts dimension).P50 = 0 ∧ (Aggregate posts dimension).P90 = 0 ∧
      (Aggregate posts dimension).P99 = 0 := by
    unfold Aggregate
    by_cases h0 : posts.length = 0
    · simp [h0]
    · simp only [h0, if_false, hvals, List.length_nil, if_true]
      simp
  obtain ⟨h0, h1⟩ := Aggregate_timestamps posts dimension
  refine ⟨hperc.1, hperc.2.1, hperc.2.2, h0, fun hne => ?_⟩
  obtain ⟨⟨hmem, hle⟩, ⟨hmem2, hge⟩⟩ := h1 hne
  exact ⟨hmem, hle, hmem2, hge⟩

/-- Witness for C18: the input of the test "missing dimension", one event with
likes only, aggregated on comments. -/
theorem Aggregate_zero_percentiles_without_values_witness :
    (Aggregate [some { Timestamp := 1000, Metrics := { Likes := some 100 } }] "comments").P50
      = 0 ∧
    (∀ t ∈ ([1000] : List Int),
      (Aggregate [some { Timestamp := 1000, Metrics := { Likes := some 100 } }]
        "comments").MinTimestamp ≤ t) := by
  have h := Aggregate_zero_percentiles_without_values
    [some { Timestamp := 1000, Metrics := { Likes := some 100 } }] "comments"
    (by
      intro post hp
      rw [List.mem_singleton, Option.some.injEq] at hp
      subst hp
      rfl)
  exact ⟨h.1, (h.2.2.2.2 (by decide)).2.1⟩

/-! ## Mode selection and the realtime mode -/

/-- A successful realtime analysis is tagged REALTIME. -/
theorem analyzeRealtime_Mode (collected : List Post × Option Error) (req : Request)
    (resp : AnalysisResponse) (h : analyzeRealtime collected req = Except.ok resp) :
    resp.Mode = "REALTIME" := by
  unfold analyzeRealtime at h
  simp only at h
  split at h
  · exact absurd h (by simp)
  · split_ifs at h
    injection h with h
    rw [← h]

/-- A successful historical analysis is tagged HISTORICAL. -/
theorem analyzeHistorical_Mode (store : Store) (now : Int) (req : Request)
    (resp : AnalysisResponse) (h : analyzeHistorical store now req = Except.ok resp) :
    resp.Mode = "HISTORICAL" := by
  unfold analyzeHistorical at h
  simp only at h
  split_ifs at h
  injection h with h
  rw [← h]

/-- C11: Analyze takes the LIVE path if and only if the requested duration is
at most 60 seconds and the INDEXED path otherwise; exactly 60 seconds is LIVE;
a successful LIVE result is tagged REALTIME and a successful INDEXED one
HISTORICAL; a LIVE call does not depend on the store or the clock, and an
INDEXED call does not depend on what a stream would deliver. -/
theorem Analyze_mode_selection (store : Store) (now : Int)
    (collected : List Post × Option Error) (req : Request) :
    (req.Duration ≤ 60 * Second →
      Analyze store now collected req = analyzeRealtime collected req ∧
      ∀ store2 now2, Analyze store2 now2 collected req = Analyze store now collected req) ∧
    (¬ req.Duration ≤ 60 * Second →
      Analyze store now collected req = analyzeHistorical store now req ∧
      ∀ collected2, Analyze store now collected2 req = Analyze store now collected req) ∧
    (∀ resp, Analyze store now collected req = Except.ok resp →
      ((resp.Mode = "REALTIME" ↔ req.Duration ≤ 60 * Second) ∧
        (resp.Mode = "HISTORICAL" ↔ ¬ req.Duration ≤ 60 * Second))) ∧
    Analyze store now collected { Duration := 60 * Second, Dimension := req.Dimension }
      = analyzeRealtime collected { Duration := 60 * Second, Dimension := req.Dimension } := by
  have hlive : ∀ (s : Store) (n : Int) (c : List Post × Option Error),
      req.Duration ≤ 60 * Second → Analyze s n c req = analyzeRealtime c req := by
    intro s n c h
    unfold Analyze realtimeThreshold
    rw [if_pos h]
  have hidx : ∀ (s : Store) (n : Int) (c : List Post × Option Error),
      ¬ req.Duration ≤ 60 * Second → Analyze s n c req = analyzeHistorical s n req := by
    intro s n c h
    unfold Analyze realtimeThreshold
    rw [if_neg h]
  refine ⟨?_, ?_, ?_, ?_⟩
  · intro h
    refine ⟨hlive store now collected h, fun store2 now2 => ?_⟩
    rw [hlive store2 now2 collected h, hlive store now collected h]
  · intro h
    refine ⟨hidx store now collected h, fun collected2 => ?_⟩
    rw [hidx store now collected2 h, hidx store now collected h]
  · intro resp hok
    by_cases h : req.Duration ≤ 60 * Second
    · rw [hlive store now collected h] at hok
      have hm := analyzeRealtime_Mode collected req resp hok
      rw [hm]
      exact ⟨⟨fun _ => h, fun _ => rfl⟩, ⟨fun hc => absurd hc (by decide), fun hc => absurd h hc⟩⟩
    · rw [hidx store now collected h] at hok
      have hm := analyzeHistorical_Mode store now req resp hok
      rw [hm]
      exact ⟨⟨fun hc => absurd hc (by decide), fun hc => absurd hc h⟩, ⟨fun _ => h, fun _ => rfl⟩⟩
  · unfold Analyze realtimeThreshold
    rw [if_pos (le_refl _)]

/-- Witness for C11: a request of 60 seconds is answered from the stream, with
an empty store; a request of 61 seconds is answered from the store, which is
empty, whatever the stream delivered. -/
theorem Analyze_mode_selection_witness :
    Analyze NewStore 1000000100 ([{ Timestamp := 5, Metrics := { Likes := some 3 } }], none)
        { Duration := 60 * Second, Dimension := "likes" }
      = analyzeRealtime ([{ Timestamp := 5, Metrics := { Likes := some 3 } }], none)
          { Duration := 60 * Second, Dimension := "likes" } ∧
    Analyze NewStore 1000000100 ([{ Timestamp := 5, Metrics := { Likes := some 3 } }], none)
        { Duration := 61 * Second, Dimension := "likes" }
      = analyzeHistorical NewStore 1000000100
          { Duration := 61 * Second, Dimension := "likes" } :=
  ⟨((Analyze_mode_selection NewStore 1000000100
      ([{ Timestamp := 5, Metrics := { Likes := some 3 } }], none)
      { Duration := 60 * Second, Dimension := "likes" }).1 (by decide)).1,
    ((Analyze_mode_selection NewStore 1000000100
      ([{ Timestamp := 5, Metrics := { Likes := some 3 } }], none)
      { Duration := 61 * Second, Dimension := "likes" }).2.1 (by decide)).1⟩

/-- C19: in LIVE mode, when Collect ends with a nil error (end of stream) or
with the deadline error of the request context, the call fails with
ErrNoDataCollected if no event was observed, and otherwise succeeds with the
six fields of Aggregate over the observed events in arrival order and the mode
REALTIME; the deadline error is never the result. -/
theorem analyzeRealtime_outcomes (observed : List Post) (err : Option Error) (req : Request)
    (hend : err = none ∨ err = some Error.DeadlineExceeded) :
    (observed = [] →
      analyzeRealtime (observed, err) req = Except.error Error.ErrNoDataCollected) ∧
    (observed ≠ [] →
      analyzeRealtime (observed, err) req = Except.ok
        { Result :=
            { TotalPosts := (Aggregate (observed.map some) req.Dimension).TotalPosts,
              MinTimestamp := (Aggregate (observed.map some) req.Dimension).MinTimestamp,
              MaxTimestamp := (Aggregate (observed.map some) req.Dimension).MaxTimestamp,
              P50 := (Aggregate (observed.map some) req.Dimension).P50,
              P90 := (Aggregate (observed.map some) req.Dimension).P90,
              P99 := (Aggregate (observed.map some) req.Dimension).P99 },
          Mode := "REALTIME" }) ∧
    analyzeRealtime (observed, err) req ≠ Except.error Error.DeadlineExceeded := by
  have hfail : (match err with
      | some e => if e ≠ Error.DeadlineExceeded then some e else none
      | none => none) = none := by
    rcases hend with h | h <;> simp [h]
  have h1 : observed = [] →
      analyzeRealtime (observed, err) req = Except.error Error.ErrNoDataCollected := by
    intro h
    unfold analyzeRealtime
    simp only [hfail, h]
    rfl
  have h2 : observed ≠ [] →
      analyzeRealtime (observed, err) req = Except.ok
        { Result :=
            { TotalPosts := (Aggregate (observed.map some) req.Dimension).TotalPosts,
              MinTimestamp := (Aggregate (observed.map some) req.Dimension).MinTimestamp,
              MaxTimestamp := (Aggregate (observed.map some) req.Dimension).MaxTimestamp,
              P50 := (Aggregate (observed.map some) req.Dimension).P50,
              P90 := (Aggregate (observed.map some) req.Dimension).P90,
              P99 := (Aggregate (observed.map some) req.Dimension).P99 },
          Mode := "REALTIME" } := by
    intro h
    have hlen : ¬ (observed.map some).length = 0 := by
      simpa using h
    unfold analyzeRealtime
    simp only [hfail, hlen, if_false]
  refine ⟨h1, h2, ?_⟩
  by_cases h : observed = []
  · rw [h1 h]; simp
  · rw [h2 h]; simp

/-- Witness for C19: the deadline expires after two events were observed, and
it expires with no event observed. -/
theorem analyzeRealtime_outcomes_witness :
    analyzeRealtime ([{ Timestamp := 5, Metrics := { Likes := some 3 } },
        { Timestamp := 6, Metrics := { Likes := some 9 } }], some Error.DeadlineExceeded)
        { Duration := 10 * Second, Dimension := "likes" }
      = Except.ok
          { Result := { TotalPosts := 2, MinTimestamp := 5, MaxTimestamp := 6,
                        P50 := 3, P90 := 3, P99 := 3 },
            Mode := "REALTIME" } ∧
    analyzeRealtime ([], some Error.DeadlineExceeded)
        { Duration := 10 * Second, Dimension := "likes" }
      = Except.error Error.ErrNoDataCollected :=
  ⟨(analyzeRealtime_outcomes [{ Timestamp := 5, Metrics := { Likes := some 3 } },
        { Timestamp := 6, Metrics := { Likes := some 9 } }] (some Error.DeadlineExceeded)
      { Duration := 10 * Second, Dimension := "likes" } (Or.inr rfl)).2.1 (by simp),
    (analyzeRealtime_outcomes [] (some Error.DeadlineExceeded)
      { Duration := 10 * Second, Dimension := "likes" } (Or.inr rfl)).1 rfl⟩

/-! ## End of input and ignored lines in the frame parser -/

/-- The loop of `NextEvent` against the line-by-line description of the
events: it either returns the next event, which is not empty, or reaches the
end of the lines with the pending buffer. -/
theorem scanLoop_eventsFrom (flush : Bool) (lines : List (List Char)) (buffer : List Char) :
    (∀ r rest b, scanLoop lines buffer = (some r, rest, b) →
      r.length > 0 ∧ eventsFrom flush lines buffer = r :: eventsFrom flush rest []) ∧
    (∀ rest b, scanLoop lines buffer = (none, rest, b) →
      rest = [] ∧
      eventsFrom flush lines buffer = if flush = true ∧ b.length > 0 then [b] else []) := by
  induction lines generalizing buffer with
  | nil =>
    refine ⟨fun r rest b h => ?_, fun rest b h => ?_⟩
    · simp [scanLoop] at h
    · simp only [scanLoop, Prod.mk.injEq, true_and] at h
      obtain ⟨h1, h2⟩ := h
      subst h1 h2
      exact ⟨rfl, by rw [eventsFrom]⟩
  | cons line rest0 ih =>
    rw [scanLoop, eventsFrom]
    by_cases h1 : line = []
    · simp only [h1, if_true]
      by_cases h2 : buffer.length > 0
      · simp only [h2, if_true]
        refine ⟨fun r rest b h => ?_, fun rest b h => ?_⟩
        · simp only [Prod.mk.injEq, Option.some.injEq] at h
          obtain ⟨hr, hrest, _⟩ := h
          subst hr hrest
          exact ⟨h2, rfl⟩
        · simp at h
      · simp only [h2, if_false]
        exact ih buffer
    · simp only [h1, if_false]
      by_cases h3 : HasPrefix line ":".toList = true
      · simp only [h3, if_true]
        exact ih buffer
      · simp only [h3]
        by_cases h4 : HasPrefix line dataPrefix = true
        · simp only [h4, if_true]
          exact ih _
        · simp only [h4]
          exact ih buffer

/-- The events the Frame Parser yields, call after call, are those of the
line-by-line description, as soon as the fuel exceeds the number of lines. -/
theorem parserEvents_eq_eventsFrom (fuel : Nat) (p : Parser)
    (h : p.scanner.lines.length < fuel) :
    parserEvents fuel p = eventsFrom p.scanner.err.isNone p.scanner.lines [] := by
  induction fuel generalizing p with
  | zero => omega
  | succ n ih =>
    have hs := scanLoop_eventsFrom p.scanner.err.isNone p.scanner.lines []
    have hlen := scanLoop_length p.scanner.lines []
    rw [parserEvents]
    unfold NextEvent
    rcases hsl : scanLoop p.scanner.lines [] with ⟨r, rest, b⟩
    rw [hsl] at hlen
    cases r with
    | some result =>
      simp only
      obtain ⟨_, hev⟩ := hs.1 result rest b hsl
      rw [hev]
      have hlt : rest.length < p.scanner.lines.length := hlen.2 (by simp)
      rw [ih _ (by simp only; omega)]
    | none =>
      obtain ⟨_, hev⟩ := hs.2 rest b hsl
      rw [hev]
      cases herr : p.scanner.err with
      | some e => simp
      | none =>
        simp only
        by_cases hb : b.length > 0
        · simp [hb]
        · simp [hb]

/-- The events of a body are those of the line-by-line description. -/
theorem frameEvents_eq_eventsFrom (body : Scanner) :
    frameEvents body = eventsFrom body.err.isNone body.lines [] := by
  unfold frameEvents
  rw [parserEvents_eq_eventsFrom _ _ (by simp [NewParser])]
  rfl

/-- A data line is not a comment. -/
theorem not_comment_of_data (line : List Char) (h : HasPrefix line dataPrefix = true) :
    HasPrefix line ":".toList = false ∧ line ≠ [] := by
  unfold HasPrefix dataPrefix at h
  cases line with
  | nil => simp [List.isPrefixOf] at h
  | cons c cs =>
    have hc : c = 'd' := by
      have h2 : ('d' :: "ata: ".toList).isPrefixOf (c :: cs) = true := h
      simp only [List.isPrefixOf, Bool.and_eq_true, beq_iff_eq] at h2
      exact h2.1.symm
    subst hc
    exact ⟨rfl, by simp⟩

/-- Over lines none of which is blank, the loop of `NextEvent` reaches the end
of the input with the payloads of the data lines in its buffer. -/
theorem scanLoop_no_blank (lines : List (List Char)) (buffer : List Char)
    (h : [] ∉ lines) :
    scanLoop lines buffer
      = (none, [],
          ((lines.filter fun line => HasPrefix line dataPrefix).map
            fun line => TrimPrefix line dataPrefix).foldl appendData buffer) := by
  induction lines generalizing buffer with
  | nil => rfl
  | cons line rest ih =>
    have hline : line ≠ [] := fun hl => h (by rw [hl]; exact List.mem_cons_self _ _)
    have hrest : [] ∉ rest := fun hr => h (List.mem_cons_of_mem _ hr)
    by_cases h4 : HasPrefix line dataPrefix = true
    · have h3 := (not_comment_of_data line h4).1
      have hstep : scanLoop (line :: rest) buffer
          = scanLoop rest (appendData buffer (TrimPrefix line dataPrefix)) := by
        rw [scanLoop]
        simp only [hline, h3, h4, if_false, if_true, appendData]
        simp
      rw [hstep, ih _ hrest]
      simp only [List.filter_cons, h4, if_true, List.map_cons, List.foldl_cons]
    · have hstep : scanLoop (line :: rest) buffer = scanLoop rest buffer := by
        rw [scanLoop]
        simp [hline, h4]
      rw [hstep, ih _ hrest]
      simp only [List.filter_cons, h4]
      simp

/-- A parser at the end of an input that ended without error answers every
call with a nil payload and io.EOF, and stays at the end. -/
theorem NextEvent_at_end (q : Parser) (hl : q.scanner.lines = [])
    (he : q.scanner.err = none) :
    (NextEvent q).1 = (none, some Error.EOF) ∧
    (NextEvent q).2.scanner.lines = [] ∧ (NextEvent q).2.scanner.err = none := by
  unfold NextEvent
  rw [hl, he]
  simp [scanLoop, he]

/-- A call of `NextEvent` that returns io.EOF, on an input without read error,
leaves the parser at the end of the input. -/
theorem NextEvent_EOF_at_end (p : Parser) (herr : p.scanner.err = none)
    (h : (NextEvent p).1.2 = some Error.EOF) :
    (NextEvent p).2.scanner.lines = [] ∧ (NextEvent p).2.scanner.err = none := by
  have hs := (scanLoop_eventsFrom true p.scanner.lines []).2
  unfold NextEvent at h ⊢
  rcases hsl : scanLoop p.scanner.lines [] with ⟨r, rest, b⟩
  rw [hsl] at h
  cases r with
  | some result => simp at h
  | none =>
    obtain ⟨hrest, _⟩ := hs rest b hsl
    rw [herr]
    simp only
    split_ifs <;> exact ⟨hrest, herr⟩

/-- C15: on an input that ends without read error, the call of NextEvent that
reaches the end of the input returns io.EOF, with the pending data as payload
if there is any and no payload otherwise, and every later call returns no
payload together with io.EOF, so the flushed event is never delivered twice.
When the lines still to come hold no blank line, the pending data are the
payloads of the data lines, and they are the only event. -/
theorem NextEvent_flushes_pending_once (p : Parser) (herr : p.scanner.err = none) :
    ((NextEvent p).1.2 = some Error.EOF →
      ∀ n, (NextEvent ((fun q => (NextEvent q).2)^[n] (NextEvent p).2)).1
        = (none, some Error.EOF)) ∧
    ([] ∉ p.scanner.lines →
      (NextEvent p).1
          = (if (pendingData p.scanner.lines).length > 0
              then some (pendingData p.scanner.lines) else none, some Error.EOF) ∧
      frameEvents p.scanner
          = if (pendingData p.scanner.lines).length > 0
              then [pendingData p.scanner.lines] else []) := by
  refine ⟨fun h n => ?_, fun hnb => ?_⟩
  · have hend := NextEvent_EOF_at_end p herr h
    have hinv : ∀ k, ((fun q => (NextEvent q).2)^[k] (NextEvent p).2).scanner.lines = [] ∧
        ((fun q => (NextEvent q).2)^[k] (NextEvent p).2).scanner.err = none := by
      intro k
      induction k with
      | zero => exact hend
      | succ k ih =>
        rw [Function.iterate_succ_apply']
        exact (NextEvent_at_end _ ih.1 ih.2).2
    exact (NextEvent_at_end _ (hinv n).1 (hinv n).2).1
  · have hsl := scanLoop_no_blank p.scanner.lines [] hnb
    have hpd : ((p.scanner.lines.filter fun line => HasPrefix line dataPrefix).map
        fun line => TrimPrefix line dataPrefix).foldl appendData []
          = pendingData p.scanner.lines := rfl
    rw [hpd] at hsl
    refine ⟨?_, ?_⟩
    · unfold NextEvent
      rw [hsl, herr]
      simp only
      split_ifs <;> rfl
    · rw [frameEvents_eq_eventsFrom, herr]
      have := ((scanLoop_eventsFrom true p.scanner.lines []).2 [] _ hsl).2
      simpa using this

/-- Witness for C15: the input "data: a", a comment and "data: b" with no
terminating blank line is flushed as the event "a\nb" by the first call, and
the third call returns no payload and io.EOF. -/
theorem NextEvent_flushes_pending_once_witness :
    (NextEvent (NewParser { lines := ScanLines "data: a\n: note\ndata: b".toList })).1
      = (some "a\nb".toList, some Error.EOF) ∧
    (NextEvent ((fun q => (NextEvent q).2)^[1]
      (NextEvent (NewParser { lines := ScanLines "data: a\n: note\ndata: b".toList })).2)).1
      = (none, some Error.EOF) := by
  have h := NextEvent_flushes_pending_once
    (NewParser { lines := ScanLines "data: a\n: note\ndata: b".toList }) rfl
  exact ⟨(h.2 (by decide)).1.trans (by decide), h.1 (by decide) 1⟩

/-- Two continuations with the same events from every buffer have the same
events after any common lines. -/
theorem eventsFrom_append_congr (flush : Bool) (l1 a b : List (List Char))
    (h : ∀ buffer, eventsFrom flush a buffer = eventsFrom flush b buffer)
    (buffer : List Char) :
    eventsFrom flush (l1 ++ a) buffer = eventsFrom flush (l1 ++ b) buffer := by
  induction l1 generalizing buffer with
  | nil => exact h buffer
  | cons line rest ih =>
    simp only [List.cons_append]
    rw [eventsFrom, eventsFrom]
    simp only [ih]

/-- No event of the line-by-line description is empty. -/
theorem eventsFrom_ne_nil (flush : Bool) (lines : List (List Char)) (buffer : List Char) :
    ∀ e ∈ eventsFrom flush lines buffer, e ≠ [] := by
  induction lines generalizing buffer with
  | nil =>
    intro e he
    rw [eventsFrom] at he
    split_ifs at he with hc
    · rw [List.mem_singleton] at he
      rw [he]
      exact List.ne_nil_of_length_pos hc.2
    · simp at he
  | cons line rest ih =>
    intro e he
    rw [eventsFrom] at he
    split_ifs at he with h1 h2
    · rcases List.mem_cons.mp he with heq | hin
      · rw [heq]; exact List.ne_nil_of_length_pos h2
      · exact ih _ e hin
    · exact ih _ e he
    · exact ih _ e he
    · exact ih _ e he
    · exact ih _ e he

/-- C17: deleting from the input a non-blank line that begins with ':' or
does not begin with "data: " leaves the events of the Frame Parser unchanged;
a blank line met while nothing is pending (at the start of the input, or right
after a blank line) produces no event; and no event has an empty payload. -/
theorem frameEvents_ignores_non_data_lines (l1 l2 : List (List Char)) (x : List Char)
    (err : Option Error) (hx : x ≠ [])
    (hign : HasPrefix x ":".toList = true ∨ HasPrefix x dataPrefix = false) :
    frameEvents { lines := l1 ++ x :: l2, err := err }
      = frameEvents { lines := l1 ++ l2, err := err } ∧
    frameEvents { lines := [] :: l2, err := err } = frameEvents { lines := l2, err := err } ∧
    frameEvents { lines := l1 ++ [] :: [] :: l2, err := err }
      = frameEvents { lines := l1 ++ [] :: l2, err := err } ∧
    (∀ e ∈ frameEvents { lines := l1 ++ x :: l2, err := err }, e ≠ []) := by
  have hskip : ∀ buffer, eventsFrom err.isNone (x :: l2) buffer
      = eventsFrom err.isNone l2 buffer := by
    intro buffer
    rw [eventsFrom]
    simp only [hx, if_false]
    rcases hign with h | h
    · rw [if_pos h]
    · split_ifs with h3 h4
      · rfl
      · rw [h] at h4
        exact absurd h4 (by decide)
      · rfl
  have hblank : ∀ buffer, eventsFrom err.isNone ([] :: [] :: l2) buffer
      = eventsFrom err.isNone ([] :: l2) buffer := by
    intro buffer
    rw [eventsFrom]
    by_cases hb : buffer.length > 0
    · simp only [hb, if_true]
      rw [eventsFrom, eventsFrom]
      simp [hb]
    · simp only [hb, if_false, if_true]
  refine ⟨?_, ?_, ?_, ?_⟩
  · rw [frameEvents_eq_eventsFrom, frameEvents_eq_eventsFrom]
    exact eventsFrom_append_congr _ l1 _ _ hskip []
  · rw [frameEvents_eq_eventsFrom, frameEvents_eq_eventsFrom]
    simp only
    rw [eventsFrom]
    simp
  · rw [frameEvents_eq_eventsFrom, frameEvents_eq_eventsFrom]
    exact eventsFrom_append_congr _ l1 _ _ hblank []
  · rw [frameEvents_eq_eventsFrom]
    exact eventsFrom_ne_nil _ _ _

/-- Witness for C17: deleting the line "id: 7" from an input of two events. -/
theorem frameEvents_ignores_non_data_lines_witness :
    frameEvents { lines := ["data: a".toList, [], "id: 7".toList, "data: b".toList, []] }
      = frameEvents { lines := ["data: a".toList, [], "data: b".toList, []] } :=
  (frameEvents_ignores_non_data_lines ["data: a".toList, []] ["data: b".toList, []]
    "id: 7".toList none (by decide) (Or.inr (by decide))).1

/-! ## Bucket keys -/

/-- For a non-negative time the key computed by `Add` is the floor multiple of
the granularity. -/
theorem bucketKey_of_nonneg (t : Int) (h : 0 ≤ t) :
    bucketKey t = t / 5 * 5 ∧ t / 5 * 5 ≤ t ∧ t < t / 5 * 5 + 5 ∧ (t / 5 * 5) % 5 = 0 := by
  unfold bucketKey
  rw [Int.tdiv_eq_ediv h (by norm_num)]
  refine ⟨rfl, ?_, ?_, ?_⟩ <;> omega

/-- Every call keeps the keys multiples of 5. -/
theorem keys_multiple_step (s : Store) (now : Int) (op : Op)
    (h : ∀ e ∈ s.buckets, e.1 % 5 = 0) : ∀ e ∈ (s.step now op).buckets, e.1 % 5 = 0 := by
  cases op with
  | add p =>
    cases p with
    | none => exact h
    | some post =>
      intro e he
      have hk : e.1 ∈ (Store.Add { buckets := s.buckets } now (some post)).buckets.map
          Prod.fst := List.mem_map.mpr ⟨e, he, rfl⟩
      rw [Add_keys] at hk
      have hkey : bucketKey now % 5 = 0 := by
        unfold bucketKey
        exact Int.mul_emod_left _ _
      by_cases hin : bucketKey now ∈ s.buckets.map Prod.fst
      · rw [if_pos hin] at hk
        obtain ⟨e2, he2, hfst⟩ := List.mem_map.mp hk
        rw [← hfst]
        exact h e2 he2
      · rw [if_neg hin] at hk
        rcases List.mem_append.mp hk with hold | hnew
        · obtain ⟨e2, he2, hfst⟩ := List.mem_map.mp hold
          rw [← hfst]
          exact h e2 he2
        · rw [List.mem_singleton] at hnew
          rw [hnew]
          exact hkey
  | query d => exact h
  | prune =>
    intro e he
    simp only [Store.step] at he
    rw [Prune_eq_filter] at he
    exact h e (List.mem_filter.mp he).1

/-- Every run of calls keeps the keys multiples of 5. -/
theorem keys_multiple_run (calls : List (Int × Op)) (s : Store)
    (h : ∀ e ∈ s.buckets, e.1 % 5 = 0) : ∀ e ∈ (s.run calls).buckets, e.1 % 5 = 0 := by
  induction calls generalizing s with
  | nil => exact h
  | cons c rest ih =>
    have hrun : s.run (c :: rest) = (s.step c.1 c.2).run rest := by
      simp [Store.run]
    rw [hrun]
    exact ih _ (keys_multiple_step s c.1 c.2 h)

/-- C20: in every store reached from NewStore by a sequence of Add, Query and
Prune calls, every bucket key is an exact multiple of 5; and a post added at a
non-negative arrival time t sits in the bucket keyed floor(t / 5) * 5, a
multiple of 5 with key <= t < key + 5, whatever its declared timestamp, and
stays there through later calls as long as no Prune expires that key. -/
theorem bucket_keys_multiples_of_granularity (calls later : List (Int × Op)) (t : Int)
    (p : Post) (ht : 0 ≤ t)
    (hprune : ∀ c ∈ later, c.2 = Op.prune → c.1 - 86400 ≤ t / 5 * 5) :
    (∀ e ∈ (NewStore.run calls).buckets, e.1 % 5 = 0) ∧
    holdsPost ((NewStore.run calls).Add t (some p)).buckets (t / 5 * 5) (some p) ∧
    holdsPost (((NewStore.run calls).Add t (some p)).run later).buckets (t / 5 * 5)
      (some p) ∧
    (∀ e ∈ (((NewStore.run calls).Add t (some p)).run later).buckets, e.1 % 5 = 0) ∧
    t / 5 * 5 ≤ t ∧ t < t / 5 * 5 + 5 ∧ (t / 5 * 5) % 5 = 0 := by
  obtain ⟨hkey, hle, hlt, hmod⟩ := bucketKey_of_nonneg t ht
  have hinv : ∀ e ∈ (NewStore.run calls).buckets, e.1 % 5 = 0 :=
    keys_multiple_run calls NewStore (by simp [NewStore])
  have hself : holdsPost ((NewStore.run calls).Add t (some p)).buckets (t / 5 * 5)
      (some p) := by
    rw [← hkey]
    exact holdsPost_Add_self (NewStore.run calls).buckets t p
  refine ⟨hinv, hself, ?_, ?_, hle, hlt, hmod⟩
  · exact holdsPost_run later _ _ _ hself hprune
  · apply keys_multiple_run later
    exact keys_multiple_step (NewStore.run calls) t (Op.add (some p)) hinv

/-- Witness for C20: after an insert at 1000000003 and a Prune, a post whose
declared timestamp is 1 is added at arrival time 1000000009 and sits in the
bucket keyed 1000000005, also after a later Query and Prune. -/
theorem bucket_keys_multiples_of_granularity_witness :
    holdsPost (((NewStore.run [(1000000003, Op.add (some { Timestamp := 7 })),
        (1000000004, Op.prune)]).Add 1000000009 (some { Timestamp := 1 })).run
        [(1000000050, Op.query (120 * Second)), (1000000060, Op.prune)]).buckets
      1000000005 (some { Timestamp := 1 }) ∧
    (∀ e ∈ (NewStore.run [(1000000003, Op.add (some { Timestamp := 7 })),
        (1000000004, Op.prune)]).buckets, e.1 % 5 = 0) := by
  have h := bucket_keys_multiples_of_granularity
    [(1000000003, Op.add (some { Timestamp := 7 })), (1000000004, Op.prune)]
    [(1000000050, Op.query (120 * Second)), (1000000060, Op.prune)]
    1000000009 { Timestamp := 1 } (by decide) (by decide)
  exact ⟨h.2.2.1, h.1⟩

/-! ## Decoding a post -/

/-- Reading a field after an integer was stored. -/
theorem read_setInt (d : contentData) (f g : Field) (n : Int) :
    (d.setInt f n).read g = if g = f then some n else d.read g := by
  cases f <;> cases g <;> rfl

/-- Reading a field after `null` was decoded into a metric. -/
theorem read_setNull (d : contentData) (f g : Field) (hf : f ≠ Field.Timestamp) :
    (d.setNull f).read g = if g = f then none else d.read g := by
  cases f <;> cases g <;> first | rfl | exact absurd rfl hf

/-- The struct of `parseContent` is determined by what its fields read. -/
theorem contentData_ext (d e : contentData) (h : ∀ g, d.read g = e.read g) : d = e := by
  have h0 := h Field.Timestamp
  have h1 := h Field.Likes
  have h2 := h Field.Comments
  have h3 := h Field.Retweets
  have h4 := h Field.Favorites
  have h5 := h Field.Shares
  have h6 := h Field.Plays
  have h7 := h Field.Views
  have h8 := h Field.Saves
  have h9 := h Field.Repins
  have h10 := h Field.Dislikes
  have h11 := h Field.AvgViewers
  have h12 := h Field.PeakViewers
  simp only [contentData.read, Option.some.injEq] at h0 h1 h2 h3 h4 h5 h6 h7 h8 h9 h10 h11 h12
  cases d
  cases e
  simp only at h0 h1 h2 h3 h4 h5 h6 h7 h8 h9 h10 h11 h12
  simp only [contentData.mk.injEq]
  exact ⟨h0, h1, h2, h3, h4, h5, h6, h7, h8, h9, h10, h11, h12⟩

/-- The value of a well-typed member: a 64-bit integer, or `null` for a
metric. -/
theorem wellTyped_member (kv : String × JSON) (rest : List (String × JSON)) (f : Field)
    (hwt : wellTyped (kv :: rest) = true) (hf : findField kv.1 = some f) :
    ((∃ n, kv.2 = JSON.int n ∧ fitsInt64 n = true) ∨
      (kv.2 = JSON.null ∧ f ≠ Field.Timestamp)) ∧ wellTyped rest = true := by
  unfold wellTyped at hwt
  rw [List.all_cons, Bool.and_eq_true] at hwt
  obtain ⟨hhead, hrest⟩ := hwt
  refine ⟨?_, hrest⟩
  rw [hf] at hhead
  rcases kv with ⟨k, v⟩
  cases v <;> cases f <;>
    first
    | exact absurd hhead Bool.false_ne_true
    | exact Or.inl ⟨_, rfl, hhead⟩
    | exact Or.inr ⟨rfl, by decide⟩

/-- The tail of a well-typed object is well-typed. -/
theorem wellTyped_tail (kv : String × JSON) (rest : List (String × JSON))
    (hwt : wellTyped (kv :: rest) = true) : wellTyped rest = true := by
  unfold wellTyped at hwt
  rw [List.all_cons, Bool.and_eq_true] at hwt
  exact hwt.2

/-- The value of a field, by the first member of the object. -/
theorem lookupField_cons (kv : String × JSON) (rest : List (String × JSON)) (g : Field) :
    lookupField (kv :: rest) g
      = match lookupField rest g with
        | some v => some v
        | none => if findField kv.1 = some g then some kv.2 else none := by
  rw [lookupField]

/-- The decoder on a well-typed object: it succeeds, and every field reads the
integer the object gives it, nothing for a metric the object sets to `null`,
and what it read before when the object does not name it. -/
theorem decodeMembers_wellTyped (members : List (String × JSON)) (d : contentData)
    (hwt : wellTyped members = true) :
    ∃ e, decodeMembers members d = Except.ok e ∧
      ∀ g, e.read g
        = match lookupField members g with
          | some (JSON.int n) => some n
          | some _ => none
          | none => d.read g := by
  induction members generalizing d with
  | nil => exact ⟨d, rfl, fun g => rfl⟩
  | cons kv rest ih =>
    cases hf : findField kv.1 with
    | none =>
      obtain ⟨e, he, hread⟩ := ih d (wellTyped_tail kv rest hwt)
      refine ⟨e, ?_, fun g => ?_⟩
      · rw [decodeMembers, hf]
        exact he
      · rw [hread g, lookupField_cons, hf]
        cases lookupField rest g with
        | none => simp
        | some v => cases v <;> rfl
    | some f =>
      obtain ⟨hval, hrest⟩ := wellTyped_member kv rest f hwt hf
      have hstore : ∃ d1, storeField d f kv.2 = Except.ok d1 ∧
          ∀ g, d1.read g
            = if g = f then (match kv.2 with
                | JSON.int n => some n
                | _ => none) else d.read g := by
        rcases hval with ⟨n, hn, hfit⟩ | ⟨hnull, hne⟩
        · refine ⟨d.setInt f n, ?_, fun g => ?_⟩
          · rw [hn, storeField, if_pos hfit]
          · rw [hn, read_setInt]
        · refine ⟨d.setNull f, ?_, fun g => ?_⟩
          · rw [hnull, storeField]
          · rw [hnull, read_setNull d f g hne]
      obtain ⟨d1, hd1, hread1⟩ := hstore
      obtain ⟨e, he, hread⟩ := ih d1 hrest
      refine ⟨e, ?_, fun g => ?_⟩
      · rw [decodeMembers, hf]
        simp only [hd1]
        exact he
      · rw [hread g, lookupField_cons, hf]
        cases hl : lookupField rest g with
        | some v => cases v <;> rfl
        | none =>
          simp only
          rw [hread1 g]
          by_cases hg : g = f
          · subst hg
            simp only [if_true]
            rcases hval with ⟨n, hn, _⟩ | ⟨hnull, _⟩
            · rw [hn]
            · rw [hnull]
          · have hg2 : ¬ (some f = some g) := fun h => hg (Option.some.inj h).symm
            simp only [hg, if_false, hg2]

/-- The value a well-typed object gives to a field is a 64-bit integer, or
`null` for a metric. -/
theorem lookupField_wellTyped (members : List (String × JSON)) (g : Field) (v : JSON)
    (hwt : wellTyped members = true) (h : lookupField members g = some v) :
    (∃ n, v = JSON.int n ∧ fitsInt64 n = true) ∨ (v = JSON.null ∧ g ≠ Field.Timestamp) := by
  induction members with
  | nil => simp [lookupField] at h
  | cons kv rest ih =>
    rw [lookupField_cons] at h
    cases hl : lookupField rest g with
    | some w =>
      rw [hl] at h
      simp only [Option.some.injEq] at h
      subst h
      exact ih (wellTyped_tail kv rest hwt) hl
    | none =>
      rw [hl] at h
      simp only at h
      by_cases hf : findField kv.1 = some g
      · rw [if_pos hf, Option.some.injEq] at h
        rw [← h]
        exact (wellTyped_member kv rest g hwt hf).1
      · rw [if_neg hf] at h
        exact absurd h (by simp)

/-- What `json.Unmarshal` leaves in the struct of `parseContent` for a
well-typed object: the integer the object gives to each field, 0 for a
timestamp it does not name, nil for a metric it does not name or sets to
`null`. -/
theorem unmarshalContent_wellTyped (members : List (String × JSON))
    (hwt : wellTyped members = true) :
    unmarshalContent (JSON.obj members) = Except.ok
      { Timestamp := (metricOf members Field.Timestamp).getD 0,
        Likes := metricOf members Field.Likes,
        Comments := metricOf members Field.Comments,
        Retweets := metricOf members Field.Retweets,
        Favorites := metricOf members Field.Favorites,
        Shares := metricOf members Field.Shares,
        Plays := metricOf members Field.Plays,
        Views := metricOf members Field.Views,
        Saves := metricOf members Field.Saves,
        Repins := metricOf members Field.Repins,
        Dislikes := metricOf members Field.Dislikes,
        AvgViewers := metricOf members Field.AvgViewers,
        PeakViewers := metricOf members Field.PeakViewers } := by
  obtain ⟨e, he, hread⟩ := decodeMembers_wellTyped members {} hwt
  rw [unmarshalContent, he]
  congr 1
  apply contentData_ext
  intro g
  rw [hread g]
  have hmetric : ∀ f, f ≠ Field.Timestamp →
      (match lookupField members f with
        | some (JSON.int n) => some n
        | some _ => none
        | none => (({} : contentData).read f)) = metricOf members f := by
    intro f hf
    unfold metricOf
    cases hl : lookupField members f with
    | none => cases f <;> first | rfl | exact absurd rfl hf
    | some v => cases v <;> rfl
  cases g with
  | Timestamp =>
    unfold metricOf
    cases hl : lookupField members Field.Timestamp with
    | none => rfl
    | some v =>
      rcases lookupField_wellTyped members _ v hwt hl with ⟨n, hn, _⟩ | ⟨_, hne⟩
      · rw [hn]; rfl
      · exact absurd rfl hne
  | Likes => exact hmetric _ (by decide)
  | Comments => exact hmetric _ (by decide)
  | Retweets => exact hmetric _ (by decide)
  | Favorites => exact hmetric _ (by decide)
  | Shares => exact hmetric _ (by decide)
  | Plays => exact hmetric _ (by decide)
  | Views => exact hmetric _ (by decide)
  | Saves => exact hmetric _ (by decide)
  | Repins => exact hmetric _ (by decide)
  | Dislikes => exact hmetric _ (by decide)
  | AvgViewers => exact hmetric _ (by decide)
  | PeakViewers => exact hmetric _ (by decide)

/-- A document with one top-level member is parsed as its value. -/
theorem Parse_single (key : String) (content : JSON) :
    Parse (some (JSON.obj [(key, content)])) = parseContent content := by
  simp [Parse, unmarshalRaw, rawSet]

/-- The Go function `parseContent` never fails with ErrNoPostData, and a post
it returns has a non-zero timestamp. -/
theorem parseContent_results (content : JSON) :
    parseContent content ≠ Except.error Error.ErrNoPostData ∧
    ∀ post, parseContent content = Except.ok post → post.Timestamp ≠ 0 := by
  unfold parseContent
  cases unmarshalContent content with
  | error e => simp
  | ok data =>
    simp only
    by_cases h0 : data.Timestamp = 0
    · simp [h0]
    · simp only [h0, if_false]
      refine ⟨by simp, fun post hp => ?_⟩
      injection hp with hp
      rw [← hp]
      exact h0

/-- A member whose name matches no field has no effect on the decoder. -/
theorem decodeMembers_skip (front back : List (String × JSON)) (k : String) (v : JSON)
    (d : contentData) (hk : findField k = none) :
    decodeMembers (front ++ (k, v) :: back) d = decodeMembers (front ++ back) d := by
  induction front generalizing d with
  | nil =>
    simp only [List.nil_append]
    rw [decodeMembers, hk]
  | cons kv rest ih =>
    simp only [List.cons_append]
    rw [decodeMembers, decodeMembers]
    cases findField kv.1 with
    | none => exact ih d
    | some f =>
      simp only
      cases storeField d f kv.2 with
      | error e => rfl
      | ok d1 => exact ih d1

/-- A post returned by `Parse` has a non-zero timestamp. -/
theorem Parse_ok_timestamp (data : Option JSON) (post : Post)
    (h : Parse data = Except.ok post) : post.Timestamp ≠ 0 := by
  unfold Parse at h
  cases hraw : unmarshalRaw data with
  | error e => rw [hraw] at h; simp at h
  | ok raw =>
    rw [hraw] at h
    simp only at h
    split_ifs at h
    cases raw with
    | nil => simp at h
    | cons entry rest => exact (parseContent_results entry.2).2 post h

/-- C12 (counterexample): the object of the single top-level key has the
integer timestamp 5 and the member "likes" with a string value; Parse fails
with ErrInvalidFormat instead of returning a post without likes. -/
theorem Parse_fails_on_ill_typed_metric :
    lookupField [("timestamp", JSON.int 5), ("likes", JSON.str "many")] Field.Timestamp
      = some (JSON.int 5) ∧
    Parse (some (JSON.obj [("tweet",
        JSON.obj [("timestamp", JSON.int 5), ("likes", JSON.str "many")])]))
      = Except.error Error.ErrInvalidFormat :=
  ⟨rfl, rfl⟩

/-- C12 (amended): for every JSON document with exactly one top-level key
whose value is an object with an integer timestamp t != 0, in which every
member that decodes into the timestamp or a metric carries a 64-bit integer
(or null, for a metric), Parse returns a post with Timestamp = t in which each
of the twelve metric fields is present with value v exactly when the object
gives that key the integer v, and absent otherwise; a member whose name matches
no field, such as id, has no effect on the result of Parse, on any object. -/
theorem Parse_decodes_post (key : String) (members : List (String × JSON)) (t : Int)
    (hwt : wellTyped members = true)
    (hts : lookupField members Field.Timestamp = some (JSON.int t)) (ht : t ≠ 0) :
    Parse (some (JSON.obj [(key, JSON.obj members)])) = Except.ok
      { Timestamp := t,
        Metrics :=
          { Likes := metricOf members Field.Likes,
            Comments := metricOf members Field.Comments,
            Retweets := metricOf members Field.Retweets,
            Favorites := metricOf members Field.Favorites,
            Shares := metricOf members Field.Shares,
            Plays := metricOf members Field.Plays,
            Views := metricOf members Field.Views,
            Saves := metricOf members Field.Saves,
            Repins := metricOf members Field.Repins,
            Dislikes := metricOf members Field.Dislikes,
            AvgViewers := metricOf members Field.AvgViewers,
            PeakViewers := metricOf members Field.PeakViewers } } ∧
    (∀ f v, metricOf members f = some v ↔ lookupField members f = some (JSON.int v)) ∧
    (∀ f, lookupField members f = none → metricOf members f = none) ∧
    (∀ front back k v, findField k = none →
      Parse (some (JSON.obj [(key, JSON.obj (front ++ (k, v) :: back))]))
        = Parse (some (JSON.obj [(key, JSON.obj (front ++ back))]))) ∧
    findField "id" = none ∧
    Parse (some (JSON.obj [("tweet",
        JSON.obj [("timestamp", JSON.int 5), ("retweets", JSON.int 3)])]))
      = Except.ok { Timestamp := 5, Metrics := { Retweets := some 3 } } := by
  have htime : (metricOf members Field.Timestamp).getD 0 = t := by
    unfold metricOf
    rw [hts]
    rfl
  refine ⟨?_, ?_, ?_, ?_, by decide, rfl⟩
  · rw [Parse_single, parseContent, unmarshalContent_wellTyped members hwt]
    simp only [htime, ht, if_false]
  · intro f v
    unfold metricOf
    cases hl : lookupField members f with
    | none => simp
    | some w => cases w <;> simp
  · intro f hf
    unfold metricOf
    rw [hf]
  · intro front back k v hk
    rw [Parse_single, Parse_single]
    unfold parseContent unmarshalContent
    simp only [decodeMembers_skip front back k v _ hk]

/-- Witness for C12: the "instagram media" document of the test of Parse. -/
theorem Parse_decodes_post_witness :
    Parse (some (JSON.obj [("instagram_media",
        JSON.obj [("id", JSON.int 123), ("likes", JSON.int 27), ("comments", JSON.int 42),
          ("timestamp", JSON.int 1234567890)])]))
      = Except.ok
          { Timestamp := 1234567890, Metrics := { Likes := some 27, Comments := some 42 } } :=
  (Parse_decodes_post "instagram_media"
    [("id", JSON.int 123), ("likes", JSON.int 27), ("comments", JSON.int 42),
      ("timestamp", JSON.int 1234567890)] 1234567890 (by decide) rfl (by decide)).1

/-- C14 (counterexample): the object of the single top-level key has no
timestamp and the member "likes" with a string value; Parse fails with
ErrInvalidFormat, not with ErrMissingTimestamp. -/
theorem Parse_invalid_format_without_timestamp :
    lookupField [("id", JSON.int 123), ("likes", JSON.str "many")] Field.Timestamp = none ∧
    Parse (some (JSON.obj [("tweet",
        JSON.obj [("id", JSON.int 123), ("likes", JSON.str "many")])]))
      = Except.error Error.ErrInvalidFormat ∧
    Error.ErrInvalidFormat ≠ Error.ErrMissingTimestamp :=
  ⟨rfl, rfl, by decide⟩

/-- C14 (amended): for every JSON document with exactly one top-level key
whose value is an object in which every member that decodes into the timestamp
or a metric carries a 64-bit integer (or null, for a metric), Parse fails with
ErrMissingTimestamp if and only if the object's timestamp is absent or equal
to 0; and whenever Parse succeeds, on any input, the returned Post has a
non-zero Timestamp. -/
theorem Parse_ErrMissingTimestamp_iff (key : String) (members : List (String × JSON))
    (hwt : wellTyped members = true) :
    (Parse (some (JSON.obj [(key, JSON.obj members)]))
        = Except.error Error.ErrMissingTimestamp ↔
      (lookupField members Field.Timestamp = none ∨
        lookupField members Field.Timestamp = some (JSON.int 0))) ∧
    (∀ data post, Parse data = Except.ok post → post.Timestamp ≠ 0) := by
  refine ⟨?_, Parse_ok_timestamp⟩
  rw [Parse_single, parseContent, unmarshalContent_wellTyped members hwt]
  simp only
  cases hl : lookupField members Field.Timestamp with
  | none =>
    have h0 : (metricOf members Field.Timestamp).getD 0 = 0 := by
      unfold metricOf
      rw [hl]
      rfl
    simp [h0]
  | some v =>
    rcases lookupField_wellTyped members _ v hwt hl with ⟨n, hn, _⟩ | ⟨_, hne⟩
    · have hn2 : (metricOf members Field.Timestamp).getD 0 = n := by
        unfold metricOf
        rw [hl, hn]
        rfl
      rw [hn2, hn]
      by_cases h0 : n = 0
      · simp [h0]
      · simp [h0]
    · exact absurd rfl hne

/-- Witness for C14: the "missing timestamp" document of the test of Parse,
and the same document with a timestamp of 0. -/
theorem Parse_ErrMissingTimestamp_iff_witness :
    Parse (some (JSON.obj [("tweet", JSON.obj [("id", JSON.int 123)])]))
      = Except.error Error.ErrMissingTimestamp ∧
    Parse (some (JSON.obj [("tweet", JSON.obj [("id", JSON.int 123),
        ("timestamp", JSON.int 0)])]))
      = Except.error Error.ErrMissingTimestamp :=
  ⟨(Parse_ErrMissingTimestamp_iff "tweet" [("id", JSON.int 123)] (by decide)).1.mpr
      (Or.inl rfl),
    (Parse_ErrMissingTimestamp_iff "tweet" [("id", JSON.int 123), ("timestamp", JSON.int 0)]
      (by decide)).1.mpr (Or.inr rfl)⟩

/-- The names of the map after one assignment: the name is added when it is
new. -/
theorem rawSet_keys (m : List (String × JSON)) (key : String) (value : JSON) :
    (rawSet m key value).map Prod.fst
      = if key ∈ m.map Prod.fst then m.map Prod.fst else m.map Prod.fst ++ [key] := by
  induction m with
  | nil => simp [rawSet]
  | cons e rest ih =>
    rw [rawSet]
    by_cases hk : e.1 = key
    · rw [if_pos hk]
      simp [hk]
    · rw [if_neg hk, List.map_cons, ih]
      have hk2 : ¬ key = e.1 := fun h => hk h.symm
      by_cases hin : key ∈ rest.map Prod.fst
      · simp only [hin, if_true, List.map_cons, List.mem_cons, or_true]
      · simp only [hin, if_false, List.map_cons, List.mem_cons, hk2, or_false,
          List.cons_append]

/-- The names of the map `json.Unmarshal` fills are distinct, and they are the
names of the members. -/
theorem foldl_rawSet_keys (members m : List (String × JSON))
    (hm : (m.map Prod.fst).Nodup) :
    ((members.foldl (fun acc kv => rawSet acc kv.1 kv.2) m).map Prod.fst).Nodup ∧
    ∀ x, x ∈ (members.foldl (fun acc kv => rawSet acc kv.1 kv.2) m).map Prod.fst ↔
      (x ∈ m.map Prod.fst ∨ x ∈ members.map Prod.fst) := by
  induction members generalizing m with
  | nil => simp [hm]
  | cons kv rest ih =>
    rw [List.foldl_cons]
    have hkeys := rawSet_keys m kv.1 kv.2
    have hnd : ((rawSet m kv.1 kv.2).map Prod.fst).Nodup := by
      rw [hkeys]
      by_cases hin : kv.1 ∈ m.map Prod.fst
      · rw [if_pos hin]; exact hm
      · rw [if_neg hin]
        refine List.Nodup.append hm (List.nodup_singleton _) ?_
        intro a ha hb
        rw [List.mem_singleton] at hb
        exact hin (hb ▸ ha)
    obtain ⟨h1, h2⟩ := ih (rawSet m kv.1 kv.2) hnd
    refine ⟨h1, fun x => ?_⟩
    rw [h2 x, hkeys]
    by_cases hin : kv.1 ∈ m.map Prod.fst
    · rw [if_pos hin]
      simp only [List.map_cons, List.mem_cons]
      constructor
      · rintro (h | h)
        · exact Or.inl h
        · exact Or.inr (Or.inr h)
      · rintro (h | h | h)
        · exact Or.inl h
        · exact Or.inl (h ▸ hin)
        · exact Or.inr h
    · rw [if_neg hin]
      simp only [List.map_cons, List.mem_cons, List.mem_append, List.mem_singleton]
      tauto

/-- The length of the map `json.Unmarshal` fills from an object is the number
of distinct names of the object. -/
theorem unmarshalRaw_length (members : List (String × JSON)) :
    ∃ raw, unmarshalRaw (some (JSON.obj members)) = Except.ok raw ∧
      raw.length = (members.map Prod.fst).dedup.length := by
  refine ⟨members.foldl
    (fun (acc : List (String × JSON)) (kv : String × JSON) => rawSet acc kv.1 kv.2) [],
    by rw [unmarshalRaw], ?_⟩
  obtain ⟨hnd, hmem⟩ := foldl_rawSet_keys members [] (by simp)
  have hperm : ((members.foldl (fun acc kv => rawSet acc kv.1 kv.2) []).map Prod.fst).Perm
      (members.map Prod.fst).dedup := by
    rw [List.perm_ext_iff_of_nodup hnd (List.nodup_dedup _)]
    intro a
    rw [hmem a, List.mem_dedup]
    simp
  have := hperm.length_eq
  rw [List.length_map] at this
  exact this

/-- C13: for every JSON object given to Parse, Parse fails with ErrNoPostData
exactly when the number of distinct top-level keys is not one; so it fails with
ErrNoPostData for the object without key and for every object with two or more
keys, and with exactly one key it never returns ErrNoPostData. -/
theorem Parse_ErrNoPostData_iff (members : List (String × JSON)) :
    (Parse (some (JSON.obj members)) = Except.error Error.ErrNoPostData ↔
      (members.map Prod.fst).dedup.length ≠ 1) ∧
    Parse (some (JSON.obj [])) = Except.error Error.ErrNoPostData ∧
    (∀ k1 v1 k2 v2, k1 ≠ k2 →
      Parse (some (JSON.obj [(k1, v1), (k2, v2)])) = Except.error Error.ErrNoPostData) ∧
    (∀ key content,
      Parse (some (JSON.obj [(key, content)])) ≠ Except.error Error.ErrNoPostData) := by
  have hiff : ∀ ms : List (String × JSON),
      (Parse (some (JSON.obj ms)) = Except.error Error.ErrNoPostData ↔
        (ms.map Prod.fst).dedup.length ≠ 1) := by
    intro ms
    obtain ⟨raw, hraw, hlen⟩ := unmarshalRaw_length ms
    unfold Parse
    rw [hraw]
    simp only
    rw [← hlen]
    by_cases h1 : raw.length ≠ 1
    · simp [h1]
    · rw [if_neg h1]
      cases raw with
      | nil => simp at h1
      | cons entry rest =>
        simp only
        have := (parseContent_results entry.2).1
        simp only [ne_eq, not_not] at h1
        simp [h1, this]
  refine ⟨hiff members, rfl, ?_, ?_⟩
  · intro k1 v1 k2 v2 hne
    rw [hiff]
    simp [List.dedup_cons_of_not_mem, hne]
  · intro key content
    rw [Parse_single]
    exact (parseContent_results content).1

/-! ## The request layer -/

/-- The bounds the wired Service reports: 5 seconds and 24 hours. -/
theorem Service_duration_bounds (store : Store) (now : Int)
    (collect : Request → List Post × Option Error) :
    (Service.asAnalyzer store now collect).GetMinDuration = 5 * Second ∧
    (Service.asAnalyzer store now collect).GetMaxDuration = 24 * Hour :=
  ⟨rfl, rfl⟩

/-- C21: with the Handler wired to the Service, GetMinDuration is 5 seconds and
GetMaxDuration is 24 hours; for a duration string that time.ParseDuration
reads as a positive duration d, parseRequest fails with ErrDurationTooShort
when d < 5s and with ErrDurationTooLong when d > 24h, fails for a reason of
duration only in these two cases, and for a valid dimension accepts the request
if and only if 5s <= d <= 24h; and a request parseRequest rejects is answered
with status 400 whatever Analyze would return. -/
theorem parseRequest_duration_bounds (store : Store) (now : Int)
    (collect : Request → List Post × Option Error) (ParseDuration : String → Option Int)
    (durationStr dimension : String) (d : Int)
    (hne : durationStr ≠ "") (hparse : ParseDuration durationStr = some d) (hpos : 0 < d) :
    (Service.asAnalyzer store now collect).GetMinDuration = 5 * Second ∧
    (Service.asAnalyzer store now collect).GetMaxDuration = 24 * Hour ∧
    (d < 5 * Second →
      parseRequest (Service.asAnalyzer store now collect) ParseDuration durationStr dimension
        = Except.error RequestError.ErrDurationTooShort) ∧
    (d > 24 * Hour →
      parseRequest (Service.asAnalyzer store now collect) ParseDuration durationStr dimension
        = Except.error RequestError.ErrDurationTooLong) ∧
    ((5 * Second ≤ d ∧ d ≤ 24 * Hour) ↔
      (parseRequest (Service.asAnalyzer store now collect) ParseDuration durationStr dimension
          ≠ Except.error RequestError.ErrDurationTooShort ∧
        parseRequest (Service.asAnalyzer store now collect) ParseDuration durationStr dimension
          ≠ Except.error RequestError.ErrDurationTooLong)) ∧
    (IsValidDimension dimension = true →
      ((5 * Second ≤ d ∧ d ≤ 24 * Hour) ↔
        parseRequest (Service.asAnalyzer store now collect) ParseDuration durationStr
          dimension = Except.ok { Duration := d, Dimension := dimension })) ∧
    (∀ err analyze,
      parseRequest (Service.asAnalyzer store now collect) ParseDuration durationStr dimension
        = Except.error err →
      AnalysisHandler { Service.asAnalyzer store now collect with Analyze := analyze }
        ParseDuration "GET" durationStr dimension = Response.failure 400 err.message) := by
  have hmin : (Service.asAnalyzer store now collect).GetMinDuration = 5 * Second := rfl
  have hmax : (Service.asAnalyzer store now collect).GetMaxDuration = 24 * Hour := rfl
  have hnp : ¬ d ≤ 0 := by omega
  have hunf : parseRequest (Service.asAnalyzer store now collect) ParseDuration durationStr
      dimension
      = if d < 5 * Second then Except.error RequestError.ErrDurationTooShort
        else if d > 24 * Hour then Except.error RequestError.ErrDurationTooLong
        else if dimension = "" then Except.error RequestError.ErrMissingDimension
        else if IsValidDimension dimension = false then
          Except.error RequestError.ErrInvalidDimension
        else Except.ok { Duration := d, Dimension := dimension } := by
    unfold parseRequest
    rw [if_neg hne, hparse]
    simp only [hnp, if_false, hmin, hmax]
  have hshort : d < 5 * Second →
      parseRequest (Service.asAnalyzer store now collect) ParseDuration durationStr dimension
        = Except.error RequestError.ErrDurationTooShort := by
    intro h
    rw [hunf, if_pos h]
  have hlong : d > 24 * Hour →
      parseRequest (Service.asAnalyzer store now collect) ParseDuration durationStr dimension
        = Except.error RequestError.ErrDurationTooLong := by
    intro h
    have h5 : ¬ d < 5 * Second := by
      have : (5 * Second : Int) ≤ 24 * Hour := by decide
      omega
    rw [hunf, if_neg h5, if_pos h]
  refine ⟨hmin, hmax, hshort, hlong, ?_, ?_, ?_⟩
  · constructor
    · rintro ⟨h1, h2⟩
      have h1n : ¬ d < 5 * Second := by omega
      have h2n : ¬ d > 24 * Hour := by omega
      rw [hunf, if_neg h1n, if_neg h2n]
      constructor <;> (split_ifs <;> simp)
    · rintro ⟨h1, h2⟩
      constructor
      · by_contra hc
        exact h1 (hshort (by omega))
      · by_contra hc
        exact h2 (hlong (by omega))
  · intro hvalid
    have hdim : dimension ≠ "" := by
      intro h
      rw [h] at hvalid
      exact absurd hvalid (by decide)
    constructor
    · rintro ⟨h1, h2⟩
      have h1n : ¬ d < 5 * Second := by omega
      have h2n : ¬ d > 24 * Hour := by omega
      rw [hunf, if_neg h1n, if_neg h2n, if_neg hdim]
      simp [hvalid]
    · intro hok
      constructor
      · by_contra hc
        rw [hshort (by omega)] at hok
        exact absurd hok (by simp)
      · by_contra hc
        rw [hlong (by omega)] at hok
        exact absurd hok (by simp)
  · intro err analyze herr
    have hsame : parseRequest { Service.asAnalyzer store now collect with Analyze := analyze }
        ParseDuration durationStr dimension
        = parseRequest (Service.asAnalyzer store now collect) ParseDuration durationStr
            dimension := rfl
    unfold AnalysisHandler
    rw [hsame, herr]
    simp

/-- Witness for C21: the durations of the handler test, "1s" and "48h", are
rejected, and the two ends, 5 seconds and 24 hours, are accepted. -/
theorem parseRequest_duration_bounds_witness :
    parseRequest (Service.asAnalyzer NewStore 0 fun _ => ([], none))
        (fun _ => some (1 * Second)) "1s" "likes"
      = Except.error RequestError.ErrDurationTooShort ∧
    parseRequest (Service.asAnalyzer NewStore 0 fun _ => ([], none))
        (fun _ => some (48 * Hour)) "48h" "likes"
      = Except.error RequestError.ErrDurationTooLong ∧
    parseRequest (Service.asAnalyzer NewStore 0 fun _ => ([], none))
        (fun _ => some (5 * Second)) "5s" "likes"
      = Except.ok { Duration := 5 * Second, Dimension := "likes" } ∧
    parseRequest (Service.asAnalyzer NewStore 0 fun _ => ([], none))
        (fun _ => some (24 * Hour)) "24h" "likes"
      = Except.ok { Duration := 24 * Hour, Dimension := "likes" } :=
  ⟨(parseRequest_duration_bounds NewStore 0 (fun _ => ([], none)) (fun _ => some (1 * Second))
      "1s" "likes" (1 * Second) (by decide) rfl (by decide)).2.2.1 (by decide),
    (parseRequest_duration_bounds NewStore 0 (fun _ => ([], none)) (fun _ => some (48 * Hour))
      "48h" "likes" (48 * Hour) (by decide) rfl (by decide)).2.2.2.1 (by decide),
    ((parseRequest_duration_bounds NewStore 0 (fun _ => ([], none)) (fun _ => some (5 * Second))
      "5s" "likes" (5 * Second) (by decide) rfl (by decide)).2.2.2.2.2.1 (by decide)).mp
      (by decide),
    ((parseRequest_duration_bounds NewStore 0 (fun _ => ([], none)) (fun _ => some (24 * Hour))
      "24h" "likes" (24 * Hour) (by decide) rfl (by decide)).2.2.2.2.2.1 (by decide)).mp
      (by decide)⟩

/-- The failures of `Analyze`, when `Collect` returned nil or the error of its
context: the two domain errors and the cancellation. -/
theorem Analyze_failures (store : Store) (now : Int) (collected : List Post × Option Error)
    (req : Request) (err : Error)
    (hcollect : collected.2 = none ∨ collected.2 = some Error.Canceled ∨
      collected.2 = some Error.DeadlineExceeded)
    (hfail : Analyze store now collected req = Except.error err) :
    err = Error.ErrNoDataCollected ∨ err = Error.ErrNoDataAvailable ∨
      err = Error.Canceled := by
  unfold Analyze at hfail
  split_ifs at hfail with hlive
  · unfold analyzeRealtime at hfail
    rcases hcollect with h | h | h
    · rw [h] at hfail
      simp only at hfail
      split_ifs at hfail
      injection hfail with hfail
      exact Or.inl hfail.symm
    · rw [h] at hfail
      simp only [ne_eq, reduceCtorEq, not_false_eq_true, if_true] at hfail
      injection hfail with hfail
      exact Or.inr (Or.inr hfail.symm)
    · rw [h] at hfail
      simp only [ne_eq, not_true_eq_false, if_false] at hfail
      split_ifs at hfail
      injection hfail with hfail
      exact Or.inl hfail.symm
  · unfold analyzeHistorical at hfail
    simp only at hfail
    split_ifs at hfail
    · injection hfail with hfail
      exact Or.inr (Or.inl hfail.symm)
    · injection hfail with hfail
      exact Or.inr (Or.inl hfail.symm)

/-- C22: for every failure Analyze returns (Collect returning nil or the error
of its context), the handler responds 404 with the message of the failure when
it is ErrNoDataCollected or ErrNoDataAvailable, and 500 otherwise; the two
strings handleError compares with are the messages of these two errors. -/
theorem handleError_status (store : Store) (now : Int)
    (collected : List Post × Option Error) (req : Request) (err : Error)
    (hcollect : collected.2 = none ∨ collected.2 = some Error.Canceled ∨
      collected.2 = some Error.DeadlineExceeded)
    (hfail : Analyze store now collected req = Except.error err) :
    ((err = Error.ErrNoDataCollected ∨ err = Error.ErrNoDataAvailable) →
      handleError err = Response.failure 404 err.message) ∧
    (¬ (err = Error.ErrNoDataCollected ∨ err = Error.ErrNoDataAvailable) →
      handleError err = Response.failure 500 "Internal server error") ∧
    Error.ErrNoDataCollected.message = "no data collected during the specified duration" ∧
    Error.ErrNoDataAvailable.message
      = "no data available for requested dimension and duration" ∧
    handleError Error.ErrNoDataCollected
      = Response.failure 404 "no data collected during the specified duration" ∧
    handleError Error.ErrNoDataAvailable
      = Response.failure 404 "no data available for requested dimension and duration" := by
  refine ⟨?_, ?_, rfl, rfl, by decide, by decide⟩
  · rintro (h | h) <;> rw [h] <;> decide
  · intro hnot
    rcases Analyze_failures store now collected req err hcollect hfail with h | h | h
    · exact absurd (Or.inl h) hnot
    · exact absurd (Or.inr h) hnot
    · rw [h]
      decide

/-- Witness for C22: a request of 61 seconds on an empty store fails with
ErrNoDataAvailable and is answered 404; a realtime request whose context is
cancelled is answered 500. -/
theorem handleError_status_witness :
    handleError Error.ErrNoDataAvailable
      = Response.failure 404 Error.ErrNoDataAvailable.message ∧
    handleError Error.Canceled = Response.failure 500 "Internal server error" :=
  ⟨(handleError_status NewStore 0 ([], none) { Duration := 61 * Second, Dimension := "likes" }
      Error.ErrNoDataAvailable (Or.inl rfl) (by rfl)).1 (Or.inr rfl),
    (handleError_status NewStore 0 ([], some Error.Canceled)
      { Duration := 10 * Second, Dimension := "likes" }
      Error.Canceled (Or.inr (Or.inl rfl)) (by rfl)).2.1 (by decide)⟩

/-! ## Order and range of the percentiles -/

/-- The rank of `percentile` is an index of the slice for every `p` up to 100. -/
theorem rank_le_last (p n : Nat) (hp : p ≤ 100) : p * (n - 1) / 100 ≤ n - 1 :=
  Nat.div_le_of_le_mul (Nat.mul_le_mul_right _ hp)

/-- For `p` up to 100 the Go function `percentile` returns the element at its
rank: the replacement of the rank by `n - 1` is never needed. -/
theorem percentile_at_rank (sorted : List Int) (p : Nat) (hne : sorted ≠ [])
    (hp : p ≤ 100) :
    sorted[p * (sorted.length - 1) / 100]? = some (percentile sorted p) := by
  have h := percentile_eq_getElem_opt sorted p hne
  rw [Nat.min_eq_left (rank_le_last p sorted.length hp)] at h
  exact h

/-- The Go function `percentile` returns an element of a non-empty slice. -/
theorem percentile_mem (sorted : List Int) (p : Nat) (hne : sorted ≠ []) :
    percentile sorted p ∈ sorted := by
  have h := percentile_eq_getElem_opt sorted p hne
  obtain ⟨hlt, hget⟩ := List.getElem?_eq_some_iff.mp h
  rw [← hget]
  exact List.getElem_mem hlt

/-- On a sorted slice `percentile` is monotone in `p`. -/
theorem percentile_mono (sorted : List Int) (p q : Nat) (hs : sorted.Sorted (· ≤ ·))
    (hne : sorted ≠ []) (hpq : p ≤ q) (hq : q ≤ 100) :
    percentile sorted p ≤ percentile sorted q := by
  obtain ⟨hlt1, hget1⟩ :=
    List.getElem?_eq_some_iff.mp (percentile_at_rank sorted p hne (le_trans hpq hq))
  obtain ⟨hlt2, hget2⟩ := List.getElem?_eq_some_iff.mp (percentile_at_rank sorted q hne hq)
  have hrank : p * (sorted.length - 1) / 100 ≤ q * (sorted.length - 1) / 100 :=
    Nat.div_le_div_right (Nat.mul_le_mul_right _ hpq)
  have hrel := List.Sorted.rel_get_of_le hs
    (a := ⟨p * (sorted.length - 1) / 100, hlt1⟩)
    (b := ⟨q * (sorted.length - 1) / 100, hlt2⟩) hrank
  simp only [List.get_eq_getElem] at hrel
  rw [hget1, hget2] at hrel
  exact hrel

/-- The percentiles of `Aggregate` when no value is collected. -/
theorem Aggregate_percentiles_of_nil (posts : List (Option Post)) (dimension : String)
    (h : posts.filterMap (carried dimension) = []) :
    (Aggregate posts dimension).P50 = 0 ∧ (Aggregate posts dimension).P90 = 0 ∧
    (Aggregate posts dimension).P99 = 0 := by
  have hvals : (posts.foldl (aggStep dimension) {}).values = [] := by
    rw [foldl_aggStep_values, h]
    rfl
  unfold Aggregate
  by_cases h0 : posts.length = 0
  · simp [h0]
  · simp only [h0, if_false, hvals, List.length_nil, if_true]
    simp

/-- C25: for every list of events and every dimension the percentiles of
Aggregate are ordered P50 <= P90 <= P99; when at least one value is collected
each of them is one of the collected values, hence between the smallest and
the largest; and for every p up to 100 (so for 50, 90 and 99) the rank
p * (n - 1) / 100 is at most n - 1, percentile returns the element at that
rank, and no index is out of range. -/
theorem Aggregate_percentiles_ordered (posts : List (Option Post)) (dimension : String) :
    (Aggregate posts dimension).P50 ≤ (Aggregate posts dimension).P90 ∧
    (Aggregate posts dimension).P90 ≤ (Aggregate posts dimension).P99 ∧
    (posts.filterMap (carried dimension) ≠ [] →
      (Aggregate posts dimension).P50 ∈ posts.filterMap (carried dimension) ∧
      (Aggregate posts dimension).P90 ∈ posts.filterMap (carried dimension) ∧
      (Aggregate posts dimension).P99 ∈ posts.filterMap (carried dimension) ∧
      ∀ lo hi, isMinOf lo (posts.filterMap (carried dimension)) →
        isMaxOf hi (posts.filterMap (carried dimension)) →
        lo ≤ (Aggregate posts dimension).P50 ∧ (Aggregate posts dimension).P99 ≤ hi) ∧
    (∀ n p : Nat, p ≤ 100 → p * (n - 1) / 100 ≤ n - 1) ∧
    (∀ (sorted : List Int) (p : Nat), sorted ≠ [] → p ≤ 100 →
      p * (sorted.length - 1) / 100 < sorted.length ∧
      sorted[p * (sorted.length - 1) / 100]? = some (percentile sorted p)) := by
  have hcases : posts.filterMap (carried dimension) ≠ [] →
      ((Aggregate posts dimension).P50 ≤ (Aggregate posts dimension).P90 ∧
        (Aggregate posts dimension).P90 ≤ (Aggregate posts dimension).P99) ∧
      (Aggregate posts dimension).P50 ∈ posts.filterMap (carried dimension) ∧
      (Aggregate posts dimension).P90 ∈ posts.filterMap (carried dimension) ∧
      (Aggregate posts dimension).P99 ∈ posts.filterMap (carried dimension) := by
    intro hne
    have hperm : (sortInts (posts.filterMap (carried dimension))).Perm
        (posts.filterMap (carried dimension)) := List.perm_insertionSort _ _
    have hsorted : (sortInts (posts.filterMap (carried dimension))).Sorted (· ≤ ·) :=
      List.sorted_insertionSort _ _
    have hne2 : sortInts (posts.filterMap (carried dimension)) ≠ [] := by
      intro h
      rw [h] at hperm
      exact hne hperm.symm.eq_nil
    obtain ⟨h50, h90, h99⟩ :=
      Aggregate_percentiles_of_sorted posts dimension _ hperm hsorted hne2
    rw [h50, h90, h99]
    exact ⟨⟨percentile_mono _ 50 90 hsorted hne2 (by decide) (by decide),
        percentile_mono _ 90 99 hsorted hne2 (by decide) (by decide)⟩,
      hperm.mem_iff.mp (percentile_mem _ 50 hne2),
      hperm.mem_iff.mp (percentile_mem _ 90 hne2),
      hperm.mem_iff.mp (percentile_mem _ 99 hne2)⟩
  have horder : (Aggregate posts dimension).P50 ≤ (Aggregate posts dimension).P90 ∧
      (Aggregate posts dimension).P90 ≤ (Aggregate posts dimension).P99 := by
    by_cases hne : posts.filterMap (carried dimension) = []
    · obtain ⟨h50, h90, h99⟩ := Aggregate_percentiles_of_nil posts dimension hne
      rw [h50, h90, h99]
      exact ⟨le_refl _, le_refl _⟩
    · exact (hcases hne).1
  refine ⟨horder.1, horder.2, fun hne => ?_, fun n p hp => rank_le_last p n hp,
    fun sorted p hne hp => ?_⟩
  · obtain ⟨_, hm50, hm90, hm99⟩ := hcases hne
    exact ⟨hm50, hm90, hm99, fun lo hi hlo hhi => ⟨hlo.2 _ hm50, hhi.2 _ hm99⟩⟩
  · have hlen : 0 < sorted.length := List.length_pos.mpr hne
    have := rank_le_last p sorted.length hp
    exact ⟨by omega, percentile_at_rank sorted p hne hp⟩

/-! ## Reordering the input of `Aggregate` -/

/-- The least element of two lists with the same elements is the same. -/
theorem isMinOf_unique (a b : Int) (l1 l2 : List Int) (hperm : l1.Perm l2)
    (ha : isMinOf a l1) (hb : isMinOf b l2) : a = b := by
  have h1 := ha.2 b (hperm.mem_iff.mpr hb.1)
  have h2 := hb.2 a (hperm.mem_iff.mp ha.1)
  omega

/-- The greatest element of two lists with the same elements is the same. -/
theorem isMaxOf_unique (a b : Int) (l1 l2 : List Int) (hperm : l1.Perm l2)
    (ha : isMaxOf a l1) (hb : isMaxOf b l2) : a = b := by
  have h1 := ha.2 b (hperm.mem_iff.mpr hb.1)
  have h2 := hb.2 a (hperm.mem_iff.mp ha.1)
  omega

/-- The result of `Aggregate` from the length of the input, the timestamps the
loop ends with and the collected values. -/
theorem Aggregate_unfold (posts : List (Option Post)) (dimension : String) :
    Aggregate posts dimension
      = if posts.length = 0 then {}
        else if (posts.filterMap (carried dimension)).length = 0 then
          { TotalPosts := posts.length,
            MinTimestamp := (posts.foldl (aggStep dimension) {}).minTS,
            MaxTimestamp := (posts.foldl (aggStep dimension) {}).maxTS }
        else
          { TotalPosts := posts.length,
            MinTimestamp := (posts.foldl (aggStep dimension) {}).minTS,
            MaxTimestamp := (posts.foldl (aggStep dimension) {}).maxTS,
            P50 := percentile (sortInts (posts.filterMap (carried dimension))) 50,
            P90 := percentile (sortInts (posts.filterMap (carried dimension))) 90,
            P99 := percentile (sortInts (posts.filterMap (carried dimension))) 99 } := by
  have hvals : (posts.foldl (aggStep dimension) {}).values
      = posts.filterMap (carried dimension) := by
    rw [foldl_aggStep_values]; rfl
  unfold Aggregate
  simp only [hvals]

/-- The Go function `Aggregate` returns the same Result on two lists that are
permutations of each other. -/
theorem Aggregate_perm (posts1 posts2 : List (Option Post)) (dimension : String)
    (hperm : posts1.Perm posts2) :
    Aggregate posts1 dimension = Aggregate posts2 dimension := by
  have hlen : posts1.length = posts2.length := hperm.length_eq
  have hvperm : (posts1.filterMap (carried dimension)).Perm
      (posts2.filterMap (carried dimension)) := hperm.filterMap _
  have hvlen := hvperm.length_eq
  have hsort : sortInts (posts1.filterMap (carried dimension))
      = sortInts (posts2.filterMap (carried dimension)) :=
    sortInts_unique _ _ ((List.perm_insertionSort _ _).trans hvperm.symm)
      (List.sorted_insertionSort _ _)
  have htperm : (timestamps posts1).Perm (timestamps posts2) := hperm.filterMap _
  obtain ⟨h1nil, h1ne⟩ := foldl_aggStep_minmax_initial dimension posts1 {} rfl
  obtain ⟨h2nil, h2ne⟩ := foldl_aggStep_minmax_initial dimension posts2 {} rfl
  have hminmax : (posts1.foldl (aggStep dimension) {}).minTS
        = (posts2.foldl (aggStep dimension) {}).minTS ∧
      (posts1.foldl (aggStep dimension) {}).maxTS
        = (posts2.foldl (aggStep dimension) {}).maxTS := by
    by_cases hnil : timestamps posts1 = []
    · have hnil2 : timestamps posts2 = [] := by
        rw [hnil] at htperm
        exact htperm.symm.eq_nil
      obtain ⟨a1, a2⟩ := h1nil hnil
      obtain ⟨b1, b2⟩ := h2nil hnil2
      exact ⟨a1.trans b1.symm, a2.trans b2.symm⟩
    · have hne2 : timestamps posts2 ≠ [] := by
        intro h
        rw [h] at htperm
        exact hnil htperm.eq_nil
      obtain ⟨a1, a2⟩ := h1ne hnil
      obtain ⟨b1, b2⟩ := h2ne hne2
      exact ⟨isMinOf_unique _ _ _ _ htperm a1 b1, isMaxOf_unique _ _ _ _ htperm a2 b2⟩
  rw [Aggregate_unfold, Aggregate_unfold, hlen, hvlen, hsort, hminmax.1, hminmax.2]

/-- C24: for every two event lists that are permutations of each other and
every dimension Aggregate returns the same Result; and the order in which
Query visits the buckets of the map does not change the outcome of an INDEXED
analysis. -/
theorem Aggregate_invariant_under_reordering (posts1 posts2 : List (Option Post))
    (dimension : String) (s : Store) (order : List (Int × bucket)) (now : Int)
    (req : Request) (hperm : posts1.Perm posts2) (horder : order.Perm s.buckets) :
    Aggregate posts1 dimension = Aggregate posts2 dimension ∧
    (Store.Query { buckets := order } req.Duration now).Perm (s.Query req.Duration now) ∧
    analyzeHistorical { buckets := order } now req = analyzeHistorical s now req := by
  have hq : (Store.Query { buckets := order } req.Duration now).Perm
      (s.Query req.Duration now) := by
    rw [Query_eq_flatMap, Query_eq_flatMap]
    exact List.Perm.flatMap_right _ (horder.filter _)
  refine ⟨Aggregate_perm posts1 posts2 dimension hperm, hq, ?_⟩
  have hagg := Aggregate_perm _ _ req.Dimension hq
  have hlen := hq.length_eq
  unfold analyzeHistorical
  simp only [hagg, hlen]

/-- Witness for C24: three events in two orders, and a store of two buckets
visited in two orders. -/
theorem Aggregate_invariant_under_reordering_witness :
    Aggregate [some { Timestamp := 7, Metrics := { Likes := some 30 } }, none,
        some { Timestamp := 3, Metrics := { Likes := some 10 } }] "likes"
      = Aggregate [none, some { Timestamp := 3, Metrics := { Likes := some 10 } },
        some { Timestamp := 7, Metrics := { Likes := some 30 } }] "likes" ∧
    analyzeHistorical
        { buckets := [(10, { posts := [some { Timestamp := 2 }] }),
            (0, { posts := [some { Timestamp := 1 }] })] }
        12 { Duration := 70 * Second, Dimension := "likes" }
      = analyzeHistorical
        { buckets := [(0, { posts := [some { Timestamp := 1 }] }),
            (10, { posts := [some { Timestamp := 2 }] })] }
        12 { Duration := 70 * Second, Dimension := "likes" } := by
  have h := Aggregate_invariant_under_reordering
    [some { Timestamp := 7, Metrics := { Likes := some 30 } }, none,
      some { Timestamp := 3, Metrics := { Likes := some 10 } }]
    [none, some { Timestamp := 3, Metrics := { Likes := some 10 } },
      some { Timestamp := 7, Metrics := { Likes := some 30 } }] "likes"
    { buckets := [(0, { posts := [some { Timestamp := 1 }] }),
        (10, { posts := [some { Timestamp := 2 }] })] }
    [(10, { posts := [some { Timestamp := 2 }] }), (0, { posts := [some { Timestamp := 1 }] })]
    12 { Duration := 70 * Second, Dimension := "likes" }
    (by decide) (List.Perm.swap _ _ [])
  exact ⟨h.1, h.2.2⟩

/-! ## No nil post in the store -/

/-- `Add` of a non-nil post keeps every bucket non-empty and free of nil. -/
theorem Add_keeps_posts (m : List (Int × bucket)) (t : Int) (p : Post)
    (h : ∀ e ∈ m, e.2.posts ≠ [] ∧ none ∉ e.2.posts) :
    ∀ e ∈ (Store.Add { buckets := m } t (some p)).buckets,
      e.2.posts ≠ [] ∧ none ∉ e.2.posts := by
  induction m with
  | nil =>
    rw [Add_buckets_nil]
    intro e he
    rw [List.mem_singleton] at he
    rw [he]
    simp
  | cons e0 rest ih =>
    rw [Add_buckets_cons]
    have hrest : ∀ e ∈ rest, e.2.posts ≠ [] ∧ none ∉ e.2.posts :=
      fun e he => h e (List.mem_cons_of_mem _ he)
    have h0 := h e0 (List.mem_cons_self _ _)
    by_cases hk : e0.1 = bucketKey t
    · rw [if_pos hk]
      intro e he
      rcases List.mem_cons.mp he with heq | hin
      · rw [heq]
        simp only [bucket.add]
        refine ⟨by simp, ?_⟩
        simp only [List.mem_append, List.mem_singleton, not_or]
        exact ⟨h0.2, by simp⟩
      · exact hrest e hin
    · rw [if_neg hk]
      intro e he
      rcases List.mem_cons.mp he with heq | hin
      · rw [heq]; exact h0
      · exact ih hrest e hin

/-- Every call keeps every bucket non-empty and free of nil. -/
theorem step_keeps_posts (s : Store) (now : Int) (op : Op)
    (h : ∀ e ∈ s.buckets, e.2.posts ≠ [] ∧ none ∉ e.2.posts) :
    ∀ e ∈ (s.step now op).buckets, e.2.posts ≠ [] ∧ none ∉ e.2.posts := by
  cases op with
  | add p =>
    cases p with
    | none => exact h
    | some post => exact Add_keeps_posts s.buckets now post h
  | query d => exact h
  | prune =>
    intro e he
    simp only [Store.step] at he
    rw [Prune_eq_filter] at he
    exact h e (List.mem_filter.mp he).1

/-- Every run of calls keeps every bucket non-empty and free of nil. -/
theorem run_keeps_posts (calls : List (Int × Op)) (s : Store)
    (h : ∀ e ∈ s.buckets, e.2.posts ≠ [] ∧ none ∉ e.2.posts) :
    ∀ e ∈ (s.run calls).buckets, e.2.posts ≠ [] ∧ none ∉ e.2.posts := by
  induction calls generalizing s with
  | nil => exact h
  | cons c rest ih =>
    have hrun : s.run (c :: rest) = (s.step c.1 c.2).run rest := by
      simp [Store.run]
    rw [hrun]
    exact ih _ (step_keeps_posts s c.1 c.2 h)

/-- C26: Add(nil) leaves the store unchanged; in every store reached from
NewStore by Add, Prune (and Query) calls every bucket is non-empty and holds no
nil post; hence Query returns no nil entry, and the TotalPosts of an INDEXED
result is the number of events Query returned, all of them non-null. -/
theorem Store_holds_no_nil (calls : List (Int × Op)) (s : Store) (now : Int)
    (req : Request) :
    s.Add now none = s ∧
    (∀ e ∈ (NewStore.run calls).buckets, e.2.posts ≠ [] ∧ none ∉ e.2.posts) ∧
    (∀ d t, none ∉ (NewStore.run calls).Query d t) ∧
    (∀ resp, analyzeHistorical (NewStore.run calls) now req = Except.ok resp →
      resp.Result.TotalPosts = ((NewStore.run calls).Query req.Duration now).length ∧
      resp.Result.TotalPosts
        = (((NewStore.run calls).Query req.Duration now).filter
            fun (p : Option Post) => p.isSome).length) := by
  have hinv : ∀ e ∈ (NewStore.run calls).buckets, e.2.posts ≠ [] ∧ none ∉ e.2.posts :=
    run_keeps_posts calls NewStore (by simp [NewStore])
  have hq : ∀ d t, none ∉ (NewStore.run calls).Query d t := by
    intro d t hmem
    rw [Query_eq_flatMap, List.mem_flatMap] at hmem
    obtain ⟨e, he, hp⟩ := hmem
    exact (hinv e (List.mem_filter.mp he).1).2 hp
  refine ⟨rfl, hinv, hq, fun resp hok => ?_⟩
  have htotal : resp.Result.TotalPosts
      = ((NewStore.run calls).Query req.Duration now).length := by
    unfold analyzeHistorical at hok
    simp only at hok
    split_ifs at hok
    injection hok with hok
    rw [← hok]
    exact Aggregate_TotalPosts_eq_length _ _
  refine ⟨htotal, ?_⟩
  rw [htotal]
  congr 1
  symm
  rw [List.filter_eq_self]
  intro p hp
  cases p with
  | none => exact absurd hp (hq _ _)
  | some _ => rfl

/-! ## Lock discipline of the store -/

/-- The locks held after two sequences of accesses in a row. -/
theorem Held_run_append (h : Held) (l1 l2 : List Access) :
    h.run (l1 ++ l2) = (h.run l1).bind fun h1 => h1.run l2 := by
  induction l1 generalizing h with
  | nil => rfl
  | cons a rest ih =>
    simp only [List.cons_append, Held.run]
    cases h.step a with
    | none => rfl
    | some h1 => exact ih h1

/-- The loop of `Query` keeps the discipline under the structural read lock. -/
theorem Query_loop_disciplined (cutoff : Int) (m : List (Int × bucket)) :
    Held.run { map := 1, buckets := [] }
        (m.flatMap fun e =>
          Access.mapRead ::
            (if e.1 ≥ cutoff then
              [Access.bucketRLock e.1, Access.postsRead e.1, Access.bucketRUnlock e.1]
            else []))
      = some { map := 1, buckets := [] } := by
  induction m with
  | nil => rfl
  | cons e rest ih =>
    rw [List.flatMap_cons, Held_run_append]
    by_cases hc : e.1 ≥ cutoff
    · simp [hc, Held.run, Held.step, ih]
    · simp [hc, Held.run, Held.step, ih]

/-- The loop of `Prune` keeps the discipline under the structural write lock. -/
theorem Prune_loop_disciplined (cutoff : Int) (m : List (Int × bucket)) :
    Held.run { map := 2, buckets := [] }
        (m.flatMap fun e =>
          Access.mapRead :: (if e.1 < cutoff then [Access.mapWrite] else []))
      = some { map := 2, buckets := [] } := by
  induction m with
  | nil => rfl
  | cons e rest ih =>
    rw [List.flatMap_cons, Held_run_append]
    by_cases hc : e.1 < cutoff
    · simp [hc, Held.run, Held.step, ih]
    · simp [hc, Held.run, Held.step, ih]

/-- The operations Add, Query, Prune and BucketCount keep the lock discipline
on every store. -/
theorem store_operations_disciplined (s : Store) (now duration : Int) (p : Option Post) :
    disciplined (s.AddAccesses now p) = true ∧
    disciplined (s.QueryAccesses duration now) = true ∧
    disciplined (s.PruneAccesses now) = true ∧
    disciplined s.BucketCountAccesses = true := by
  refine ⟨?_, ?_, ?_, rfl⟩
  · cases p with
    | none => rfl
    | some post =>
      unfold disciplined Store.AddAccesses
      cases hg : mapGet s.buckets (now.tdiv 5 * 5) with
      | none => simp [Held.run, Held.step, hg]
      | some b => simp [Held.run, Held.step, hg]
  · have hscript : s.QueryAccesses duration now
        = Access.mapRLock ::
          ((s.buckets.flatMap fun e =>
              Access.mapRead ::
                (if e.1 ≥ now - durationSeconds duration then
                  [Access.bucketRLock e.1, Access.postsRead e.1, Access.bucketRUnlock e.1]
                else [])) ++ [Access.mapRUnlock]) := rfl
    have hrun : Held.run {} (s.QueryAccesses duration now) = some {} := by
      rw [hscript, Held.run]
      have hstep : Held.step {} Access.mapRLock = some { map := 1, buckets := [] } := rfl
      rw [hstep]
      simp only
      rw [Held_run_append, Query_loop_disciplined]
      rfl
    unfold disciplined
    rw [hrun]
    rfl
  · have hscript : s.PruneAccesses now
        = Access.mapLock ::
          ((s.buckets.flatMap fun e =>
              Access.mapRead ::
                (if e.1 < now - durationSeconds maxRetention then [Access.mapWrite]
                else [])) ++ [Access.mapUnlock]) := rfl
    have hrun : Held.run {} (s.PruneAccesses now) = some {} := by
      rw [hscript, Held.run]
      have hstep : Held.step {} Access.mapLock = some { map := 2, buckets := [] } := rfl
      rw [hstep]
      simp only
      rw [Held_run_append, Prune_loop_disciplined]
      rfl
    unfold disciplined
    rw [hrun]
    rfl

/-- C23 (the code at the failing input): Add, Query, Prune and BucketCount
make every access under its lock, on every store, but TotalPosts reads the
posts of a bucket while holding only the structural lock: its accesses keep
the discipline only on a store without bucket, and break it on the store with
one bucket that an Add at time 9 leaves. -/
theorem TotalPosts_reads_posts_without_bucket_lock (s : Store) (now duration : Int)
    (p : Option Post) :
    disciplined (s.AddAccesses now p) = true ∧
    disciplined (s.QueryAccesses duration now) = true ∧
    disciplined (s.PruneAccesses now) = true ∧
    disciplined s.BucketCountAccesses = true ∧
    (disciplined s.TotalPostsAccesses = true ↔ s.buckets = []) ∧
    (NewStore.Add 9 (some { Timestamp := 1 })).TotalPostsAccesses
      = [Access.mapRLock, Access.mapRead, Access.postsRead 5, Access.mapRUnlock] ∧
    disciplined (NewStore.Add 9 (some { Timestamp := 1 })).TotalPostsAccesses = false := by
  obtain ⟨h1, h2, h3, h4⟩ := store_operations_disciplined s now duration p
  refine ⟨h1, h2, h3, h4, ?_, by decide, by decide⟩
  constructor
  · intro hd
    cases hb : s.buckets with
    | nil => rfl
    | cons e rest =>
      unfold disciplined Store.TotalPostsAccesses at hd
      rw [hb] at hd
      simp [Held.run, Held.step] at hd
  · intro hb
    unfold disciplined Store.TotalPostsAccesses
    rw [hb]
    decide

end Upfluence
